import Mathlib

/-! # The COOL lexer of `syntax/lexer/lexer.go`

A shallow embedding of the scanner (`Lexer`, `readChar`, `peekChar`,
`skipWhiteSpace`, `readNumber`, `readIdentifier`, `readString`, `NextToken`)
followed by theorems about the tokens it returns.

Conventions of the embedding.

* A Go `rune` delivered by `bufio.Reader.ReadRune` is a Unicode scalar value,
  so runes are Lean `Char`s and the reader is the list of runes not yet read.
* A Go `string` built with `strings.Builder.WriteRune` is kept as its list of
  runes; where the source looks at bytes (`sb.Len()`, `identifier[0]`) the
  UTF-8 encoding is computed from the runes.
* The counters `line` and `column` are Go `int`s that only ever grow by one
  per rune read; they are natural numbers here.
* Methods that mutate the receiver return the new `Lexer`.
* Every loop of the source reads a rune or stops, so it runs at most once per
  unread rune and once more; the loops are recursive functions on such a bound,
  and the theorems show that the bound is not reached.
* The line `fmt.Printf("Debug - EOF reached ...")` of the EOF case only writes
  to standard output and is left out.
-/

namespace CoolLexer

/-! ## Tokens -/

/-- The token kinds, in the order of the source's `const` block. -/
inductive TokenType where
  | EOF | ERROR
  | CLASS | INHERITS | ISVOID | IF | ELSE | FI | THEN | LET | IN | WHILE
  | CASE | ESAC | LOOP | POOL | NEW | OF | NOT
  | STR_CONST | BOOL_CONST | INT_CONST
  | TYPEID | OBJECTID
  | ASSIGN | DARROW | LT | LE | EQ | PLUS | MINUS | TIMES | DIVIDE
  | LPAREN | RPAREN | LBRACE | RBRACE | SEMI | COLON | COMMA | DOT | AT | NEG
deriving DecidableEq, Repr

/-- A lexical token: `Typ` is the source's field `Type`. -/
structure Token where
  Typ : TokenType
  Literal : String
  Line : Nat
  Column : Nat
deriving DecidableEq, Repr

/-- The scanner state. `reader` holds the runes not yet read. -/
structure Lexer where
  reader : List Char
  line : Nat
  column : Nat
  startLine : Nat
  startColumn : Nat
  char : Char
deriving DecidableEq, Repr

/-- The constructor `NewLexer`: line 1, column 0, current rune a blank. -/
def NewLexer (input : List Char) : Lexer :=
  { reader := input, line := 1, column := 0, startLine := 0, startColumn := 0, char := ' ' }

/-- The end-of-input sentinel `0` that `readChar` stores in `l.char`. -/
def NUL : Char := Char.ofNat 0

/-- The method `readChar`: at end of input the current rune becomes `0` and the
counters stay; otherwise the rune is read, the column grows, and a newline
starts a new line at column 0. -/
def readChar (l : Lexer) : Lexer :=
  match l.reader with
  | [] => { l with char := NUL }
  | c :: rest =>
    if c = '\n' then
      { l with reader := rest, char := c, line := l.line + 1, column := 0 }
    else
      { l with reader := rest, char := c, column := l.column + 1 }

/-- The method `peekChar`: the next rune, or `0` at end of input; the reader is
left as it was. -/
def peekChar (l : Lexer) : Char :=
  match l.reader with
  | [] => NUL
  | c :: _ => c

/-! ## The Go library functions the scanner calls -/

/-- The range tables of Go's `unicode` package for the code points that its
predicates do not decide by themselves: `Digit`, `Letter`, `Upper` and
`White_Space` are consulted above U+00FF only, `LowerCase` (the lower-case
mapping of `unicode.ToLower`) above U+007F only. The tables are data of the Go
distribution, so the scanner is parameterised by them. -/
structure UnicodeTables where
  Digit : Char → Bool
  Letter : Char → Bool
  Upper : Char → Bool
  White_Space : Char → Bool
  LowerCase : Char → Char

/-- The constant `unicode.MaxLatin1`. -/
def MaxLatin1 : Nat := 0xFF

/-- The constant `unicode.MaxASCII`. -/
def MaxASCII : Nat := 0x7F

/-- The letters of Latin-1 (the entries of `unicode.properties` with a letter
bit): A-Z, a-z, U+00AA, U+00B5, U+00BA, U+00C0-U+00D6, U+00D8-U+00F6,
U+00F8-U+00FF. -/
def latin1Letter (n : Nat) : Bool :=
  (0x41 ≤ n && n ≤ 0x5A) || (0x61 ≤ n && n ≤ 0x7A) || n == 0xAA || n == 0xB5 || n == 0xBA ||
  (0xC0 ≤ n && n ≤ 0xD6) || (0xD8 ≤ n && n ≤ 0xF6) || (0xF8 ≤ n && n ≤ 0xFF)

/-- The upper-case letters of Latin-1 (the entries of `unicode.properties` equal
to `pLu`): A-Z, U+00C0-U+00D6, U+00D8-U+00DE. -/
def latin1Upper (n : Nat) : Bool :=
  (0x41 ≤ n && n ≤ 0x5A) || (0xC0 ≤ n && n ≤ 0xD6) || (0xD8 ≤ n && n ≤ 0xDE)

/-- The function `unicode.IsSpace`. -/
def IsSpace (T : UnicodeTables) (r : Char) : Bool :=
  if r.toNat ≤ MaxLatin1 then
    r.toNat == 0x09 || r.toNat == 0x0A || r.toNat == 0x0B || r.toNat == 0x0C ||
    r.toNat == 0x0D || r.toNat == 0x20 || r.toNat == 0x85 || r.toNat == 0xA0
  else T.White_Space r

/-- The function `unicode.IsDigit`. -/
def IsDigit (T : UnicodeTables) (r : Char) : Bool :=
  if r.toNat ≤ MaxLatin1 then 0x30 ≤ r.toNat && r.toNat ≤ 0x39
  else T.Digit r

/-- The function `unicode.IsLetter`. -/
def IsLetter (T : UnicodeTables) (r : Char) : Bool :=
  if r.toNat ≤ MaxLatin1 then latin1Letter r.toNat
  else T.Letter r

/-- The function `unicode.IsUpper`. -/
def IsUpper (T : UnicodeTables) (r : Char) : Bool :=
  if r.toNat ≤ MaxLatin1 then latin1Upper r.toNat
  else T.Upper r

/-- The function `unicode.ToLower`. -/
def unicodeToLower (T : UnicodeTables) (r : Char) : Char :=
  if r.toNat ≤ MaxASCII then
    if 0x41 ≤ r.toNat ∧ r.toNat ≤ 0x5A then Char.ofNat (r.toNat + 0x20) else r
  else T.LowerCase r

/-- The function `strings.ToLower`: every rune mapped by `unicode.ToLower`. -/
def ToLower (T : UnicodeTables) (s : List Char) : List Char :=
  s.map (unicodeToLower T)

/-- The function `utf8.RuneLen` on a valid rune: the bytes of its encoding. -/
def RuneLen (r : Char) : Nat :=
  if r.toNat < 0x80 then 1
  else if r.toNat < 0x800 then 2
  else if r.toNat < 0x10000 then 3
  else 4

/-- The length `len(s)` of a Go string, in bytes. -/
def byteLen (s : List Char) : Nat :=
  (s.map RuneLen).sum

/-- The first byte of the UTF-8 encoding of a rune. -/
def leadByte (r : Char) : Nat :=
  if r.toNat < 0x80 then r.toNat
  else if r.toNat < 0x800 then 0xC0 + r.toNat / 0x40
  else if r.toNat < 0x10000 then 0xE0 + r.toNat / 0x1000
  else 0xF0 + r.toNat / 0x40000

/-- The value of a string of ASCII digits, read in base ten. -/
def digitsValue (s : List Char) : Nat :=
  s.foldl (fun n ch => n * 10 + (ch.toNat - 0x30)) 0

/-- The function `strconv.Atoi` for an `int` of `intSize` bits
(`strconv.IntSize`, 32 or 64 according to the platform): an optional sign, then
one or more bytes `0`..`9` whose value is in the range of `int`; `none` stands
for a returned error. -/
def Atoi (intSize : Nat) (s : List Char) : Option Int :=
  let neg := s.head? = some '-'
  let digits := if s.head? = some '-' ∨ s.head? = some '+' then s.tail else s
  if digits = [] then none
  else if digits.all (fun ch => 0x30 ≤ ch.toNat && ch.toNat ≤ 0x39) then
    if neg then
      if digitsValue digits ≤ 2 ^ (intSize - 1) then some (-(digitsValue digits : Int)) else none
    else
      if digitsValue digits < 2 ^ (intSize - 1) then some (digitsValue digits : Int) else none
  else none

/-! ## The scanner -/

/-- The loop `for p(l.char) { sb.WriteRune(l.char); l.readChar() }`, the body
of `skipWhiteSpace` (which keeps no builder), `readNumber`, `readIdentifier`
and of the line-comment loop of `NextToken`. The first argument bounds the
iterations. -/
def scanWhile (p : Char → Bool) : Nat → List Char → Lexer → List Char × Lexer
  | 0, sb, l => (sb, l)
  | n + 1, sb, l =>
    if p l.char then scanWhile p n (sb ++ [l.char]) (readChar l) else (sb, l)

/-- The method `skipWhiteSpace`. -/
def skipWhiteSpace (T : UnicodeTables) (l : Lexer) : Lexer :=
  (scanWhile (IsSpace T) (l.reader.length + 2) [] l).2

/-- The method `readNumber`. -/
def readNumber (T : UnicodeTables) (l : Lexer) : List Char × Lexer :=
  scanWhile (IsDigit T) (l.reader.length + 2) [] l

/-- The function `isIdentifierStart`. -/
def isIdentifierStart (T : UnicodeTables) (char : Char) : Bool :=
  IsLetter T char || char == '_'

/-- The function `isIdentifierPart`. -/
def isIdentifierPart (T : UnicodeTables) (char : Char) : Bool :=
  isIdentifierStart T char || IsDigit T char

/-- The method `readIdentifier`. -/
def readIdentifier (T : UnicodeTables) (l : Lexer) : List Char × Lexer :=
  scanWhile (isIdentifierPart T) (l.reader.length + 2) [] l

/-- The loop of `readString`, entered after the opening quote has been
consumed. It ends at a closing quote with the builder, or returns an error. -/
def readStringLoop : Nat → List Char → Lexer → Except String (List Char) × Lexer
  | 0, sb, l => (.ok sb, l)
  | n + 1, sb, l =>
    if l.char = '"' then (.ok sb, l)
    else if l.char = NUL then (.error "EOF in string constant", l)
    else if l.char = '\n' then (.error "Unterminated string constant", l)
    else if l.char = '\\' then
      let l1 := readChar l
      if l1.char = NUL then (.error "EOF in string constant", l1)
      else if l1.char = 'b' then readStringLoop n (sb ++ [Char.ofNat 0x08]) (readChar l1)
      else if l1.char = 't' then readStringLoop n (sb ++ ['\t']) (readChar l1)
      else if l1.char = 'n' then readStringLoop n (sb ++ ['\n']) (readChar l1)
      else if l1.char = 'f' then readStringLoop n (sb ++ [Char.ofNat 0x0C]) (readChar l1)
      else if l1.char = '\\' then readStringLoop n (sb ++ ['\\']) (readChar l1)
      else if l1.char = '"' then readStringLoop n (sb ++ ['"']) (readChar l1)
      else (.error "Invalid escape sequence in string", l1)
    else readStringLoop n (sb ++ [l.char]) (readChar l)

/-- The method `readString`. -/
def readString (l : Lexer) : Except String (List Char) × Lexer :=
  let l1 := readChar l
  match readStringLoop (l1.reader.length + 2) [] l1 with
  | (.error e, l2) => (.error e, l2)
  | (.ok sb, l2) =>
    let l3 := readChar l2
    if byteLen sb > 1024 then (.error "String constant too long", l3)
    else if NUL ∈ sb then (.error "String contains null character", l3)
    else (.ok sb, l3)

/-- The block-comment loop of `NextToken`, entered after `/*` has been
consumed: `false` with the state at end of input, or `true` with the state
after the closing `*/`. -/
def skipBlockComment : Nat → Lexer → Bool × Lexer
  | 0, l => (false, l)
  | n + 1, l =>
    if l.char = NUL then (false, l)
    else if l.char = '*' ∧ peekChar l = '/' then (true, readChar (readChar l))
    else skipBlockComment n (readChar l)

/-- The keyword switch of `NextToken` on the identifier just read. -/
def identifierType (T : UnicodeTables) (identifier : List Char) : TokenType :=
  let s := String.mk (ToLower T identifier)
  if s = "class" then .CLASS
  else if s = "if" then .IF
  else if s = "fi" then .FI
  else if s = "else" then .ELSE
  else if s = "then" then .THEN
  else if s = "case" then .CASE
  else if s = "esac" then .ESAC
  else if s = "while" then .WHILE
  else if s = "loop" then .LOOP
  else if s = "pool" then .POOL
  else if s = "of" then .OF
  else if s = "let" then .LET
  else if s = "in" then .IN
  else if s = "inherits" then .INHERITS
  else if s = "isvoid" then .ISVOID
  else if s = "new" then .NEW
  else if s = "not" then .NOT
  else if s = "true" ∨ s = "false" then .BOOL_CONST
  else
    match identifier with
    | [] => .OBJECTID
    | c :: _ => if IsUpper T (Char.ofNat (leadByte c)) then .TYPEID else .OBJECTID

/-- The assignments `l.startLine = l.line` and `l.startColumn = l.column` that
`NextToken` makes once white space is skipped. -/
def markStart (l : Lexer) : Lexer :=
  { l with startLine := l.line, startColumn := l.column }

/-- The `switch` of `NextToken` on the current rune, white space skipped and the
start position recorded; `again` is the call `l.NextToken()` that follows a
comment. -/
def NextTokenSwitch (T : UnicodeTables) (intSize : Nat) (again : Lexer → Token × Lexer)
    (l : Lexer) : Token × Lexer :=
  let tok : Token := { Typ := .EOF, Literal := "", Line := l.startLine, Column := l.startColumn }
  if l.char = '@' then ({ tok with Typ := .AT, Literal := "@" }, readChar l)
  else if l.char = NUL then ({ tok with Typ := .EOF, Literal := "" }, l)
  else if l.char = '(' then ({ tok with Typ := .LPAREN, Literal := "(" }, readChar l)
  else if l.char = ')' then ({ tok with Typ := .RPAREN, Literal := ")" }, readChar l)
  else if l.char = '\x7b' then ({ tok with Typ := .LBRACE, Literal := "\x7b" }, readChar l)
  else if l.char = '\x7d' then ({ tok with Typ := .RBRACE, Literal := "\x7d" }, readChar l)
  else if l.char = ';' then ({ tok with Typ := .SEMI, Literal := ";" }, readChar l)
  else if l.char = ':' then ({ tok with Typ := .COLON, Literal := ":" }, readChar l)
  else if l.char = ',' then ({ tok with Typ := .COMMA, Literal := "," }, readChar l)
  else if l.char = '+' then ({ tok with Typ := .PLUS, Literal := "+" }, readChar l)
  else if l.char = '*' then ({ tok with Typ := .TIMES, Literal := "*" }, readChar l)
  else if l.char = '-' then ({ tok with Typ := .MINUS, Literal := "-" }, readChar l)
  else if l.char = '/' then
    if peekChar l = '/' then
      again (scanWhile (fun c => c != '\n' && c != NUL) (l.reader.length + 2) [] l).2
    else if peekChar l = '*' then
      match skipBlockComment (l.reader.length + 2) (readChar (readChar l)) with
      | (false, l2) =>
        ({ Typ := .ERROR, Literal := "EOF in comment", Line := l2.line, Column := l2.column }, l2)
      | (true, l2) => again l2
    else ({ tok with Typ := .DIVIDE, Literal := "/" }, readChar l)
  else if l.char = '~' then ({ tok with Typ := .NEG, Literal := "~" }, readChar l)
  else if l.char = '.' then ({ tok with Typ := .DOT, Literal := "." }, readChar l)
  else if l.char = '=' then
    if peekChar l = '>' then ({ tok with Typ := .DARROW, Literal := "=>" }, readChar (readChar l))
    else ({ tok with Typ := .EQ, Literal := "=" }, readChar l)
  else if l.char = '<' then
    if peekChar l = '-' then ({ tok with Typ := .ASSIGN, Literal := "<-" }, readChar (readChar l))
    else if peekChar l = '=' then ({ tok with Typ := .LE, Literal := "<=" }, readChar (readChar l))
    else ({ tok with Typ := .LT, Literal := "<" }, readChar l)
  else if l.char = '"' then
    match readString l with
    | (.error e, l2) => ({ tok with Typ := .ERROR, Literal := e }, l2)
    | (.ok str, l2) => ({ tok with Typ := .STR_CONST, Literal := String.mk str }, l2)
  else if IsDigit T l.char then
    let (num, l2) := readNumber T l
    if (Atoi intSize num).isNone then
      ({ tok with Typ := .ERROR, Literal := "Number out of range" }, l2)
    else ({ tok with Typ := .INT_CONST, Literal := String.mk num }, l2)
  else if isIdentifierStart T l.char then
    let (identifier, l2) := readIdentifier T l
    ({ tok with Typ := identifierType T identifier, Literal := String.mk identifier }, l2)
  else
    ({ tok with Typ := .ERROR, Literal := "Unexpected character: " ++ String.singleton l.char },
      readChar l)

/-- The method `NextToken`, with a bound on the calls it makes to itself after
a comment: skip white space, record the start position, switch on the rune. -/
def NextTokenAux (T : UnicodeTables) (intSize : Nat) : Nat → Lexer → Token × Lexer
  | 0, l => ({ Typ := .EOF, Literal := "", Line := l.line, Column := l.column }, l)
  | fuel + 1, l =>
    NextTokenSwitch T intSize (NextTokenAux T intSize fuel) (markStart (skipWhiteSpace T l))

/-- The method `NextToken`: the token returned and the scanner afterwards. Each
call `NextToken` makes to itself follows a comment of at least one rune read, so
the bound `l.reader.length + 1` is never exhausted. -/
def NextToken (T : UnicodeTables) (intSize : Nat) (l : Lexer) : Token × Lexer :=
  NextTokenAux T intSize (l.reader.length + 1) l

/-- The tables with no entry: no code point above U+00FF is classified, and the
lower-case mapping above U+007F sends U+00C0-U+00DE (less U+00D7) to the letter
0x20 further on, as Go's tables do, and leaves every other rune as it is. On
input within Latin-1 the scanner behaves with these tables as with Go's. -/
def latin1Tables : UnicodeTables :=
  { Digit := fun _ => false
    Letter := fun _ => false
    Upper := fun _ => false
    White_Space := fun _ => false
    LowerCase := fun r =>
      if 0xC0 ≤ r.toNat ∧ r.toNat ≤ 0xDE ∧ r.toNat ≠ 0xD7 then Char.ofNat (r.toNat + 0x20) else r }

/-- The first `n` tokens returned by successive calls of `NextToken`. -/
def tokens (T : UnicodeTables) (intSize : Nat) : Nat → Lexer → List Token
  | 0, _ => []
  | n + 1, l => (NextToken T intSize l).1 :: tokens T intSize n (NextToken T intSize l).2

/-! ## The reader and the loops -/

/-- The current rune followed by the runes not yet read. -/
def pending (l : Lexer) : List Char := l.char :: l.reader

/-- The scanner is positioned at `rest`: its current rune is the first one of
`rest` (the sentinel when `rest` is empty) and the runes after it are unread,
so the next call of `NextToken` starts scanning at `rest`. -/
def positionedAt (l : Lexer) (rest : List Char) : Prop :=
  l.char = rest.headD NUL ∧ l.reader = rest.tail

/-- Letters, decimal digits and white space are separate classes of runes, as
they are in Unicode (general categories L and Nd, property White_Space) and so
in Go's tables. -/
def UnicodeTables.Separated (T : UnicodeTables) : Prop :=
  ∀ r : Char, (T.Letter r = true → T.White_Space r = false ∧ T.Digit r = false) ∧
    (T.Digit r = true → T.White_Space r = false)

/-- The keywords and the kind of each, with the two boolean constants, as the
specification lists them. -/
def keywordKinds : List (String × TokenType) :=
  [("class", .CLASS), ("if", .IF), ("then", .THEN), ("else", .ELSE), ("fi", .FI),
   ("while", .WHILE), ("loop", .LOOP), ("pool", .POOL), ("let", .LET), ("in", .IN),
   ("case", .CASE), ("esac", .ESAC), ("of", .OF), ("new", .NEW), ("isvoid", .ISVOID),
   ("not", .NOT), ("inherits", .INHERITS), ("true", .BOOL_CONST), ("false", .BOOL_CONST)]

/-- The word `w` spells `kw` (written in lower case) in some mix of upper- and
lower-case letters: rune by rune it is the letter of `kw` or that letter in
upper case, 0x20 below. -/
def isCasingOf : List Char → List Char → Bool
  | [], [] => true
  | c :: w, k :: kw => (c == k || c.toNat + 0x20 == k.toNat) && isCasingOf w kw
  | _, _ => false

/-- The tables of `latin1Tables` with the one range U+0660-U+0669 (the
Arabic-Indic digits) of Go's `Digit` table. -/
def arabicIndicTables : UnicodeTables :=
  { latin1Tables with Digit := fun r => 0x660 ≤ r.toNat && r.toNat ≤ 0x669 }

/-- The rune is one of the ASCII digits `0`..`9`. -/
def isAsciiDigit (ch : Char) : Bool :=
  0x30 ≤ ch.toNat && ch.toNat ≤ 0x39

/-- The six escape pairs of a string literal: the rune after the backslash and
the rune the pair stands for (backspace, tab, newline, form feed, backslash,
double quote), as the specification lists them. -/
def escapeOf (e : Char) : Option Char :=
  if e = 'b' then some (Char.ofNat 0x08)
  else if e = 't' then some (Char.ofNat 0x09)
  else if e = 'n' then some (Char.ofNat 0x0A)
  else if e = 'f' then some (Char.ofNat 0x0C)
  else if e = '\\' then some '\\'
  else if e = '"' then some '"'
  else none

/-- An ordinary rune of a string body: anything except the double quote, the
backslash, the newline and NUL. -/
def isOrdinary (c : Char) : Bool :=
  c != '"' && c != '\\' && c != '\n' && c != NUL

/-- The content a string body stands for, as the specification describes it:
every escape pair replaced by its rune, every ordinary rune kept; `none` when
the body is not made of ordinary runes and escape pairs only. -/
def decodeBody : List Char → Option (List Char)
  | [] => some []
  | c :: rest =>
    if c = '\\' then
      match rest with
      | [] => none
      | e :: rest2 =>
        match escapeOf e, decodeBody rest2 with
        | some x, some d => some (x :: d)
        | _, _ => none
    else if isOrdinary c then
      match decodeBody rest with
      | some d => some (c :: d)
      | none => none
    else none

/-- The kind and the literal of a token, without its position. -/
def kindLiteral (t : Token) : TokenType × String := (t.Typ, t.Literal)

/-- Two scanner states with the same current rune and the same unread runes;
they may differ in the position counters. -/
def sameInput (a b : Lexer) : Prop :=
  a.char = b.char ∧ a.reader = b.reader

/-- The punctuation runes that start a token, as the specification lists
them. -/
def punctuation : List Char :=
  ['@', '(', ')', '\x7b', '\x7d', ';', ':', ',', '+', '-', '*', '/', '~', '.', '=', '<']

/-- The line of the rune that follows the runes `pre`: 1 plus the number of
newlines in `pre`. -/
def lineOf (pre : List Char) : Nat :=
  1 + pre.count '\n'

/-- The number of runes of `pre` after its most recent newline. -/
def columnOf (pre : List Char) : Nat :=
  (pre.reverse.takeWhile (fun c => c != '\n')).length

/-- The scanner state follows `input`: the runes read so far, `pre`, and the
unread runes make up the input, the counters are the line and the column after
`pre`, and the current rune, unless it is the sentinel, is the last rune
read. -/
def Tracks (input : List Char) (l : Lexer) : Prop :=
  ∃ pre, pre ++ l.reader = input ∧ l.line = lineOf pre ∧ l.column = columnOf pre ∧
    (l.char ≠ NUL → ∃ pre0, pre = pre0 ++ [l.char])

/-- The tokens of one rune that the switch of `NextToken` returns: the rune,
the kind and the literal. For `/`, `=` and `<` this is the case where the next
rune starts neither a comment nor a two-rune operator. -/
def singleTokens : List (Char × TokenType × String) :=
  [('@', .AT, "@"), ('(', .LPAREN, "("), (')', .RPAREN, ")"), ('\x7b', .LBRACE, "\x7b"),
   ('\x7d', .RBRACE, "\x7d"), (';', .SEMI, ";"), (':', .COLON, ":"), (',', .COMMA, ","),
   ('+', .PLUS, "+"), ('*', .TIMES, "*"), ('-', .MINUS, "-"), ('/', .DIVIDE, "/"),
   ('~', .NEG, "~"), ('.', .DOT, "."), ('=', .EQ, "="), ('<', .LT, "<")]

/-- The operators of two runes that the switch of `NextToken` returns: the two
runes, the kind and the literal. -/
def doubleTokens : List (Char × Char × TokenType × String) :=
  [('=', '>', .DARROW, "=>"), ('<', '-', .ASSIGN, "<-"), ('<', '=', .LE, "<=")]

/-- The scanner after `n` calls of `NextToken`. -/
def run (T : UnicodeTables) (intSize : Nat) : Nat → Lexer → Lexer
  | 0, l => l
  | n + 1, l => run T intSize n (NextToken T intSize l).2

/-- The kinds that the keyword switch gives an identifier. -/
def identifierKinds : List TokenType :=
  [.CLASS, .IF, .FI, .ELSE, .THEN, .CASE, .ESAC, .WHILE, .LOOP, .POOL, .OF, .LET, .IN,
   .INHERITS, .ISVOID, .NEW, .NOT, .BOOL_CONST, .TYPEID, .OBJECTID]

/-- The result of a call is an EOF token only at the sentinel: the state has the
sentinel as current rune, its start position is its position, and the token is
the EOF token at that position. -/
def atEnd (res : Token × Lexer) : Prop :=
  res.1.Typ = .EOF →
    res.2.char = NUL ∧ res.2.startLine = res.2.line ∧ res.2.startColumn = res.2.column ∧
    res.1 = { Typ := .EOF, Literal := "", Line := res.2.line, Column := res.2.column }

/-- The number of runes not yet consumed: the unread runes and the current rune,
unless it is the sentinel. -/
def unread (l : Lexer) : Nat :=
  l.reader.length + (if l.char = NUL then 0 else 1)

/-- The token is not the EOF token. -/
def nonEOF (t : Token) : Bool :=
  t.Typ != .EOF

/-- No NUL is left to read, and the current rune is the sentinel only at the end
of the input: the state of a scanner on an input without NUL. -/
def NulFree (l : Lexer) : Prop :=
  NUL ∉ l.reader ∧ (l.char = NUL → l.reader = [])

/-- The runes contain the two runes `*/` that close a block comment. -/
def hasCommentEnd : List Char → Bool
  | [] => false
  | c :: rest => (c == '*' && rest.head? == some '/') || hasCommentEnd rest

/-- The messages of the errors that `readString` returns. -/
def stringErrors : List String :=
  ["EOF in string constant", "Unterminated string constant",
   "Invalid escape sequence in string", "String constant too long",
   "String contains null character"]

/-- Lexing the literal of the token `t` alone gives `t` back: for an EOF token
the literal is empty and the fresh scanner returns EOF at once; for any other
token the fresh scanner returns one token of the same kind and literal, and
then EOF. -/
def roundTrips (T : UnicodeTables) (intSize : Nat) (t : Token) : Prop :=
  (t.Typ = .EOF → t.Literal = "" ∧
    kindLiteral (NextToken T intSize (NewLexer t.Literal.data)).1 = (.EOF, "")) ∧
  (t.Typ ≠ .EOF →
    (tokens T intSize 2 (NewLexer t.Literal.data)).map kindLiteral =
      [kindLiteral t, (.EOF, "")])

/-- The current rune and the unread runes of the scanner are ASCII runes, for
which the Go predicates do not consult the range tables. -/
def asciiState (l : Lexer) : Prop :=
  l.char.toNat ≤ MaxASCII ∧ ∀ c ∈ l.reader, c.toNat ≤ MaxASCII

/-- The runes the scanner skips between two tokens: white space, line comments
with the newline that ends them, and block comments up to their first `*/`. -/
inductive Skippable (T : UnicodeTables) : List Char → Prop
  | nil : Skippable T []
  | space (c : Char) (gap : List Char) : IsSpace T c = true → Skippable T gap →
      Skippable T (c :: gap)
  | line (s gap : List Char) : NUL ∉ s → '\n' ∉ s → Skippable T gap →
      Skippable T ('/' :: '/' :: (s ++ '\n' :: gap))
  | block (body gap : List Char) : NUL ∉ body → hasCommentEnd body = false →
      Skippable T gap → Skippable T ('/' :: '*' :: (body ++ '*' :: '/' :: gap))

/-- The runes `x` begin with the first rune of a token: a rune that is neither
white space nor NUL and that does not open a comment. -/
def tokenStart (T : UnicodeTables) : List Char → Prop
  | [] => False
  | c :: more => IsSpace T c = false ∧ c ≠ NUL ∧
      (c = '/' → more.head? ≠ some '/' ∧ more.head? ≠ some '*')

/-- The runes `r` of `input` are what the scanner `l` has still to scan before a
call: the whole input for the fresh scanner, and otherwise the runes the
scanner is positioned at. -/
def unreadAt (input : List Char) (l : Lexer) (r : List Char) : Prop :=
  (l = NewLexer input ∧ r = input) ∨ positionedAt l r

/-- The token `t` carries the position of the rune that `x` begins with, for a
scanner that has consumed `done` and has `r` still to scan: `r` is a gap of
skipped runes followed by `x`, `x` begins with the first rune of a token, the
line of `t` is 1 plus the number of newlines before that rune and the column of
`t` is the 1-based index of that rune within its line. -/
def startsFrom (T : UnicodeTables) (done r : List Char) (t : Token) (x : List Char) : Prop :=
  ∃ gap, r = gap ++ x ∧ Skippable T gap ∧ tokenStart T x ∧
    t.Line = lineOf (done ++ gap) ∧ t.Column = columnOf (done ++ gap) + 1

/-- The token `t`, returned by a call on the scanner `before`, carries the
position of the rune that `x` begins with: the input is the runes consumed
before the call followed by the runes `before` has still to scan, and among
these `x` follows a gap of skipped runes (see `startsFrom`). -/
def firstRuneAt (T : UnicodeTables) (input : List Char) (before : Lexer) (t : Token)
    (x : List Char) : Prop :=
  ∃ done r, input = done ++ r ∧ unreadAt input before r ∧ startsFrom T done r t x

/-- The text of a token that is neither EOF nor ERROR: for a string constant
the opening quote, a body that decodes to the literal and the closing quote;
for any other token the literal itself. -/
def lexemeOf (t : Token) (lexeme : List Char) : Prop :=
  (t.Typ = .STR_CONST ∧
    ∃ body, lexeme = '"' :: (body ++ ['"']) ∧ decodeBody body = some t.Literal.data) ∨
  (t.Typ ≠ .STR_CONST ∧ lexeme = t.Literal.data ∧ lexeme ≠ [])

/-- The token `t`, returned by the call that takes the scanner from `before` to
`after`, carries the position of its own first rune: what `before` has still to
scan is a gap of skipped runes, the text `lexeme` of the token and `rest`; the
position of `t` is that of the first rune of `lexeme`; and the scanner is left
positioned at `rest`. -/
def located (T : UnicodeTables) (input : List Char) (before after : Lexer) (t : Token) :
    Prop :=
  ∃ lexeme rest, firstRuneAt T input before t (lexeme ++ rest) ∧ lexemeOf t lexeme ∧
    positionedAt after rest

/-- The messages of an ERROR token and the rune `c` its text begins with: the
opening quote for the errors of a string literal, a digit for a number out of
range, the rune that the literal names for an unexpected character. -/
def errorShape (T : UnicodeTables) (t : Token) (c : Char) : Prop :=
  (c = '"' ∧ t.Literal ∈ stringErrors) ∨
  (IsDigit T c = true ∧ t.Literal = "Number out of range") ∨
  t.Literal = "Unexpected character: " ++ String.singleton c

/-- The ERROR token `t`, returned by a call on the scanner `before`, carries
the position of the first rune of the text in error: that rune follows a gap of
skipped runes in what `before` has still to scan, and it is the opening quote
of the string literal, the first digit of the number, or the unexpected
rune. -/
def atLexemeStart (T : UnicodeTables) (input : List Char) (before : Lexer) (t : Token) :
    Prop :=
  ∃ c more, firstRuneAt T input before t (c :: more) ∧ errorShape T t c

/-- The token `t` carries the counters of the scanner `after`, which has
stopped at the sentinel: the line and the column after the runes `pre` read so
far, which are the whole input when the input has no NUL. -/
def atInputEnd (input : List Char) (t : Token) (after : Lexer) : Prop :=
  after.char = NUL ∧ ∃ pre, input = pre ++ after.reader ∧ t.Line = lineOf pre ∧
    t.Column = columnOf pre ∧ (NUL ∉ input → after.reader = [])

/-- What a call returns for a scanner that has consumed `done` and has `r`
still to scan: a token that is neither EOF nor ERROR is at its own first rune
and the scanner is left after its text; an ERROR token is "EOF in comment" with
the counters at the end of the input, or is at the first rune of the text in
error. -/
def scannedFrom (T : UnicodeTables) (input done r : List Char) (res : Token × Lexer) : Prop :=
  (res.1.Typ ≠ .EOF → res.1.Typ ≠ .ERROR →
    ∃ lexeme rest, startsFrom T done r res.1 (lexeme ++ rest) ∧ lexemeOf res.1 lexeme ∧
      positionedAt res.2 rest) ∧
  (res.1.Typ = .ERROR →
    (res.1.Literal = "EOF in comment" ∧ atInputEnd input res.1 res.2) ∨
    ∃ c more, startsFrom T done r res.1 (c :: more) ∧ errorShape T res.1 c)

theorem readChar_nil (l : Lexer) (h : l.reader = []) :
    readChar l = { l with char := NUL } := by
  simp [readChar, h]

theorem readChar_char_cons (l : Lexer) (c : Char) (r : List Char) (h : l.reader = c :: r) :
    (readChar l).char = c ∧ (readChar l).reader = r := by
  unfold readChar
  rw [h]
  by_cases hc : c = '\n' <;> simp [hc]

theorem readChar_reader_length_le (l : Lexer) :
    (readChar l).reader.length ≤ l.reader.length := by
  cases h : l.reader with
  | nil => simp [readChar, h]
  | cons c r => rw [(readChar_char_cons l c r h).2]; simp

theorem readChar_positionedAt (l : Lexer) (r : List Char) (h : l.reader = r) :
    positionedAt (readChar l) r := by
  cases r with
  | nil => simp [positionedAt, readChar, h]
  | cons c r => simpa [positionedAt] using readChar_char_cons l c r h

theorem scanWhile_stop (p : Char → Bool) (n : Nat) (sb : List Char) (l : Lexer)
    (h : p l.char = false) : scanWhile p n sb l = (sb, l) := by
  cases n <;> simp [scanWhile, h]

/-- The loop reads exactly the longest run of runes satisfying `p`. -/
theorem scanWhile_eq (p : Char → Bool) (hp : p NUL = false) :
    ∀ (n : Nat) (sb : List Char) (l : Lexer), l.reader.length + 1 ≤ n →
      scanWhile p n sb l =
        (sb ++ (pending l).takeWhile p, readChar^[((pending l).takeWhile p).length] l) := by
  intro n
  induction n with
  | zero => intro sb l h; omega
  | succ n ih =>
    intro sb l h
    by_cases hc : p l.char = true
    · cases hr : l.reader with
      | nil =>
        have h1 : p (readChar l).char = false := by simp [readChar, hr, hp]
        simp [scanWhile, hc, pending, hr, scanWhile_stop p n _ _ h1]
      | cons c r =>
        obtain ⟨h1, h2⟩ := readChar_char_cons l c r hr
        have h3 : (readChar l).reader.length + 1 ≤ n := by rw [h2]; rw [hr] at h; simpa using h
        have h4 := ih (sb ++ [l.char]) (readChar l) h3
        simp only [scanWhile, hc, if_true, h4]
        simp [pending, hc, h1, h2, hr]
    · have hc2 : p l.char = false := by simpa using hc
      simp [scanWhile, hc2, pending]

theorem pending_readChar (l : Lexer) (h : l.reader ≠ []) :
    pending (readChar l) = l.reader := by
  cases hr : l.reader with
  | nil => exact absurd hr h
  | cons c r =>
    obtain ⟨h1, h2⟩ := readChar_char_cons l c r hr
    simp [pending, h1, h2]

theorem pending_iterate_readChar (c : Char) (r : List Char) :
    ∀ (ws : List Char) (l : Lexer), pending l = ws ++ c :: r →
      pending (readChar^[ws.length] l) = c :: r := by
  intro ws
  induction ws with
  | nil => intro l h; simpa using h
  | cons w ws ih =>
    intro l h
    have hr : l.reader = ws ++ c :: r := by
      simp only [pending, List.cons_append, List.cons.injEq] at h
      exact h.2
    have h1 : pending (readChar l) = ws ++ c :: r := by
      rw [pending_readChar l (by rw [hr]; simp), hr]
    simpa [Function.iterate_succ_apply] using ih (readChar l) h1

theorem IsSpace_NUL (T : UnicodeTables) : IsSpace T NUL = false := by
  simp [IsSpace, NUL, MaxLatin1]

theorem skipWhiteSpace_eq (T : UnicodeTables) (l : Lexer) :
    skipWhiteSpace T l = readChar^[((pending l).takeWhile (IsSpace T)).length] l := by
  unfold skipWhiteSpace
  rw [scanWhile_eq (IsSpace T) (IsSpace_NUL T) _ [] l (by omega)]

theorem skipWhiteSpace_of_not_space (T : UnicodeTables) (l : Lexer)
    (h : IsSpace T l.char = false) : skipWhiteSpace T l = l := by
  unfold skipWhiteSpace
  rw [scanWhile_stop _ _ _ _ h]

/-- Skipping white space stops at the first rune that is not white space. -/
theorem skipWhiteSpace_pending (T : UnicodeTables) (l : Lexer) (ws : List Char) (c : Char)
    (r : List Char) (hws : ∀ x ∈ ws, IsSpace T x = true) (hc : IsSpace T c = false)
    (h : pending l = ws ++ c :: r) :
    (skipWhiteSpace T l).char = c ∧ (skipWhiteSpace T l).reader = r := by
  have h1 : (pending l).takeWhile (IsSpace T) = ws := by
    rw [h, List.takeWhile_append_of_pos hws]
    simp [List.takeWhile, hc]
  have h2 := pending_iterate_readChar c r ws l h
  rw [skipWhiteSpace_eq, h1]
  simpa [pending] using h2

theorem positionedAt_readChar_readChar (l : Lexer) (c : Char) (rest : List Char)
    (h : l.reader = c :: rest) : positionedAt (readChar (readChar l)) rest :=
  readChar_positionedAt _ _ (readChar_char_cons l c rest h).2

theorem IsSpace_punct (T : UnicodeTables) :
    IsSpace T '<' = false ∧ IsSpace T '=' = false ∧ IsSpace T '/' = false := by
  simp [IsSpace, MaxLatin1]

/-- C3. Maximal munch with one rune of lookahead, from any scanner state whose
pending runes are white space `ws` followed by the operator: `<-` is ASSIGN,
`<=` is LE, `<` before anything else or at end of input is LT, `=>` is DARROW,
`=` before anything else is EQ, `/` before anything but `/` and `*` is DIVIDE;
the literal is the operator as written and the scanner is left positioned at
the rune right after it. -/
theorem NextToken_maximal_munch (T : UnicodeTables) (intSize : Nat) (l : Lexer)
    (ws rest : List Char) (hws : ∀ c ∈ ws, IsSpace T c = true) :
    (pending l = ws ++ '<' :: '-' :: rest →
      (NextToken T intSize l).1.Typ = .ASSIGN ∧ (NextToken T intSize l).1.Literal = "<-" ∧
        positionedAt (NextToken T intSize l).2 rest) ∧
    (pending l = ws ++ '<' :: '=' :: rest →
      (NextToken T intSize l).1.Typ = .LE ∧ (NextToken T intSize l).1.Literal = "<=" ∧
        positionedAt (NextToken T intSize l).2 rest) ∧
    (pending l = ws ++ '<' :: rest → rest.head? ≠ some '-' → rest.head? ≠ some '=' →
      (NextToken T intSize l).1.Typ = .LT ∧ (NextToken T intSize l).1.Literal = "<" ∧
        positionedAt (NextToken T intSize l).2 rest) ∧
    (pending l = ws ++ '=' :: '>' :: rest →
      (NextToken T intSize l).1.Typ = .DARROW ∧ (NextToken T intSize l).1.Literal = "=>" ∧
        positionedAt (NextToken T intSize l).2 rest) ∧
    (pending l = ws ++ '=' :: rest → rest.head? ≠ some '>' →
      (NextToken T intSize l).1.Typ = .EQ ∧ (NextToken T intSize l).1.Literal = "=" ∧
        positionedAt (NextToken T intSize l).2 rest) ∧
    (pending l = ws ++ '/' :: rest → rest.head? ≠ some '/' → rest.head? ≠ some '*' →
      (NextToken T intSize l).1.Typ = .DIVIDE ∧ (NextToken T intSize l).1.Literal = "/" ∧
        positionedAt (NextToken T intSize l).2 rest) := by
  obtain ⟨hlt, heq, hdiv⟩ := IsSpace_punct T
  refine ⟨?_, ?_, ?_, ?_, ?_, ?_⟩
  · intro h
    obtain ⟨h1, h2⟩ := skipWhiteSpace_pending T l ws '<' ('-' :: rest) hws hlt h
    simp only [NextToken, NextTokenAux, NextTokenSwitch, markStart]
    simp [h1, h2, peekChar, NUL]
    exact positionedAt_readChar_readChar _ '-' rest rfl
  · intro h
    obtain ⟨h1, h2⟩ := skipWhiteSpace_pending T l ws '<' ('=' :: rest) hws hlt h
    simp only [NextToken, NextTokenAux, NextTokenSwitch, markStart]
    simp [h1, h2, peekChar, NUL]
    exact positionedAt_readChar_readChar _ '=' rest rfl
  · intro h hm he
    obtain ⟨h1, h2⟩ := skipWhiteSpace_pending T l ws '<' rest hws hlt h
    simp only [NextToken, NextTokenAux, NextTokenSwitch, markStart]
    cases rest with
    | nil =>
      simp [h1, h2, peekChar, NUL]
      exact readChar_positionedAt _ _ rfl
    | cons c r =>
      have hm1 : c ≠ '-' := by simpa using hm
      have he1 : c ≠ '=' := by simpa using he
      simp [h1, h2, peekChar, NUL, hm1, he1]
      exact readChar_positionedAt _ _ rfl
  · intro h
    obtain ⟨h1, h2⟩ := skipWhiteSpace_pending T l ws '=' ('>' :: rest) hws heq h
    simp only [NextToken, NextTokenAux, NextTokenSwitch, markStart]
    simp [h1, h2, peekChar, NUL]
    exact positionedAt_readChar_readChar _ '>' rest rfl
  · intro h hg
    obtain ⟨h1, h2⟩ := skipWhiteSpace_pending T l ws '=' rest hws heq h
    simp only [NextToken, NextTokenAux, NextTokenSwitch, markStart]
    cases rest with
    | nil =>
      simp [h1, h2, peekChar, NUL]
      exact readChar_positionedAt _ _ rfl
    | cons c r =>
      have hg1 : c ≠ '>' := by simpa using hg
      simp [h1, h2, peekChar, NUL, hg1]
      exact readChar_positionedAt _ _ rfl
  · intro h hs ha
    obtain ⟨h1, h2⟩ := skipWhiteSpace_pending T l ws '/' rest hws hdiv h
    simp only [NextToken, NextTokenAux, NextTokenSwitch, markStart]
    cases rest with
    | nil =>
      simp [h1, h2, peekChar, NUL]
      exact readChar_positionedAt _ _ rfl
    | cons c r =>
      have hs1 : c ≠ '/' := by simpa using hs
      have ha1 : c ≠ '*' := by simpa using ha
      simp [h1, h2, peekChar, NUL, hs1, ha1]
      exact readChar_positionedAt _ _ rfl

theorem NextToken_maximal_munch_witness :
    ((NextToken latin1Tables 64 (NextToken latin1Tables 64 (NewLexer "x <- 5".toList)).2).1.Typ = .ASSIGN ∧
      (NextToken latin1Tables 64 (NextToken latin1Tables 64 (NewLexer "x <- 5".toList)).2).1.Literal = "<-" ∧
      positionedAt (NextToken latin1Tables 64 (NextToken latin1Tables 64 (NewLexer "x <- 5".toList)).2).2 " 5".toList) :=
  (NextToken_maximal_munch latin1Tables 64 (NextToken latin1Tables 64 (NewLexer "x <- 5".toList)).2
    [' '] " 5".toList (by decide)).1 (by decide)

/-! ## Identifiers and keywords -/

theorem positionedAt_iterate (rest : List Char) :
    ∀ (w : List Char) (l : Lexer), w ≠ [] → pending l = w ++ rest →
      positionedAt (readChar^[w.length] l) rest := by
  intro w
  induction w with
  | nil => intro l h; exact absurd rfl h
  | cons a w ih =>
    intro l _ h
    have hr : l.reader = w ++ rest := by
      simp only [pending, List.cons_append, List.cons.injEq] at h
      exact h.2
    cases w with
    | nil => simpa using readChar_positionedAt l rest (by simpa using hr)
    | cons b w =>
      have h1 : pending (readChar l) = (b :: w) ++ rest := by
        rw [pending_readChar l (by rw [hr]; simp), hr]
      simpa [Function.iterate_succ_apply] using ih (readChar l) (by simp) h1

/-- A loop over a run `w` of runes satisfying `p`, followed by a rune that does
not or by the end of input, returns `w` and leaves the scanner after it. -/
theorem scanWhile_run (p : Char → Bool) (hp : p NUL = false) (l : Lexer) (w rest : List Char)
    (hpend : pending l = w ++ rest) (hall : ∀ x ∈ w, p x = true)
    (hrest : ∀ x, rest.head? = some x → p x = false) :
    scanWhile p (l.reader.length + 2) [] l = (w, readChar^[w.length] l) := by
  have h1 : (pending l).takeWhile p = w := by
    rw [hpend, List.takeWhile_append_of_pos hall]
    cases rest with
    | nil => simp
    | cons x r => simp [List.takeWhile, hrest x rfl]
  rw [scanWhile_eq p hp _ [] l (by omega), h1]
  simp

theorem IsDigit_NUL (T : UnicodeTables) : IsDigit T NUL = false := by
  simp [IsDigit, NUL, MaxLatin1]

theorem isIdentifierPart_NUL (T : UnicodeTables) : isIdentifierPart T NUL = false := by
  simp [isIdentifierPart, isIdentifierStart, IsLetter, IsDigit, NUL, MaxLatin1, latin1Letter]

theorem isIdentifierStart_ne (T : UnicodeTables) (c : Char) (h : isIdentifierStart T c = true) :
    c ≠ '@' ∧ c ≠ NUL ∧ c ≠ '(' ∧ c ≠ ')' ∧ c ≠ '\x7b' ∧ c ≠ '\x7d' ∧ c ≠ ';' ∧ c ≠ ':' ∧
    c ≠ ',' ∧ c ≠ '+' ∧ c ≠ '*' ∧ c ≠ '-' ∧ c ≠ '/' ∧ c ≠ '~' ∧ c ≠ '.' ∧ c ≠ '=' ∧
    c ≠ '<' ∧ c ≠ '"' := by
  refine ⟨?_, ?_, ?_, ?_, ?_, ?_, ?_, ?_, ?_, ?_, ?_, ?_, ?_, ?_, ?_, ?_, ?_, ?_⟩ <;>
    (rintro rfl
     simp [isIdentifierStart, IsLetter, MaxLatin1, latin1Letter, NUL] at h)

/-- The switch on a rune that starts an identifier: the whole run of identifier
runes is the literal, classified by `identifierType`. -/
theorem NextTokenSwitch_identifier (T : UnicodeTables) (intSize : Nat)
    (again : Lexer → Token × Lexer) (l : Lexer) (c : Char) (cs rest : List Char)
    (hpend : pending l = (c :: cs) ++ rest)
    (hstart : isIdentifierStart T c = true) (hdigit : IsDigit T c = false)
    (hall : ∀ x ∈ cs, isIdentifierPart T x = true)
    (hrest : ∀ x, rest.head? = some x → isIdentifierPart T x = false) :
    NextTokenSwitch T intSize again l =
      ({ Typ := identifierType T (c :: cs), Literal := String.mk (c :: cs),
         Line := l.startLine, Column := l.startColumn }, readChar^[cs.length + 1] l) := by
  have hchar : l.char = c := by
    simp only [pending, List.cons_append, List.cons.injEq] at hpend
    exact hpend.1
  have hall2 : ∀ x ∈ c :: cs, isIdentifierPart T x = true := by
    intro x hx
    rcases List.mem_cons.mp hx with rfl | hx
    · simp [isIdentifierPart, hstart]
    · exact hall x hx
  have hread := scanWhile_run (isIdentifierPart T) (isIdentifierPart_NUL T) l (c :: cs) rest
    hpend hall2 hrest
  obtain ⟨n1, n2, n3, n4, n5, n6, n7, n8, n9, n10, n11, n12, n13, n14, n15, n16, n17, n18⟩ :=
    isIdentifierStart_ne T c hstart
  simp only [NextTokenSwitch, readIdentifier, hread, hchar]
  simp [n1, n2, n3, n4, n5, n6, n7, n8, n9, n10, n11, n12, n13, n14, n15, n16, n17, n18,
    hdigit, hstart]

theorem skipWhiteSpace_iterate (T : UnicodeTables) (l : Lexer) (ws : List Char) (c : Char)
    (r : List Char) (hws : ∀ x ∈ ws, IsSpace T x = true) (hc : IsSpace T c = false)
    (h : pending l = ws ++ c :: r) :
    skipWhiteSpace T l = readChar^[ws.length] l := by
  have h1 : (pending l).takeWhile (IsSpace T) = ws := by
    rw [h, List.takeWhile_append_of_pos hws]
    simp [List.takeWhile, hc]
  rw [skipWhiteSpace_eq, h1]

theorem IsSpace_blank (T : UnicodeTables) : IsSpace T ' ' = true := by
  simp [IsSpace, MaxLatin1]

/-- The first call on a fresh scanner whose input starts with a rune that is not
white space: the switch runs on that rune, at line 1, column 1. -/
theorem NextToken_NewLexer_cons (T : UnicodeTables) (intSize : Nat) (c : Char) (r : List Char)
    (hc : IsSpace T c = false) :
    NextToken T intSize (NewLexer (c :: r)) =
      NextTokenSwitch T intSize (NextTokenAux T intSize (r.length + 1))
        { reader := r, line := 1, column := 1, startLine := 1, startColumn := 1, char := c } := by
  have h1 : skipWhiteSpace T (NewLexer (c :: r)) = readChar (NewLexer (c :: r)) := by
    have := skipWhiteSpace_iterate T (NewLexer (c :: r)) [' '] c r
      (by intro x hx; simp at hx; rw [hx]; exact IsSpace_blank T) hc rfl
    simpa using this
  have hn : c ≠ '\n' := by
    rintro rfl
    simp [IsSpace, MaxLatin1] at hc
  simp only [NextToken, NextTokenAux, h1]
  simp [NewLexer, readChar, markStart, hn]

theorem asciiLetter_facts (T : UnicodeTables) (x : Char)
    (h : (0x41 ≤ x.toNat ∧ x.toNat ≤ 0x5A) ∨ (0x61 ≤ x.toNat ∧ x.toNat ≤ 0x7A)) :
    IsLetter T x = true ∧ IsSpace T x = false ∧ IsDigit T x = false := by
  have h1 : x.toNat ≤ MaxLatin1 := by simp only [MaxLatin1]; omega
  refine ⟨?_, ?_, ?_⟩
  · simp only [IsLetter, h1, if_true, latin1Letter]
    rcases h with h | h <;> simp [h.1, h.2]
  · simp only [IsSpace, h1, if_true]
    simp only [Bool.or_eq_false_iff, beq_eq_false_iff_ne, ne_eq]
    refine ⟨⟨⟨⟨⟨⟨⟨?_, ?_⟩, ?_⟩, ?_⟩, ?_⟩, ?_⟩, ?_⟩, ?_⟩ <;> omega
  · simp only [IsDigit, h1, if_true]
    simp only [Bool.and_eq_false_iff, decide_eq_false_iff_not]
    omega

theorem isCasingOf_lower (T : UnicodeTables) :
    ∀ (kw w : List Char), (∀ k ∈ kw, 0x61 ≤ k.toNat ∧ k.toNat ≤ 0x7A) →
      isCasingOf w kw = true →
      ToLower T w = kw ∧
        ∀ x ∈ w, (0x41 ≤ x.toNat ∧ x.toNat ≤ 0x5A) ∨ (0x61 ≤ x.toNat ∧ x.toNat ≤ 0x7A) := by
  intro kw
  induction kw with
  | nil =>
    intro w _ h
    cases w with
    | nil => simp [ToLower]
    | cons c w => simp [isCasingOf] at h
  | cons k kw ih =>
    intro w hk h
    cases w with
    | nil => simp [isCasingOf] at h
    | cons c w =>
      simp only [isCasingOf, Bool.and_eq_true, Bool.or_eq_true, beq_iff_eq] at h
      obtain ⟨hc, hw⟩ := h
      obtain ⟨ih1, ih2⟩ := ih w (fun x hx => hk x (List.mem_cons_of_mem _ hx)) hw
      have hk1 := hk k (List.mem_cons_self _ _)
      have hlow : unicodeToLower T c = k := by
        rcases hc with rfl | hc
        · have : ¬ (0x41 ≤ c.toNat ∧ c.toNat ≤ 0x5A) := by omega
          have h7 : c.toNat ≤ MaxASCII := by simp only [MaxASCII]; omega
          simp [unicodeToLower, h7, this]
        · have : 0x41 ≤ c.toNat ∧ c.toNat ≤ 0x5A := by omega
          have h7 : c.toNat ≤ MaxASCII := by simp only [MaxASCII]; omega
          simp only [unicodeToLower, h7, this, if_true, and_self]
          rw [hc, Char.ofNat_toNat]
      refine ⟨?_, ?_⟩
      · simp only [ToLower, List.map_cons, hlow, List.cons.injEq, true_and]
        exact ih1
      · intro x hx
        rcases List.mem_cons.mp hx with rfl | hx
        · rcases hc with rfl | hc
          · right; exact hk1
          · left; omega
        · exact ih2 x hx

/-- A fresh scanner on an input that is one identifier lexeme returns it whole,
classified by the keyword switch. -/
theorem NextToken_NewLexer_identifier (T : UnicodeTables) (intSize : Nat) (c : Char)
    (cs : List Char) (hstart : isIdentifierStart T c = true) (hspace : IsSpace T c = false)
    (hdigit : IsDigit T c = false) (hall : ∀ x ∈ cs, isIdentifierPart T x = true) :
    (NextToken T intSize (NewLexer (c :: cs))).1 =
      { Typ := identifierType T (c :: cs), Literal := String.mk (c :: cs),
        Line := 1, Column := 1 } := by
  rw [NextToken_NewLexer_cons T intSize c cs hspace,
    NextTokenSwitch_identifier T intSize _ _ c cs [] (by simp [pending]) hstart hdigit hall
      (by simp)]

theorem NextToken_casing (T : UnicodeTables) (intSize : Nat) (kw w : List Char)
    (hlow : ∀ k ∈ kw, 0x61 ≤ k.toNat ∧ k.toNat ≤ 0x7A) (hne : kw ≠ [])
    (hw : isCasingOf w kw = true) :
    (NextToken T intSize (NewLexer w)).1 =
      { Typ := identifierType T w, Literal := String.mk w, Line := 1, Column := 1 } ∧
    ToLower T w = kw := by
  obtain ⟨h1, h2⟩ := isCasingOf_lower T kw w hlow hw
  refine ⟨?_, h1⟩
  cases w with
  | nil =>
    cases kw with
    | nil => exact absurd rfl hne
    | cons k kw => simp [isCasingOf] at hw
  | cons c cs =>
    have hc := asciiLetter_facts T c (h2 c (List.mem_cons_self _ _))
    refine NextToken_NewLexer_identifier T intSize c cs ?_ hc.2.1 hc.2.2 ?_
    · simp [isIdentifierStart, hc.1]
    · intro x hx
      have hx1 := asciiLetter_facts T x (h2 x (List.mem_cons_of_mem _ hx))
      simp [isIdentifierPart, isIdentifierStart, hx1.1]

/-- C1. Every spelling `w`, in any mix of upper- and lower-case letters, of one
of the 17 keywords or of `true`/`false` is returned by `NextToken` on the input
`w` as a token of that keyword's kind (BOOL_CONST for the boolean constants),
never TYPEID nor OBJECTID, whose literal is `w` as written. -/
theorem NextToken_keyword_any_casing (T : UnicodeTables) (intSize : Nat) (kw : String)
    (ty : TokenType) (hk : (kw, ty) ∈ keywordKinds) (w : List Char)
    (hw : isCasingOf w kw.toList = true) :
    (NextToken T intSize (NewLexer w)).1.Typ = ty ∧
    (NextToken T intSize (NewLexer w)).1.Literal = String.mk w ∧
    ty ≠ .TYPEID ∧ ty ≠ .OBJECTID := by
  obtain ⟨p, hp, rfl, rfl⟩ : ∃ p ∈ keywordKinds, p.1 = kw ∧ p.2 = ty := ⟨(kw, ty), hk, rfl, rfl⟩
  unfold keywordKinds at hp
  fin_cases hp
  all_goals
    obtain ⟨h1, h2⟩ := NextToken_casing T intSize _ w (by decide) (by decide) hw
    rw [h1]
    simp [identifierType, h2]

theorem NextToken_keyword_any_casing_witness :
    (NextToken latin1Tables 64 (NewLexer "InHeRiTs".toList)).1.Typ = .INHERITS ∧
    (NextToken latin1Tables 64 (NewLexer "InHeRiTs".toList)).1.Literal = "InHeRiTs" ∧
    TokenType.INHERITS ≠ .TYPEID ∧ TokenType.INHERITS ≠ .OBJECTID :=
  NextToken_keyword_any_casing latin1Tables 64 "inherits" .INHERITS (by decide)
    "InHeRiTs".toList (by decide)

theorem latin1Letter_facts (T : UnicodeTables) (c : Char) (h1 : c.toNat ≤ MaxLatin1)
    (h : latin1Letter c.toNat = true) : IsSpace T c = false ∧ IsDigit T c = false := by
  simp only [latin1Letter, Bool.or_eq_true, Bool.and_eq_true, decide_eq_true_eq,
    beq_iff_eq] at h
  refine ⟨?_, ?_⟩
  · simp only [IsSpace, h1, if_true]
    simp only [Bool.or_eq_false_iff, beq_eq_false_iff_ne, ne_eq]
    refine ⟨⟨⟨⟨⟨⟨⟨?_, ?_⟩, ?_⟩, ?_⟩, ?_⟩, ?_⟩, ?_⟩, ?_⟩ <;> omega
  · simp only [IsDigit, h1, if_true]
    simp only [Bool.and_eq_false_iff, decide_eq_false_iff_not]
    omega

/-- With separated tables a rune that starts an identifier is neither white
space nor a digit. -/
theorem isIdentifierStart_facts (T : UnicodeTables) (hT : T.Separated) (c : Char)
    (h : isIdentifierStart T c = true) : IsSpace T c = false ∧ IsDigit T c = false := by
  simp only [isIdentifierStart, Bool.or_eq_true, beq_iff_eq] at h
  rcases h with h | rfl
  · by_cases h1 : c.toNat ≤ MaxLatin1
    · simp only [IsLetter, h1, if_true] at h
      exact latin1Letter_facts T c h1 h
    · simp only [IsLetter, h1, if_false] at h
      simpa [IsSpace, IsDigit, h1] using (hT c).1 h
  · simp [IsSpace, IsDigit, MaxLatin1]

/-- What the code does on an identifier lexeme that is no keyword: the literal
is the lexeme, and the kind is TYPEID exactly when the first byte of the
lexeme's UTF-8 encoding, taken as a rune, is an upper-case letter. -/
theorem NextToken_identifier_lead_byte (T : UnicodeTables) (hT : T.Separated) (intSize : Nat)
    (c : Char) (cs : List Char) (hstart : isIdentifierStart T c = true)
    (hall : ∀ x ∈ cs, isIdentifierPart T x = true)
    (hkw : ∀ p ∈ keywordKinds, String.mk (ToLower T (c :: cs)) ≠ p.1) :
    (NextToken T intSize (NewLexer (c :: cs))).1 =
      { Typ := if IsUpper T (Char.ofNat (leadByte c)) then .TYPEID else .OBJECTID,
        Literal := String.mk (c :: cs), Line := 1, Column := 1 } := by
  obtain ⟨h1, h2⟩ := isIdentifierStart_facts T hT c hstart
  rw [NextToken_NewLexer_identifier T intSize c cs hstart h1 h2 hall]
  simp only [keywordKinds, List.mem_cons, List.mem_singleton, List.not_mem_nil, or_false,
    forall_eq_or_imp, forall_eq] at hkw
  obtain ⟨k1, k2, k3, k4, k5, k6, k7, k8, k9, k10, k11, k12, k13, k14, k15, k16, k17, k18, k19⟩ :=
    hkw
  simp only [identifierType, k1, k2, k3, k4, k5, k6, k7, k8, k9, k10, k11, k12, k13, k14, k15,
    k16, k17, k18, k19, if_false, or_self]

theorem leadByte_ascii (c : Char) (h : c.toNat < 0x80) : Char.ofNat (leadByte c) = c := by
  simp [leadByte, h]

/-- On an identifier lexeme whose first rune is ASCII and that is no keyword, the
kind is TYPEID exactly when the first rune is an upper-case letter, else
OBJECTID (so for a lexeme that starts with an underscore). -/
theorem NextToken_identifier_ascii (T : UnicodeTables) (hT : T.Separated) (intSize : Nat)
    (c : Char) (cs : List Char) (hascii : c.toNat < 0x80)
    (hstart : isIdentifierStart T c = true)
    (hall : ∀ x ∈ cs, isIdentifierPart T x = true)
    (hkw : ∀ p ∈ keywordKinds, String.mk (ToLower T (c :: cs)) ≠ p.1) :
    (NextToken T intSize (NewLexer (c :: cs))).1.Literal = String.mk (c :: cs) ∧
    ((NextToken T intSize (NewLexer (c :: cs))).1.Typ = .TYPEID ↔ IsUpper T c = true) ∧
    (IsUpper T c = false → (NextToken T intSize (NewLexer (c :: cs))).1.Typ = .OBJECTID) := by
  rw [NextToken_identifier_lead_byte T hT intSize c cs hstart hall hkw, leadByte_ascii c hascii]
  by_cases hu : IsUpper T c = true <;> simp [hu]

theorem latin1Tables_separated : latin1Tables.Separated := by
  intro r
  simp [latin1Tables]

theorem NextToken_identifier_ascii_witness :
    (NextToken latin1Tables 64 (NewLexer "Main".toList)).1.Literal = "Main" ∧
    ((NextToken latin1Tables 64 (NewLexer "Main".toList)).1.Typ = .TYPEID ↔
      IsUpper latin1Tables 'M' = true) ∧
    (IsUpper latin1Tables 'M' = false →
      (NextToken latin1Tables 64 (NewLexer "Main".toList)).1.Typ = .OBJECTID) :=
  NextToken_identifier_ascii latin1Tables latin1Tables_separated 64 'M' "ain".toList
    (by decide) (by decide) (by decide) (by decide)

/-- C2, at the input `é` (U+00E9, a lower-case letter, encoded as the bytes C3
A9): the lexeme is an identifier that is no keyword and its first rune is not
upper case, yet the token is TYPEID, because `identifier[0]` is the byte C3,
which as a rune is the upper-case letter U+00C3. -/
theorem NextToken_identifier_first_byte :
    isIdentifierStart latin1Tables (Char.ofNat 0xE9) = true ∧
    IsUpper latin1Tables (Char.ofNat 0xE9) = false ∧
    (∀ p ∈ keywordKinds, String.mk (ToLower latin1Tables [Char.ofNat 0xE9]) ≠ p.1) ∧
    (NextToken latin1Tables 64 (NewLexer [Char.ofNat 0xE9])).1 =
      { Typ := .TYPEID, Literal := String.mk [Char.ofNat 0xE9], Line := 1, Column := 1 } := by
  decide

/-! ## Integer literals -/

theorem IsDigit_ne (T : UnicodeTables) (c : Char) (h : IsDigit T c = true) :
    c ≠ '@' ∧ c ≠ NUL ∧ c ≠ '(' ∧ c ≠ ')' ∧ c ≠ '\x7b' ∧ c ≠ '\x7d' ∧ c ≠ ';' ∧ c ≠ ':' ∧
    c ≠ ',' ∧ c ≠ '+' ∧ c ≠ '*' ∧ c ≠ '-' ∧ c ≠ '/' ∧ c ≠ '~' ∧ c ≠ '.' ∧ c ≠ '=' ∧
    c ≠ '<' ∧ c ≠ '"' := by
  refine ⟨?_, ?_, ?_, ?_, ?_, ?_, ?_, ?_, ?_, ?_, ?_, ?_, ?_, ?_, ?_, ?_, ?_, ?_⟩ <;>
    (rintro rfl
     simp [IsDigit, MaxLatin1, NUL] at h)

theorem IsDigit_not_space (T : UnicodeTables) (hT : T.Separated) (c : Char)
    (h : IsDigit T c = true) : IsSpace T c = false := by
  by_cases h1 : c.toNat ≤ MaxLatin1
  · simp only [IsDigit, h1, if_true, Bool.and_eq_true, decide_eq_true_eq] at h
    simp only [IsSpace, h1, if_true]
    simp only [Bool.or_eq_false_iff, beq_eq_false_iff_ne, ne_eq]
    refine ⟨⟨⟨⟨⟨⟨⟨?_, ?_⟩, ?_⟩, ?_⟩, ?_⟩, ?_⟩, ?_⟩, ?_⟩ <;> omega
  · simp only [IsDigit, h1, if_false] at h
    simpa [IsSpace, h1] using (hT c).2 h

/-- On a string that starts with a digit rune `strconv.Atoi` succeeds exactly
when every rune is an ASCII digit and the value is below `2 ^ (intSize - 1)`. -/
theorem Atoi_isNone (T : UnicodeTables) (intSize : Nat) (c : Char) (cs : List Char)
    (h : IsDigit T c = true) :
    (Atoi intSize (c :: cs)).isNone = true ↔
      ¬ ((∀ x ∈ c :: cs, isAsciiDigit x = true) ∧ digitsValue (c :: cs) < 2 ^ (intSize - 1)) := by
  obtain ⟨_, _, _, _, _, _, _, _, _, n10, _, n12, _⟩ := IsDigit_ne T c h
  have e1 : ¬ (some c = some '-') := by simpa using n12
  have e2 : ¬ (some c = some '+') := by simpa using n10
  by_cases hall : ∀ x ∈ c :: cs, isAsciiDigit x = true
  · have hall2 : (c :: cs).all (fun ch => decide (0x30 ≤ ch.toNat) && decide (ch.toNat ≤ 0x39))
        = true := by
      rw [List.all_eq_true]
      intro x hx
      simpa [isAsciiDigit] using hall x hx
    by_cases hv : digitsValue (c :: cs) < 2 ^ (intSize - 1)
    · have hA : Atoi intSize (c :: cs) = some (digitsValue (c :: cs) : Int) := by
        simp only [Atoi, List.head?_cons, e1, e2, or_self, if_false, hall2, if_true, hv]
        simp
      rw [hA]
      exact ⟨fun h => by simp at h, fun h => absurd ⟨hall, hv⟩ h⟩
    · have hA : Atoi intSize (c :: cs) = none := by
        simp only [Atoi, List.head?_cons, e1, e2, or_self, if_false, hall2, if_true, hv]
        simp
      rw [hA]
      exact ⟨fun _ h => hv h.2, fun _ => by simp⟩
  · have hall2 : (c :: cs).all (fun ch => decide (0x30 ≤ ch.toNat) && decide (ch.toNat ≤ 0x39))
        = false := by
      rw [Bool.eq_false_iff]
      intro hh
      rw [List.all_eq_true] at hh
      apply hall
      intro x hx
      simpa [isAsciiDigit] using hh x hx
    have hA : Atoi intSize (c :: cs) = none := by
      simp only [Atoi, List.head?_cons, e1, e2, or_self, if_false, hall2]
      simp
    rw [hA]
    exact ⟨fun _ h => hall h.1, fun _ => by simp⟩

/-- The switch on a digit rune: the whole run of digit runes is read, and the
token is INT_CONST or the range error according to `strconv.Atoi`. -/
theorem NextTokenSwitch_number (T : UnicodeTables) (intSize : Nat)
    (again : Lexer → Token × Lexer) (l : Lexer) (c : Char) (cs rest : List Char)
    (hpend : pending l = (c :: cs) ++ rest)
    (hall : ∀ x ∈ c :: cs, IsDigit T x = true)
    (hrest : ∀ x, rest.head? = some x → IsDigit T x = false) :
    NextTokenSwitch T intSize again l =
      (if (Atoi intSize (c :: cs)).isNone = true then
          { Typ := .ERROR, Literal := "Number out of range",
            Line := l.startLine, Column := l.startColumn }
        else
          { Typ := .INT_CONST, Literal := String.mk (c :: cs),
            Line := l.startLine, Column := l.startColumn },
       readChar^[cs.length + 1] l) := by
  have hchar : l.char = c := by
    simp only [pending, List.cons_append, List.cons.injEq] at hpend
    exact hpend.1
  have hc := hall c (List.mem_cons_self _ _)
  have hread := scanWhile_run (IsDigit T) (IsDigit_NUL T) l (c :: cs) rest hpend hall hrest
  obtain ⟨n1, n2, n3, n4, n5, n6, n7, n8, n9, n10, n11, n12, n13, n14, n15, n16, n17, n18⟩ :=
    IsDigit_ne T c hc
  simp only [NextTokenSwitch, readNumber, hread, hchar]
  simp only [n1, n2, n3, n4, n5, n6, n7, n8, n9, n10, n11, n12, n13, n14, n15, n16, n17, n18,
    hc, if_false, if_true, List.length_cons]
  split <;> rfl

/-- C5, as amended. For every input that starts with a maximal run `d` of
runes accepted by `unicode.IsDigit`, `NextToken` returns INT_CONST with literal
`d` if every rune of `d` is one of `0`..`9` and the value of `d` fits an `int`
of `intSize` bits (it is below `2 ^ (intSize - 1)`), and the ERROR token
"Number out of range" otherwise; in both cases the whole run is consumed. -/
theorem NextToken_number (T : UnicodeTables) (hT : T.Separated) (intSize : Nat)
    (d rest : List Char) (hd : d ≠ []) (hall : ∀ x ∈ d, IsDigit T x = true)
    (hrest : ∀ x, rest.head? = some x → IsDigit T x = false) :
    (((∀ x ∈ d, isAsciiDigit x = true) ∧ digitsValue d < 2 ^ (intSize - 1)) →
      (NextToken T intSize (NewLexer (d ++ rest))).1.Typ = .INT_CONST ∧
      (NextToken T intSize (NewLexer (d ++ rest))).1.Literal = String.mk d) ∧
    (¬ ((∀ x ∈ d, isAsciiDigit x = true) ∧ digitsValue d < 2 ^ (intSize - 1)) →
      (NextToken T intSize (NewLexer (d ++ rest))).1.Typ = .ERROR ∧
      (NextToken T intSize (NewLexer (d ++ rest))).1.Literal = "Number out of range") ∧
    positionedAt (NextToken T intSize (NewLexer (d ++ rest))).2 rest := by
  cases d with
  | nil => exact absurd rfl hd
  | cons c cs =>
    have hc := hall c (List.mem_cons_self _ _)
    have hA := Atoi_isNone T intSize c cs hc
    have hsw := NextTokenSwitch_number T intSize (NextTokenAux T intSize ((cs ++ rest).length + 1))
      { reader := cs ++ rest, line := 1, column := 1, startLine := 1, startColumn := 1, char := c }
      c cs rest rfl hall hrest
    have hnt := NextToken_NewLexer_cons T intSize c (cs ++ rest) (IsDigit_not_space T hT c hc)
    rw [List.cons_append, hnt, hsw]
    refine ⟨?_, ?_, ?_⟩
    · intro h
      have : ¬ (Atoi intSize (c :: cs)).isNone = true := fun hn => hA.mp hn h
      simp [this]
    · intro h
      simp [hA.mpr h]
    · exact positionedAt_iterate rest (c :: cs) _ (by simp) rfl

theorem NextToken_number_witness :
    ((NextToken latin1Tables 64 (NewLexer ("42".toList ++ " x".toList))).1.Typ = .INT_CONST ∧
      (NextToken latin1Tables 64 (NewLexer ("42".toList ++ " x".toList))).1.Literal = "42") ∧
    ((NextToken latin1Tables 32 (NewLexer ("2147483648".toList ++ []))).1.Typ = .ERROR ∧
      (NextToken latin1Tables 32 (NewLexer ("2147483648".toList ++ []))).1.Literal =
        "Number out of range") ∧
    positionedAt (NextToken latin1Tables 64 (NewLexer ("42".toList ++ " x".toList))).2
      " x".toList :=
  ⟨(NextToken_number latin1Tables latin1Tables_separated 64 "42".toList " x".toList
      (by decide) (by decide) (by decide)).1 (by decide),
   (NextToken_number latin1Tables latin1Tables_separated 32 "2147483648".toList []
      (by decide) (by decide) (by decide)).2.1 (by decide),
   (NextToken_number latin1Tables latin1Tables_separated 64 "42".toList " x".toList
      (by decide) (by decide) (by decide)).2.2⟩

/-- C5 fails as stated. Where `int` has 64 bits the digit run `2147483648`,
whose value does not fit a signed 32-bit integer, is returned as INT_CONST; and
a run of ASCII digits followed by another Unicode digit (here `1` before
U+0662) is read as one run, which `strconv.Atoi` rejects, so the ERROR token is
returned although the value of the ASCII run fits. -/
theorem NextToken_number_not_32_bit :
    ¬ (digitsValue "2147483648".toList ≤ 2147483647) ∧
    (NextToken latin1Tables 64 (NewLexer "2147483648".toList)).1 =
      { Typ := .INT_CONST, Literal := "2147483648", Line := 1, Column := 1 } ∧
    digitsValue ['1'] ≤ 2147483647 ∧
    isAsciiDigit (Char.ofNat 0x662) = false ∧
    (NextToken arabicIndicTables 32 (NewLexer ['1', Char.ofNat 0x662])).1 =
      { Typ := .ERROR, Literal := "Number out of range", Line := 1, Column := 1 } := by
  decide

/-! ## String literals -/

theorem positionedAt_cons (l : Lexer) (c : Char) (r : List Char) :
    positionedAt l (c :: r) ↔ l.char = c ∧ l.reader = r := by
  simp [positionedAt]

theorem positionedAt_nil (l : Lexer) :
    positionedAt l [] ↔ l.char = NUL ∧ l.reader = [] := by
  simp [positionedAt]

theorem positionedAt_readChar_of (l : Lexer) (c : Char) (r : List Char)
    (h : positionedAt l (c :: r)) : positionedAt (readChar l) r :=
  readChar_positionedAt l r ((positionedAt_cons l c r).mp h).2

theorem positionedAt_iterate_append (rest : List Char) :
    ∀ (w : List Char) (l : Lexer), positionedAt l (w ++ rest) →
      positionedAt (readChar^[w.length] l) rest := by
  intro w
  induction w with
  | nil => intro l h; simpa using h
  | cons a w ih =>
    intro l h
    have h1 := positionedAt_readChar_of l a (w ++ rest) h
    simpa [Function.iterate_succ_apply] using ih (readChar l) h1

theorem readStringLoop_ordinary (n : Nat) (sb : List Char) (l : Lexer)
    (h : isOrdinary l.char = true) :
    readStringLoop (n + 1) sb l = readStringLoop n (sb ++ [l.char]) (readChar l) := by
  simp only [isOrdinary, Bool.and_eq_true, bne_iff_ne, ne_eq] at h
  obtain ⟨⟨⟨h1, h2⟩, h3⟩, h4⟩ := h
  simp [readStringLoop, h1, h2, h3, h4]

theorem readStringLoop_escape (n : Nat) (sb : List Char) (l : Lexer) (x : Char)
    (h : l.char = '\\') (he : escapeOf (readChar l).char = some x) :
    readStringLoop (n + 1) sb l = readStringLoop n (sb ++ [x]) (readChar (readChar l)) := by
  have hq : ¬ ('\\' = '"') := by decide
  have hz : ¬ ('\\' = NUL) := by decide
  have hn : ¬ ('\\' = '\n') := by decide
  simp only [readStringLoop, h, hq, hz, hn, if_false, if_true]
  simp only [escapeOf] at he
  split_ifs at he with e1 e2 e3 e4 e5 e6
  · cases he; simp [e1, NUL]
  · cases he; simp [e2, NUL]
  · cases he; simp [e3, NUL]
  · cases he; simp [e4, NUL]
  · cases he; simp [e5, NUL]
  · cases he; simp [e6, NUL]

/-- The loop of `readString` over a well-formed body: it appends the decoded
content to the builder and goes on after the body. -/
theorem readStringLoop_body (tail : List Char) (m : Nat) :
    ∀ (len : Nat) (body : List Char), body.length ≤ len →
      ∀ (decoded : List Char), decodeBody body = some decoded →
      ∀ (n : Nat) (sb : List Char) (l : Lexer), positionedAt l (body ++ tail) →
        body.length + m ≤ n →
        ∃ n2, m ≤ n2 ∧ readStringLoop n sb l =
          readStringLoop n2 (sb ++ decoded) (readChar^[body.length] l) := by
  intro len
  induction len with
  | zero =>
    intro body hlen decoded hdec n sb l _ hn
    have hb : body = [] := List.length_eq_zero.mp (Nat.le_zero.mp hlen)
    subst hb
    simp only [decodeBody, Option.some.injEq] at hdec
    subst hdec
    exact ⟨n, by simpa using hn, by simp⟩
  | succ len ih =>
    intro body hlen decoded hdec n sb l hpos hn
    cases body with
    | nil =>
      simp only [decodeBody, Option.some.injEq] at hdec
      subst hdec
      exact ⟨n, by simpa using hn, by simp⟩
    | cons c rest =>
      have hc : l.char = c := ((positionedAt_cons l c (rest ++ tail)).mp hpos).1
      have hpos1 : positionedAt (readChar l) (rest ++ tail) :=
        positionedAt_readChar_of l c (rest ++ tail) hpos
      obtain ⟨n0, rfl⟩ : ∃ n0, n = n0 + 1 := ⟨n - 1, by simp at hn; omega⟩
      by_cases hbs : c = '\\'
      · subst hbs
        cases rest with
        | nil => simp [decodeBody] at hdec
        | cons e rest2 =>
          simp only [decodeBody, if_true] at hdec
          cases hx : escapeOf e with
          | none => simp [hx] at hdec
          | some x =>
            cases hd : decodeBody rest2 with
            | none => simp [hx, hd] at hdec
            | some d =>
              simp only [hx, hd, Option.some.injEq] at hdec
              subst hdec
              have he : (readChar l).char = e :=
                ((positionedAt_cons _ e (rest2 ++ tail)).mp hpos1).1
              have hpos2 : positionedAt (readChar (readChar l)) (rest2 ++ tail) :=
                positionedAt_readChar_of _ e (rest2 ++ tail) hpos1
              obtain ⟨n2, hn2, heq⟩ := ih rest2 (by simp at hlen; omega) d hd n0 (sb ++ [x])
                (readChar (readChar l)) hpos2 (by simp at hn; omega)
              refine ⟨n2, hn2, ?_⟩
              rw [readStringLoop_escape n0 sb l x hc (by rw [he]; exact hx), heq]
              simp [Function.iterate_succ_apply]
      · rw [decodeBody.eq_def] at hdec
        simp only [hbs, if_false] at hdec
        by_cases ho : isOrdinary c = true
        · simp only [ho, if_true] at hdec
          cases hd : decodeBody rest with
          | none => simp [hd] at hdec
          | some d =>
            simp only [hd, Option.some.injEq] at hdec
            subst hdec
            obtain ⟨n2, hn2, heq⟩ := ih rest (by simp at hlen; omega) d hd n0 (sb ++ [c])
              (readChar l) hpos1 (by simp at hn; omega)
            refine ⟨n2, hn2, ?_⟩
            rw [readStringLoop_ordinary n0 sb l (by rw [hc]; exact ho), hc, heq]
            simp [Function.iterate_succ_apply]
        · simp [ho] at hdec

/-- Induction over the bodies that `decodeBody` accepts. -/
theorem decodeBody_induction (P : List Char → List Char → Prop) (hnil : P [] [])
    (hord : ∀ c rest d, isOrdinary c = true → decodeBody rest = some d → P rest d →
      P (c :: rest) (c :: d))
    (hesc : ∀ e x rest d, escapeOf e = some x → decodeBody rest = some d → P rest d →
      P ('\\' :: e :: rest) (x :: d)) :
    ∀ (len : Nat) (body : List Char), body.length ≤ len →
      ∀ d, decodeBody body = some d → P body d := by
  intro len
  induction len with
  | zero =>
    intro body hlen d hdec
    have hb : body = [] := List.length_eq_zero.mp (Nat.le_zero.mp hlen)
    subst hb
    simp only [decodeBody, Option.some.injEq] at hdec
    subst hdec
    exact hnil
  | succ len ih =>
    intro body hlen d hdec
    cases body with
    | nil =>
      simp only [decodeBody, Option.some.injEq] at hdec
      subst hdec
      exact hnil
    | cons c rest =>
      by_cases hbs : c = '\\'
      · subst hbs
        cases rest with
        | nil => simp [decodeBody] at hdec
        | cons e rest2 =>
          simp only [decodeBody, if_true] at hdec
          cases hx : escapeOf e with
          | none => simp [hx] at hdec
          | some x =>
            cases hd : decodeBody rest2 with
            | none => simp [hx, hd] at hdec
            | some d2 =>
              simp only [hx, hd, Option.some.injEq] at hdec
              subst hdec
              exact hesc e x rest2 d2 hx hd (ih rest2 (by simp at hlen; omega) d2 hd)
      · rw [decodeBody.eq_def] at hdec
        simp only [hbs, if_false] at hdec
        by_cases ho : isOrdinary c = true
        · simp only [ho, if_true] at hdec
          cases hd : decodeBody rest with
          | none => simp [hd] at hdec
          | some d2 =>
            simp only [hd, Option.some.injEq] at hdec
            subst hdec
            exact hord c rest d2 ho hd (ih rest (by simp at hlen; omega) d2 hd)
        · simp [ho] at hdec

theorem escapeOf_ne_NUL (e x : Char) (h : escapeOf e = some x) : x ≠ NUL := by
  simp only [escapeOf] at h
  split_ifs at h <;> cases h <;> decide

/-- The decoded content of a well-formed body has no NUL. -/
theorem decodeBody_no_NUL (body d : List Char) (h : decodeBody body = some d) : NUL ∉ d := by
  refine decodeBody_induction (fun _ d => NUL ∉ d) (by simp) ?_ ?_ body.length body le_rfl d h
  · intro c rest d ho _ ih
    simp only [isOrdinary, Bool.and_eq_true, bne_iff_ne, ne_eq] at ho
    simp only [List.mem_cons, not_or]
    exact ⟨fun hh => ho.2 hh.symm, ih⟩
  · intro e x rest d hx _ ih
    simp only [List.mem_cons, not_or]
    exact ⟨fun hh => escapeOf_ne_NUL e x hx hh.symm, ih⟩

theorem readStringLoop_quote (n : Nat) (sb : List Char) (l : Lexer) (h : l.char = '"') :
    readStringLoop (n + 1) sb l = (.ok sb, l) := by
  simp [readStringLoop, h]

/-- The method `readString` on a well-formed body closed by a double quote: the
whole literal is read, and the result is the decoded content unless its UTF-8
encoding is longer than 1024 bytes. -/
theorem readString_closed (l : Lexer) (body decoded rest : List Char)
    (hpos : positionedAt (readChar l) (body ++ '"' :: rest))
    (hdec : decodeBody body = some decoded) :
    readString l =
      (if byteLen decoded > 1024 then .error "String constant too long" else .ok decoded,
        readChar^[body.length + 2] l) := by
  obtain ⟨n2, hn2, heq⟩ := readStringLoop_body ('"' :: rest) 1 body.length body le_rfl decoded hdec
    ((readChar l).reader.length + 2) [] (readChar l) hpos (by
      have := hpos.2
      rw [this]
      cases body <;> simp)
  obtain ⟨n3, rfl⟩ : ∃ n3, n2 = n3 + 1 := ⟨n2 - 1, by omega⟩
  have hq := positionedAt_iterate_append ('"' :: rest) body (readChar l) hpos
  have hq1 := ((positionedAt_cons _ _ _).mp hq).1
  have hnul := decodeBody_no_NUL body decoded hdec
  have e1 : readChar^[body.length + 2] l = readChar (readChar^[body.length] (readChar l)) := by
    rw [← Function.iterate_succ_apply, ← Function.iterate_succ_apply' readChar]
  simp only [readString, heq, List.nil_append, readStringLoop_quote n3 decoded _ hq1, e1]
  by_cases hlen : byteLen decoded > 1024
  · simp [hlen]
  · simp [hlen, hnul]

/-- The switch on a double quote runs `readString`. -/
theorem NextTokenSwitch_string (T : UnicodeTables) (intSize : Nat)
    (again : Lexer → Token × Lexer) (l : Lexer) (h : l.char = '"') :
    NextTokenSwitch T intSize again l =
      match readString l with
      | (.error e, l2) =>
        ({ Typ := .ERROR, Literal := e, Line := l.startLine, Column := l.startColumn }, l2)
      | (.ok str, l2) =>
        ({ Typ := .STR_CONST, Literal := String.mk str,
           Line := l.startLine, Column := l.startColumn }, l2) := by
  simp [NextTokenSwitch, h, NUL]

theorem IsSpace_quote (T : UnicodeTables) : IsSpace T '"' = false := by
  simp [IsSpace, MaxLatin1]

/-- A fresh scanner on an input that starts with a closed, well-formed string
literal. -/
theorem NextToken_NewLexer_string (T : UnicodeTables) (intSize : Nat)
    (body decoded rest : List Char) (hdec : decodeBody body = some decoded) :
    (NextToken T intSize (NewLexer ('"' :: (body ++ '"' :: rest)))).1 =
      (if byteLen decoded > 1024 then
        { Typ := .ERROR, Literal := "String constant too long", Line := 1, Column := 1 }
      else { Typ := .STR_CONST, Literal := String.mk decoded, Line := 1, Column := 1 }) ∧
    positionedAt (NextToken T intSize (NewLexer ('"' :: (body ++ '"' :: rest)))).2 rest := by
  have hpos : positionedAt (readChar
      { reader := body ++ '"' :: rest, line := 1, column := 1, startLine := 1,
        startColumn := 1, char := '"' }) (body ++ '"' :: rest) := readChar_positionedAt _ _ rfl
  have hrs := readString_closed _ body decoded rest hpos hdec
  have hfin : positionedAt (readChar^[body.length + 2]
      { reader := body ++ '"' :: rest, line := 1, column := 1, startLine := 1,
        startColumn := 1, char := '"' }) rest := by
    have := positionedAt_iterate_append rest (body ++ ['"']) _ (by simpa using hpos)
    simpa [Function.iterate_succ_apply] using this
  rw [NextToken_NewLexer_cons T intSize '"' _ (IsSpace_quote T),
    NextTokenSwitch_string T intSize _ _ rfl, hrs]
  by_cases hlen : byteLen decoded > 1024
  · simp only [hlen, if_true]
    exact ⟨trivial, hfin⟩
  · simp only [hlen, if_false]
    exact ⟨trivial, hfin⟩

/-- C4. For every body made of ordinary runes and of the six escape pairs
whose decoded content is within the length limit of `readString` (a UTF-8
encoding of at most 1024 bytes), `NextToken` on the input `"` body `"` rest
returns STR_CONST whose literal is the decoded body, and the scanner is left
positioned at `rest`. -/
theorem NextToken_string_decoding (T : UnicodeTables) (intSize : Nat)
    (body decoded rest : List Char) (hdec : decodeBody body = some decoded)
    (hlen : byteLen decoded ≤ 1024) :
    (NextToken T intSize (NewLexer ('"' :: (body ++ '"' :: rest)))).1.Typ = .STR_CONST ∧
    (NextToken T intSize (NewLexer ('"' :: (body ++ '"' :: rest)))).1.Literal =
      String.mk decoded ∧
    positionedAt (NextToken T intSize (NewLexer ('"' :: (body ++ '"' :: rest)))).2 rest := by
  obtain ⟨h1, h2⟩ := NextToken_NewLexer_string T intSize body decoded rest hdec
  have h3 : ¬ byteLen decoded > 1024 := by omega
  rw [h1]
  simp only [h3, if_false]
  exact ⟨trivial, trivial, h2⟩

theorem NextToken_string_decoding_witness :
    (NextToken latin1Tables 64
      (NewLexer ('"' :: ("a\\n\\t\\b\\f\\\\\\\"z".toList ++ '"' :: " x".toList)))).1.Typ =
        .STR_CONST ∧
    (NextToken latin1Tables 64
      (NewLexer ('"' :: ("a\\n\\t\\b\\f\\\\\\\"z".toList ++ '"' :: " x".toList)))).1.Literal =
        String.mk ['a', Char.ofNat 0x0A, Char.ofNat 0x09, Char.ofNat 0x08, Char.ofNat 0x0C,
          '\\', '"', 'z'] ∧
    positionedAt (NextToken latin1Tables 64
      (NewLexer ('"' :: ("a\\n\\t\\b\\f\\\\\\\"z".toList ++ '"' :: " x".toList)))).2
        " x".toList :=
  NextToken_string_decoding latin1Tables 64 "a\\n\\t\\b\\f\\\\\\\"z".toList _ " x".toList
    (by decide) (by decide)

/-- C9, as amended. For every well-formed, properly closed string literal
followed by any input `rest`, `NextToken` returns STR_CONST if the UTF-8
encoding of the decoded content has at most 1024 bytes and the ERROR token
"String constant too long" if it has more; in both cases the whole literal with
its closing quote is consumed and the scanner is left positioned at `rest`. -/
theorem NextToken_string_length_limit (T : UnicodeTables) (intSize : Nat)
    (body decoded rest : List Char) (hdec : decodeBody body = some decoded) :
    (byteLen decoded ≤ 1024 →
      (NextToken T intSize (NewLexer ('"' :: (body ++ '"' :: rest)))).1.Typ = .STR_CONST) ∧
    (byteLen decoded > 1024 →
      (NextToken T intSize (NewLexer ('"' :: (body ++ '"' :: rest)))).1.Typ = .ERROR ∧
      (NextToken T intSize (NewLexer ('"' :: (body ++ '"' :: rest)))).1.Literal =
        "String constant too long") ∧
    positionedAt (NextToken T intSize (NewLexer ('"' :: (body ++ '"' :: rest)))).2 rest := by
  obtain ⟨h1, h2⟩ := NextToken_NewLexer_string T intSize body decoded rest hdec
  rw [h1]
  refine ⟨?_, ?_, h2⟩
  · intro h
    have h3 : ¬ byteLen decoded > 1024 := by omega
    simp [h3]
  · intro h
    simp [h]

theorem NextToken_string_length_limit_witness :
    ((NextToken latin1Tables 64
        (NewLexer ('"' :: ("Hello".toList ++ '"' :: ";".toList)))).1.Typ = .STR_CONST) ∧
    positionedAt (NextToken latin1Tables 64
        (NewLexer ('"' :: ("Hello".toList ++ '"' :: ";".toList)))).2 ";".toList :=
  ⟨(NextToken_string_length_limit latin1Tables 64 "Hello".toList "Hello".toList ";".toList
      (by decide)).1 (by decide),
   (NextToken_string_length_limit latin1Tables 64 "Hello".toList "Hello".toList ";".toList
      (by decide)).2.2⟩

theorem decodeBody_replicate (c : Char) (ho : isOrdinary c = true) :
    ∀ n : Nat, decodeBody (List.replicate n c) = some (List.replicate n c) := by
  have hbs : c ≠ '\\' := by
    simp only [isOrdinary, Bool.and_eq_true, bne_iff_ne, ne_eq] at ho
    exact ho.1.1.2
  intro n
  induction n with
  | zero => simp [decodeBody]
  | succ n ih =>
    rw [List.replicate_succ, decodeBody.eq_def]
    simp [hbs, ho, ih]

theorem byteLen_replicate (c : Char) (n : Nat) :
    byteLen (List.replicate n c) = n * RuneLen c := by
  simp [byteLen, List.map_replicate, List.sum_replicate]

/-- C9 fails as stated: a closed literal whose content is 513 times the rune
U+00E9 has 513 characters, at most 1024, and yet the token is the ERROR "String
constant too long", because the content takes 1026 bytes. -/
theorem NextToken_string_limit_in_bytes :
    decodeBody (List.replicate 513 (Char.ofNat 0xE9)) =
      some (List.replicate 513 (Char.ofNat 0xE9)) ∧
    (List.replicate 513 (Char.ofNat 0xE9)).length ≤ 1024 ∧
    (NextToken latin1Tables 64
      (NewLexer ('"' :: (List.replicate 513 (Char.ofNat 0xE9) ++ ['"'])))).1 =
      { Typ := .ERROR, Literal := "String constant too long", Line := 1, Column := 1 } := by
  have hd := decodeBody_replicate (Char.ofNat 0xE9) (by decide) 513
  refine ⟨hd, by rw [List.length_replicate]; omega, ?_⟩
  rw [(NextToken_NewLexer_string latin1Tables 64 _ _ [] hd).1, byteLen_replicate]
  have : RuneLen (Char.ofNat 0xE9) = 2 := by decide
  simp [this]

/-- At the end-of-input sentinel `NextToken` returns EOF and stays there. -/
theorem NextToken_at_NUL (T : UnicodeTables) (intSize : Nat) (l : Lexer) (h : l.char = NUL) :
    NextToken T intSize l =
      ({ Typ := .EOF, Literal := "", Line := l.line, Column := l.column }, markStart l) := by
  have h1 : skipWhiteSpace T l = l :=
    skipWhiteSpace_of_not_space T l (by rw [h]; exact IsSpace_NUL T)
  have h2 : ¬ (NUL = '@') := by decide
  simp [NextToken, NextTokenAux, h1, NextTokenSwitch, markStart, h, h2]

theorem readStringLoop_NUL (n : Nat) (sb : List Char) (l : Lexer) (h : l.char = NUL) :
    readStringLoop (n + 1) sb l = (.error "EOF in string constant", l) := by
  have hz : ¬ (NUL = '"') := by decide
  simp [readStringLoop, h, hz]

theorem readStringLoop_newline (n : Nat) (sb : List Char) (l : Lexer) (h : l.char = '\n') :
    readStringLoop (n + 1) sb l = (.error "Unterminated string constant", l) := by
  have hz1 : ¬ ('\n' = '"') := by decide
  have hz2 : ¬ ('\n' = NUL) := by decide
  simp [readStringLoop, h, hz1, hz2]

theorem readStringLoop_backslash_NUL (n : Nat) (sb : List Char) (l : Lexer)
    (h : l.char = '\\') (h2 : (readChar l).char = NUL) :
    readStringLoop (n + 1) sb l = (.error "EOF in string constant", readChar l) := by
  have hz1 : ¬ ('\\' = '"') := by decide
  have hz2 : ¬ ('\\' = NUL) := by decide
  have hz3 : ¬ ('\\' = '\n') := by decide
  simp [readStringLoop, h, hz1, hz2, hz3, h2]

theorem readString_fuel (l : Lexer) (body tail : List Char)
    (hpos : positionedAt l (body ++ tail)) : body.length + 1 ≤ l.reader.length + 2 := by
  rw [hpos.2]
  cases body <;> simp

/-- The loop of `readString` after a well-formed body, on the three ways a
literal can stay unclosed: end of input, a backslash at end of input, a raw
newline. -/
theorem readString_unclosed (l : Lexer) (body decoded : List Char)
    (hdec : decodeBody body = some decoded) :
    (positionedAt (readChar l) body →
      (readString l).1 = .error "EOF in string constant" ∧ (readString l).2.char = NUL) ∧
    (positionedAt (readChar l) (body ++ ['\\']) →
      (readString l).1 = .error "EOF in string constant" ∧ (readString l).2.char = NUL) ∧
    (∀ rest, positionedAt (readChar l) (body ++ '\n' :: rest) →
      (readString l).1 = .error "Unterminated string constant" ∧
      positionedAt (readString l).2 ('\n' :: rest)) := by
  refine ⟨?_, ?_, ?_⟩
  · intro hpos
    have hpos2 : positionedAt (readChar l) (body ++ []) := by simpa using hpos
    obtain ⟨n2, hn2, heq⟩ := readStringLoop_body [] 1 body.length body le_rfl decoded hdec
      ((readChar l).reader.length + 2) [] (readChar l) hpos2 (readString_fuel _ _ _ hpos2)
    obtain ⟨n3, rfl⟩ : ∃ n3, n2 = n3 + 1 := ⟨n2 - 1, by omega⟩
    have hq := positionedAt_iterate_append [] body (readChar l) hpos2
    have hq1 := ((positionedAt_nil _).mp hq).1
    simp only [readString, heq, readStringLoop_NUL n3 _ _ hq1]
    exact ⟨trivial, hq1⟩
  · intro hpos
    obtain ⟨n2, hn2, heq⟩ := readStringLoop_body ['\\'] 1 body.length body le_rfl decoded hdec
      ((readChar l).reader.length + 2) [] (readChar l) hpos (readString_fuel _ _ _ hpos)
    obtain ⟨n3, rfl⟩ : ∃ n3, n2 = n3 + 1 := ⟨n2 - 1, by omega⟩
    have hq := positionedAt_iterate_append ['\\'] body (readChar l) hpos
    obtain ⟨hq1, hq2⟩ := (positionedAt_cons _ _ _).mp hq
    have hr : (readChar (readChar^[body.length] (readChar l))).char = NUL := by
      rw [readChar_nil _ hq2]
    simp only [readString, heq, readStringLoop_backslash_NUL n3 _ _ hq1 hr]
    exact ⟨trivial, hr⟩
  · intro rest hpos
    obtain ⟨n2, hn2, heq⟩ := readStringLoop_body ('\n' :: rest) 1 body.length body le_rfl
      decoded hdec ((readChar l).reader.length + 2) [] (readChar l) hpos
      (readString_fuel _ _ _ hpos)
    obtain ⟨n3, rfl⟩ : ∃ n3, n2 = n3 + 1 := ⟨n2 - 1, by omega⟩
    have hq := positionedAt_iterate_append ('\n' :: rest) body (readChar l) hpos
    have hq1 := ((positionedAt_cons _ _ _).mp hq).1
    simp only [readString, heq, readStringLoop_newline n3 _ _ hq1]
    exact ⟨trivial, hq⟩

/-- A fresh scanner on an input that starts with a double quote, when
`readString` returns an error. -/
theorem NextToken_NewLexer_string_error (T : UnicodeTables) (intSize : Nat) (x : List Char)
    (e : String) (s : Lexer)
    (hs : s = { reader := x, line := 1, column := 1, startLine := 1, startColumn := 1, char := '"' })
    (h : (readString s).1 = .error e) :
    NextToken T intSize (NewLexer ('"' :: x)) =
      ({ Typ := .ERROR, Literal := e, Line := 1, Column := 1 }, (readString s).2) := by
  have h1 : s.startLine = 1 := by rw [hs]
  have h2 : s.startColumn = 1 := by rw [hs]
  have h3 : s.char = '"' := by rw [hs]
  rw [NextToken_NewLexer_cons T intSize '"' _ (IsSpace_quote T), ← hs,
    NextTokenSwitch_string T intSize _ s h3, h1, h2]
  generalize readString s = r at h
  obtain ⟨r1, r2⟩ := r
  simp only at h
  subst h
  rfl

/-- C8. An unclosed string literal. For every body of ordinary runes and valid
escape pairs: on `"` body at end of input, also when a backslash follows the
body, `NextToken` returns the ERROR token "EOF in string constant" and then
EOF; on `"` body newline rest it returns the ERROR token "Unterminated string
constant". No STR_CONST is returned for the partial content. -/
theorem NextToken_unclosed_string (T : UnicodeTables) (intSize : Nat)
    (body decoded : List Char) (hdec : decodeBody body = some decoded) :
    ((tokens T intSize 2 (NewLexer ('"' :: body))).map kindLiteral =
      [(.ERROR, "EOF in string constant"), (.EOF, "")]) ∧
    ((tokens T intSize 2 (NewLexer ('"' :: (body ++ ['\\'])))).map kindLiteral =
      [(.ERROR, "EOF in string constant"), (.EOF, "")]) ∧
    (∀ rest : List Char,
      (NextToken T intSize (NewLexer ('"' :: (body ++ '\n' :: rest)))).1.Typ = .ERROR ∧
      (NextToken T intSize (NewLexer ('"' :: (body ++ '\n' :: rest)))).1.Literal =
        "Unterminated string constant") := by
  refine ⟨?_, ?_, ?_⟩
  · obtain ⟨h1, h2⟩ := (readString_unclosed
      { reader := body, line := 1, column := 1, startLine := 1, startColumn := 1, char := '"' }
      body decoded hdec).1 (readChar_positionedAt _ _ rfl)
    have h3 := NextToken_NewLexer_string_error T intSize body _ _ rfl h1
    simp only [tokens, List.map_cons, List.map_nil, h3, NextToken_at_NUL T intSize _ h2,
      kindLiteral]
  · obtain ⟨h1, h2⟩ := (readString_unclosed
      { reader := body ++ ['\\'], line := 1, column := 1, startLine := 1, startColumn := 1,
        char := '"' } body decoded hdec).2.1 (readChar_positionedAt _ _ rfl)
    have h3 := NextToken_NewLexer_string_error T intSize (body ++ ['\\']) _ _ rfl h1
    simp only [tokens, List.map_cons, List.map_nil, h3, NextToken_at_NUL T intSize _ h2,
      kindLiteral]
  · intro rest
    obtain ⟨h1, _⟩ := (readString_unclosed
      { reader := body ++ '\n' :: rest, line := 1, column := 1, startLine := 1,
        startColumn := 1, char := '"' } body decoded hdec).2.2 rest
        (readChar_positionedAt _ _ rfl)
    rw [NextToken_NewLexer_string_error T intSize (body ++ '\n' :: rest) _ _ rfl h1]
    exact ⟨rfl, rfl⟩

theorem NextToken_unclosed_string_witness :
    ((tokens latin1Tables 64 2 (NewLexer ('"' :: "unterminated".toList))).map kindLiteral =
      [(.ERROR, "EOF in string constant"), (.EOF, "")]) ∧
    ((tokens latin1Tables 64 2
        (NewLexer ('"' :: ("unterminated".toList ++ ['\\'])))).map kindLiteral =
      [(.ERROR, "EOF in string constant"), (.EOF, "")]) ∧
    (∀ rest : List Char,
      (NextToken latin1Tables 64
        (NewLexer ('"' :: ("unterminated".toList ++ '\n' :: rest)))).1.Typ = .ERROR ∧
      (NextToken latin1Tables 64
        (NewLexer ('"' :: ("unterminated".toList ++ '\n' :: rest)))).1.Literal =
        "Unterminated string constant") :=
  NextToken_unclosed_string latin1Tables 64 "unterminated".toList "unterminated".toList
    (by decide)

/-! ## NUL in a string literal -/

theorem readStringLoop_invalid_escape (n : Nat) (sb : List Char) (l : Lexer)
    (h : l.char = '\\') (h2 : (readChar l).char ≠ NUL)
    (he : escapeOf (readChar l).char = none) :
    readStringLoop (n + 1) sb l = (.error "Invalid escape sequence in string", readChar l) := by
  have hz1 : ¬ ('\\' = '"') := by decide
  have hz2 : ¬ ('\\' = NUL) := by decide
  have hz3 : ¬ ('\\' = '\n') := by decide
  simp only [escapeOf] at he
  split_ifs at he with e1 e2 e3 e4 e5 e6
  simp [readStringLoop, h, hz1, hz2, hz3, h2, e1, e2, e3, e4, e5, e6]

theorem isOrdinary_of_ne (c : Char) (h1 : c ≠ '"') (h2 : c ≠ NUL) (h3 : c ≠ '\n')
    (h4 : c ≠ '\\') : isOrdinary c = true := by
  simp [isOrdinary, h1, h2, h3, h4]

/-- The loop of `readString` never puts a NUL in the builder, and none of its
errors is the NUL error. -/
theorem readStringLoop_never_NUL :
    ∀ (n : Nat) (sb : List Char) (l : Lexer), NUL ∉ sb →
      (∀ sb2, (readStringLoop n sb l).1 = .ok sb2 → NUL ∉ sb2) ∧
      (readStringLoop n sb l).1 ≠ .error "String contains null character" := by
  intro n
  induction n with
  | zero =>
    intro sb l h
    simp only [readStringLoop]
    refine ⟨?_, by simp⟩
    intro sb2 h2
    cases h2
    exact h
  | succ n ih =>
    intro sb l h
    have key : ∀ x : Char, x ≠ NUL → NUL ∉ sb ++ [x] := by
      intro x hx
      simp only [List.mem_append, List.mem_singleton, not_or]
      exact ⟨h, fun hh => hx hh.symm⟩
    by_cases c1 : l.char = '"'
    · rw [readStringLoop_quote n sb l c1]
      refine ⟨?_, by simp⟩
      intro sb2 h2
      cases h2
      exact h
    by_cases c2 : l.char = NUL
    · rw [readStringLoop_NUL n sb l c2]
      exact ⟨by simp, by simp⟩
    by_cases c3 : l.char = '\n'
    · rw [readStringLoop_newline n sb l c3]
      exact ⟨by simp, by simp⟩
    by_cases c4 : l.char = '\\'
    · by_cases c5 : (readChar l).char = NUL
      · rw [readStringLoop_backslash_NUL n sb l c4 c5]
        exact ⟨by simp, by simp⟩
      · cases he : escapeOf (readChar l).char with
        | none =>
          rw [readStringLoop_invalid_escape n sb l c4 c5 he]
          exact ⟨by simp, by simp⟩
        | some x =>
          rw [readStringLoop_escape n sb l x c4 he]
          exact ih _ _ (key x (escapeOf_ne_NUL _ x he))
    · rw [readStringLoop_ordinary n sb l (isOrdinary_of_ne _ c1 c2 c3 c4)]
      exact ih _ _ (key _ c2)

/-- The error "String contains null character" is never returned by
`readString`: the test for NUL that follows the loop cannot succeed. -/
theorem readString_never_null_error (l : Lexer) :
    (readString l).1 ≠ .error "String contains null character" := by
  obtain ⟨h1, h2⟩ :=
    readStringLoop_never_NUL ((readChar l).reader.length + 2) [] (readChar l) (by simp)
  simp only [readString]
  generalize readStringLoop ((readChar l).reader.length + 2) [] (readChar l) = r at h1 h2
  obtain ⟨r1, r2⟩ := r
  cases r1 with
  | error e => simpa using h2
  | ok sb =>
    have h3 := h1 sb rfl
    by_cases hlen : byteLen sb > 1024
    · simp only [hlen, if_true]
      simp
    · simp [hlen, h3]

/-- C10, at the input `"a` NUL `b";`: the literal is closed and holds a NUL, yet
the token is the ERROR "EOF in string constant", the scanner stops at the NUL
with `b";` unread, and every later call returns EOF. -/
theorem NextToken_string_with_NUL :
    (tokens latin1Tables 64 3 (NewLexer ['"', 'a', NUL, 'b', '"', ';'])).map kindLiteral =
      [(.ERROR, "EOF in string constant"), (.EOF, ""), (.EOF, "")] ∧
    (NextToken latin1Tables 64 (NewLexer ['"', 'a', NUL, 'b', '"', ';'])).2.char = NUL ∧
    (NextToken latin1Tables 64 (NewLexer ['"', 'a', NUL, 'b', '"', ';'])).2.reader =
      ['b', '"', ';'] := by
  decide

/-! ## The tokens do not depend on the position counters -/

theorem readChar_sameInput (a b : Lexer) (h : sameInput a b) :
    sameInput (readChar a) (readChar b) := by
  obtain ⟨_, hr⟩ := h
  cases hb : b.reader with
  | nil =>
    rw [hb] at hr
    simp [sameInput, readChar_nil a hr, readChar_nil b hb, hr, hb]
  | cons c r =>
    rw [hb] at hr
    obtain ⟨a1, a2⟩ := readChar_char_cons a c r hr
    obtain ⟨b1, b2⟩ := readChar_char_cons b c r hb
    exact ⟨by rw [a1, b1], by rw [a2, b2]⟩

theorem scanWhile_sameInput (p : Char → Bool) :
    ∀ (n : Nat) (sb : List Char) (a b : Lexer), sameInput a b →
      (scanWhile p n sb a).1 = (scanWhile p n sb b).1 ∧
      sameInput (scanWhile p n sb a).2 (scanWhile p n sb b).2 := by
  intro n
  induction n with
  | zero => intro sb a b h; exact ⟨by trivial, h⟩
  | succ n ih =>
    intro sb a b h
    have hc := h.1
    by_cases hp : p a.char = true
    · have hp2 : p b.char = true := by rw [← hc]; exact hp
      simp only [scanWhile, hp, hp2, if_true]
      rw [hc]
      exact ih _ _ _ (readChar_sameInput a b h)
    · have hp1 : p a.char = false := by simpa using hp
      have hp2 : p b.char = false := by rw [← hc]; exact hp1
      rw [scanWhile_stop p _ sb a hp1, scanWhile_stop p _ sb b hp2]
      exact ⟨by trivial, h⟩

theorem scanWhile_reader_le (p : Char → Bool) :
    ∀ (n : Nat) (sb : List Char) (l : Lexer),
      (scanWhile p n sb l).2.reader.length ≤ l.reader.length := by
  intro n
  induction n with
  | zero => intro sb l; exact le_rfl
  | succ n ih =>
    intro sb l
    by_cases hp : p l.char = true
    · simp only [scanWhile, hp, if_true]
      exact le_trans (ih _ _) (readChar_reader_length_le l)
    · have hp1 : p l.char = false := by simpa using hp
      rw [scanWhile_stop p _ sb l hp1]

theorem readChar_reader_lt (l : Lexer) (h : l.reader ≠ []) :
    (readChar l).reader.length < l.reader.length := by
  cases hr : l.reader with
  | nil => exact absurd hr h
  | cons c r => rw [(readChar_char_cons l c r hr).2]; simp

theorem skipBlockComment_sameInput :
    ∀ (n : Nat) (a b : Lexer), sameInput a b →
      (skipBlockComment n a).1 = (skipBlockComment n b).1 ∧
      sameInput (skipBlockComment n a).2 (skipBlockComment n b).2 := by
  intro n
  induction n with
  | zero => intro a b h; exact ⟨by trivial, h⟩
  | succ n ih =>
    intro a b h
    have hc := h.1
    have hpk : peekChar a = peekChar b := by simp [peekChar, h.2]
    have r1 := readChar_sameInput a b h
    have r2 := readChar_sameInput _ _ r1
    by_cases c1 : a.char = NUL
    · have c1b : b.char = NUL := by rw [← hc]; exact c1
      simp only [skipBlockComment, c1, c1b, if_true]
      exact ⟨by trivial, h⟩
    · have c1b : ¬ b.char = NUL := by rw [← hc]; exact c1
      by_cases c2 : a.char = '*' ∧ peekChar a = '/'
      · have c2b : b.char = '*' ∧ peekChar b = '/' := by rw [← hc, ← hpk]; exact c2
        simp only [skipBlockComment, c1, c1b, if_false, c2, c2b, and_self, if_true]
        exact ⟨by trivial, r2⟩
      · have c2b : ¬ (b.char = '*' ∧ peekChar b = '/') := by rw [← hc, ← hpk]; exact c2
        simp only [skipBlockComment, c1, c1b, if_false, c2, c2b]
        exact ih _ _ r1

theorem skipBlockComment_reader_le :
    ∀ (n : Nat) (l : Lexer), (skipBlockComment n l).2.reader.length ≤ l.reader.length := by
  intro n
  induction n with
  | zero => intro l; exact le_rfl
  | succ n ih =>
    intro l
    by_cases c1 : l.char = NUL
    · simp only [skipBlockComment, c1, if_true]
      exact le_rfl
    · by_cases c2 : l.char = '*' ∧ peekChar l = '/'
      · simp only [skipBlockComment, c1, if_false, c2, and_self, if_true]
        exact le_trans (readChar_reader_length_le _) (readChar_reader_length_le l)
      · simp only [skipBlockComment, c1, if_false, c2]
        exact le_trans (ih _) (readChar_reader_length_le l)

theorem readStringLoop_sameInput :
    ∀ (n : Nat) (sb : List Char) (a b : Lexer), sameInput a b →
      (readStringLoop n sb a).1 = (readStringLoop n sb b).1 ∧
      sameInput (readStringLoop n sb a).2 (readStringLoop n sb b).2 := by
  intro n
  induction n with
  | zero => intro sb a b h; exact ⟨by trivial, h⟩
  | succ n ih =>
    intro sb a b h
    have hc := h.1
    have r1 := readChar_sameInput a b h
    have r2 := readChar_sameInput _ _ r1
    by_cases c1 : a.char = '"'
    · rw [readStringLoop_quote n sb a c1, readStringLoop_quote n sb b (by rw [← hc]; exact c1)]
      exact ⟨by trivial, h⟩
    by_cases c2 : a.char = NUL
    · rw [readStringLoop_NUL n sb a c2, readStringLoop_NUL n sb b (by rw [← hc]; exact c2)]
      exact ⟨by trivial, h⟩
    by_cases c3 : a.char = '\n'
    · rw [readStringLoop_newline n sb a c3,
        readStringLoop_newline n sb b (by rw [← hc]; exact c3)]
      exact ⟨by trivial, h⟩
    by_cases c4 : a.char = '\\'
    · have c4b : b.char = '\\' := by rw [← hc]; exact c4
      by_cases c5 : (readChar a).char = NUL
      · rw [readStringLoop_backslash_NUL n sb a c4 c5,
          readStringLoop_backslash_NUL n sb b c4b (by rw [← r1.1]; exact c5)]
        exact ⟨by trivial, r1⟩
      · have c5b : (readChar b).char ≠ NUL := by rw [← r1.1]; exact c5
        cases he : escapeOf (readChar a).char with
        | none =>
          rw [readStringLoop_invalid_escape n sb a c4 c5 he,
            readStringLoop_invalid_escape n sb b c4b c5b (by rw [← r1.1]; exact he)]
          exact ⟨by trivial, r1⟩
        | some x =>
          rw [readStringLoop_escape n sb a x c4 he,
            readStringLoop_escape n sb b x c4b (by rw [← r1.1]; exact he)]
          exact ih _ _ _ r2
    · have ho := isOrdinary_of_ne _ c1 c2 c3 c4
      rw [readStringLoop_ordinary n sb a ho,
        readStringLoop_ordinary n sb b (by rw [← hc]; exact ho), hc]
      exact ih _ _ _ r1

theorem readString_sameInput (a b : Lexer) (h : sameInput a b) :
    (readString a).1 = (readString b).1 ∧ sameInput (readString a).2 (readString b).2 := by
  have r1 := readChar_sameInput a b h
  obtain ⟨h1, h2⟩ := readStringLoop_sameInput ((readChar a).reader.length + 2) []
    (readChar a) (readChar b) r1
  simp only [readString, ← r1.2]
  generalize readStringLoop ((readChar a).reader.length + 2) [] (readChar a) = x at h1 h2
  generalize readStringLoop ((readChar a).reader.length + 2) [] (readChar b) = y at h1 h2
  obtain ⟨x1, x2⟩ := x
  obtain ⟨y1, y2⟩ := y
  simp only at h1 h2
  subst h1
  cases x1 with
  | error e => exact ⟨by trivial, h2⟩
  | ok sb =>
    have r3 := readChar_sameInput _ _ h2
    by_cases hlen : byteLen sb > 1024
    · simp only [hlen, if_true]
      exact ⟨by trivial, r3⟩
    · by_cases hn : NUL ∈ sb
      · simp only [hlen, if_false, hn, if_true]
        exact ⟨by trivial, r3⟩
      · simp only [hlen, if_false, hn]
        exact ⟨by trivial, r3⟩

theorem scanWhile_reader_lt (p : Char → Bool) (n : Nat) (sb : List Char) (l : Lexer)
    (hp : p l.char = true) (hr : l.reader ≠ []) :
    (scanWhile p (n + 1) sb l).2.reader.length < l.reader.length := by
  simp only [scanWhile, hp, if_true]
  exact lt_of_le_of_lt (scanWhile_reader_le p n _ _) (readChar_reader_lt l hr)

theorem reader_ne_nil_of_peekChar (l : Lexer) (c : Char) (h : peekChar l = c) (hc : c ≠ NUL) :
    l.reader ≠ [] := by
  intro hr
  apply hc
  rw [← h]
  simp [peekChar, hr]

/-- The switch returns the same kind and literal from two states with the same
input, whatever their position counters, when the calls after a comment do. -/
theorem NextTokenSwitch_congr (T : UnicodeTables) (intSize : Nat)
    (again again2 : Lexer → Token × Lexer) (a b : Lexer) (hab : sameInput a b)
    (hag : ∀ a2 b2, sameInput a2 b2 → a2.reader.length < a.reader.length →
      kindLiteral (again a2).1 = kindLiteral (again2 b2).1 ∧
      sameInput (again a2).2 (again2 b2).2) :
    kindLiteral (NextTokenSwitch T intSize again a).1 =
      kindLiteral (NextTokenSwitch T intSize again2 b).1 ∧
    sameInput (NextTokenSwitch T intSize again a).2 (NextTokenSwitch T intSize again2 b).2 := by
  obtain ⟨hc, hr⟩ := hab
  have hab : sameInput a b := ⟨hc, hr⟩
  have hpk : peekChar b = peekChar a := by simp [peekChar, hr]
  have r1 := readChar_sameInput _ _ hab
  have r2 := readChar_sameInput _ _ r1
  by_cases p0 : a.char = '@'
  · have pb : b.char = '@' := by rw [← hc]; exact p0
    simp only [NextTokenSwitch, p0, pb]
    simp only [NUL, Char.reduceEq, if_true, if_false]
    exact ⟨rfl, r1⟩
  by_cases p1 : a.char = '('
  · have pb : b.char = '(' := by rw [← hc]; exact p1
    simp only [NextTokenSwitch, p1, pb]
    simp only [NUL, Char.reduceEq, if_true, if_false]
    exact ⟨rfl, r1⟩
  by_cases p2 : a.char = ')'
  · have pb : b.char = ')' := by rw [← hc]; exact p2
    simp only [NextTokenSwitch, p2, pb]
    simp only [NUL, Char.reduceEq, if_true, if_false]
    exact ⟨rfl, r1⟩
  by_cases p3 : a.char = '\x7b'
  · have pb : b.char = '\x7b' := by rw [← hc]; exact p3
    simp only [NextTokenSwitch, p3, pb]
    simp only [NUL, Char.reduceEq, if_true, if_false]
    exact ⟨rfl, r1⟩
  by_cases p4 : a.char = '\x7d'
  · have pb : b.char = '\x7d' := by rw [← hc]; exact p4
    simp only [NextTokenSwitch, p4, pb]
    simp only [NUL, Char.reduceEq, if_true, if_false]
    exact ⟨rfl, r1⟩
  by_cases p5 : a.char = ';'
  · have pb : b.char = ';' := by rw [← hc]; exact p5
    simp only [NextTokenSwitch, p5, pb]
    simp only [NUL, Char.reduceEq, if_true, if_false]
    exact ⟨rfl, r1⟩
  by_cases p6 : a.char = ':'
  · have pb : b.char = ':' := by rw [← hc]; exact p6
    simp only [NextTokenSwitch, p6, pb]
    simp only [NUL, Char.reduceEq, if_true, if_false]
    exact ⟨rfl, r1⟩
  by_cases p7 : a.char = ','
  · have pb : b.char = ',' := by rw [← hc]; exact p7
    simp only [NextTokenSwitch, p7, pb]
    simp only [NUL, Char.reduceEq, if_true, if_false]
    exact ⟨rfl, r1⟩
  by_cases p8 : a.char = '+'
  · have pb : b.char = '+' := by rw [← hc]; exact p8
    simp only [NextTokenSwitch, p8, pb]
    simp only [NUL, Char.reduceEq, if_true, if_false]
    exact ⟨rfl, r1⟩
  by_cases p9 : a.char = '*'
  · have pb : b.char = '*' := by rw [← hc]; exact p9
    simp only [NextTokenSwitch, p9, pb]
    simp only [NUL, Char.reduceEq, if_true, if_false]
    exact ⟨rfl, r1⟩
  by_cases p10 : a.char = '-'
  · have pb : b.char = '-' := by rw [← hc]; exact p10
    simp only [NextTokenSwitch, p10, pb]
    simp only [NUL, Char.reduceEq, if_true, if_false]
    exact ⟨rfl, r1⟩
  by_cases p11 : a.char = '~'
  · have pb : b.char = '~' := by rw [← hc]; exact p11
    simp only [NextTokenSwitch, p11, pb]
    simp only [NUL, Char.reduceEq, if_true, if_false]
    exact ⟨rfl, r1⟩
  by_cases p12 : a.char = '.'
  · have pb : b.char = '.' := by rw [← hc]; exact p12
    simp only [NextTokenSwitch, p12, pb]
    simp only [NUL, Char.reduceEq, if_true, if_false]
    exact ⟨rfl, r1⟩
  by_cases q1 : a.char = NUL
  · have pb : b.char = NUL := by rw [← hc]; exact q1
    have hz : ¬ (NUL = '@') := by decide
    simp only [NextTokenSwitch, q1, pb, hz, if_true, if_false]
    exact ⟨rfl, hab⟩
  by_cases q2 : a.char = '='
  · have pb : b.char = '=' := by rw [← hc]; exact q2
    simp only [NextTokenSwitch, q2, pb, hpk]
    simp only [NUL, Char.reduceEq, if_true, if_false]
    split_ifs
    · exact ⟨rfl, r2⟩
    · exact ⟨rfl, r1⟩
  by_cases q3 : a.char = '<'
  · have pb : b.char = '<' := by rw [← hc]; exact q3
    simp only [NextTokenSwitch, q3, pb, hpk]
    simp only [NUL, Char.reduceEq, if_true, if_false]
    split_ifs
    · exact ⟨rfl, r2⟩
    · exact ⟨rfl, r2⟩
    · exact ⟨rfl, r1⟩
  by_cases q4 : a.char = '"'
  · have pb : b.char = '"' := by rw [← hc]; exact q4
    obtain ⟨s1, s2⟩ := readString_sameInput _ _ hab
    simp only [NextTokenSwitch, q4, pb]
    simp only [NUL, Char.reduceEq, if_true, if_false]
    generalize readString a = x at s1 s2
    generalize readString b = y at s1 s2
    obtain ⟨x1, x2⟩ := x
    obtain ⟨y1, y2⟩ := y
    simp only at s1 s2
    subst s1
    cases x1 <;> exact ⟨rfl, s2⟩
  by_cases q5 : a.char = '/'
  · have pb : b.char = '/' := by rw [← hc]; exact q5
    simp only [NextTokenSwitch, q5, pb, hpk]
    simp only [NUL, Char.reduceEq, if_true, if_false]
    by_cases k1 : peekChar a = '/'
    · simp only [k1, if_true]
      have hne := reader_ne_nil_of_peekChar a '/' k1 (by decide)
      have hlt := scanWhile_reader_lt (fun c => c != '\n' && c != Char.ofNat 0)
        (a.reader.length + 1) [] a (by rw [q5]; decide) hne
      rw [← hr]
      exact hag _ _ (scanWhile_sameInput _ _ _ _ _ hab).2 hlt
    · by_cases k2 : peekChar a = '*'
      · simp only [k2, if_true, Char.reduceEq, if_false]
        have hne := reader_ne_nil_of_peekChar a '*' k2 (by decide)
        obtain ⟨s1, s2⟩ := skipBlockComment_sameInput (a.reader.length + 2) _ _ r2
        have hle := skipBlockComment_reader_le (a.reader.length + 2) (readChar (readChar a))
        have hlt : (skipBlockComment (a.reader.length + 2) (readChar (readChar a))).2.reader.length
            < a.reader.length :=
          lt_of_le_of_lt (le_trans hle (readChar_reader_length_le _)) (readChar_reader_lt a hne)
        rw [← hr]
        generalize skipBlockComment (a.reader.length + 2) (readChar (readChar a)) = x
          at s1 s2 hlt
        generalize skipBlockComment (a.reader.length + 2) (readChar (readChar b)) = y at s1 s2
        obtain ⟨x1, x2⟩ := x
        obtain ⟨y1, y2⟩ := y
        simp only at s1 s2 hlt
        subst s1
        cases x1
        · exact ⟨rfl, s2⟩
        · exact hag _ _ s2 hlt
      · simp only [k1, k2, if_false]
        exact ⟨rfl, r1⟩
  obtain ⟨br, bl, bc, bsl, bsc, bch⟩ := b
  simp only at hc hr
  subst hc hr
  simp only [NextTokenSwitch, p0, p1, p2, p3, p4, p5, p6, p7, p8, p9, p10, p11, p12, q1, q2, q3, q4, q5, if_false]
  by_cases d1 : IsDigit T a.char = true
  · obtain ⟨s1, s2⟩ := scanWhile_sameInput (IsDigit T) (a.reader.length + 2) [] _ _ hab
    simp only [d1, if_true, readNumber]
    generalize scanWhile (IsDigit T) (a.reader.length + 2) [] a = x at s1 s2
    generalize scanWhile (IsDigit T) (a.reader.length + 2) []
      { reader := a.reader, line := bl, column := bc, startLine := bsl,
        startColumn := bsc, char := a.char } = y at s1 s2
    obtain ⟨x1, x2⟩ := x
    obtain ⟨y1, y2⟩ := y
    simp only at s1 s2
    subst s1
    simp only
    split_ifs
    · exact ⟨rfl, s2⟩
    · exact ⟨rfl, s2⟩
  by_cases d2 : isIdentifierStart T a.char = true
  · obtain ⟨s1, s2⟩ := scanWhile_sameInput (isIdentifierPart T) (a.reader.length + 2) [] _ _ hab
    simp only [d1, d2, if_true, readIdentifier]
    generalize scanWhile (isIdentifierPart T) (a.reader.length + 2) [] a = x at s1 s2
    generalize scanWhile (isIdentifierPart T) (a.reader.length + 2) []
      { reader := a.reader, line := bl, column := bc, startLine := bsl,
        startColumn := bsc, char := a.char } = y at s1 s2
    obtain ⟨x1, x2⟩ := x
    obtain ⟨y1, y2⟩ := y
    simp only at s1 s2
    subst s1
    exact ⟨rfl, s2⟩
  · simp only [d1, d2]
    exact ⟨rfl, r1⟩

theorem skipWhiteSpace_sameInput (T : UnicodeTables) (a b : Lexer) (h : sameInput a b) :
    sameInput (markStart (skipWhiteSpace T a)) (markStart (skipWhiteSpace T b)) := by
  have := (scanWhile_sameInput (IsSpace T) (a.reader.length + 2) [] a b h).2
  simp only [skipWhiteSpace, ← h.2]
  exact this

theorem skipWhiteSpace_reader_le (T : UnicodeTables) (l : Lexer) :
    (markStart (skipWhiteSpace T l)).reader.length ≤ l.reader.length :=
  scanWhile_reader_le (IsSpace T) _ _ l

/-- Two states with the same input yield tokens of the same kind and literal,
and states with the same input again; the bound on the calls after a comment
does not matter once it exceeds the number of unread runes. -/
theorem NextTokenAux_congr (T : UnicodeTables) (intSize : Nat) :
    ∀ (n m : Nat) (a b : Lexer), sameInput a b → a.reader.length + 1 ≤ n →
      a.reader.length + 1 ≤ m →
      kindLiteral (NextTokenAux T intSize n a).1 = kindLiteral (NextTokenAux T intSize m b).1 ∧
      sameInput (NextTokenAux T intSize n a).2 (NextTokenAux T intSize m b).2 := by
  intro n
  induction n with
  | zero => intro m a b _ h; omega
  | succ n ih =>
    intro m a b hab hn hm
    cases m with
    | zero => omega
    | succ m =>
      simp only [NextTokenAux]
      refine NextTokenSwitch_congr T intSize _ _ _ _ (skipWhiteSpace_sameInput T a b hab) ?_
      intro a2 b2 h2 hlt
      have hle := skipWhiteSpace_reader_le T a
      exact ih m a2 b2 h2 (by omega) (by omega)

theorem NextToken_congr (T : UnicodeTables) (intSize : Nat) (a b : Lexer)
    (hab : sameInput a b) :
    kindLiteral (NextToken T intSize a).1 = kindLiteral (NextToken T intSize b).1 ∧
    sameInput (NextToken T intSize a).2 (NextToken T intSize b).2 :=
  NextTokenAux_congr T intSize _ _ a b hab le_rfl (by rw [hab.2])

theorem tokens_congr (T : UnicodeTables) (intSize : Nat) :
    ∀ (n : Nat) (a b : Lexer), sameInput a b →
      (tokens T intSize n a).map kindLiteral = (tokens T intSize n b).map kindLiteral := by
  intro n
  induction n with
  | zero => intro a b _; rfl
  | succ n ih =>
    intro a b hab
    obtain ⟨h1, h2⟩ := NextToken_congr T intSize a b hab
    simp only [tokens, List.map_cons, h1, ih _ _ h2]

theorem skipWhiteSpace_NewLexer (T : UnicodeTables) (rest : List Char) :
    skipWhiteSpace T (NewLexer rest) = skipWhiteSpace T (readChar (NewLexer rest)) := by
  rw [skipWhiteSpace_eq, skipWhiteSpace_eq]
  have h1 : pending (NewLexer rest) = ' ' :: rest := rfl
  have h2 : (pending (readChar (NewLexer rest))).takeWhile (IsSpace T) =
      rest.takeWhile (IsSpace T) := by
    cases rest with
    | nil =>
      have : pending (readChar (NewLexer [])) = [NUL] := rfl
      rw [this]
      simp [List.takeWhile, IsSpace_NUL]
    | cons c r => rw [pending_readChar _ (by simp [NewLexer])]; rfl
  rw [h1, h2, List.takeWhile_cons_of_pos (IsSpace_blank T), List.length_cons,
    Function.iterate_succ_apply]

/-- The first call on a fresh scanner is the call on the scanner that has read
its first rune: the blank that `NewLexer` stores is skipped as white space. -/
theorem NextToken_NewLexer_eq (T : UnicodeTables) (intSize : Nat) (input : List Char) :
    NextToken T intSize (NewLexer input) =
      NextTokenAux T intSize (input.length + 1) (readChar (NewLexer input)) := by
  simp only [NextToken, NextTokenAux, skipWhiteSpace_NewLexer]
  rfl

/-- A scanner positioned at `rest` returns the tokens, kinds and literals, that
a fresh scanner on `rest` returns. -/
theorem tokens_of_positionedAt (T : UnicodeTables) (intSize : Nat) (rest : List Char)
    (l : Lexer) (h : positionedAt l rest) (n : Nat) :
    (tokens T intSize n l).map kindLiteral =
      (tokens T intSize n (NewLexer rest)).map kindLiteral := by
  have hpos := readChar_positionedAt (NewLexer rest) rest rfl
  have hsame : sameInput (readChar (NewLexer rest)) l :=
    ⟨by rw [hpos.1, h.1], by rw [hpos.2, h.2]⟩
  have hfirst : NextToken T intSize (NewLexer rest) =
      NextTokenAux T intSize (rest.length + 1) (readChar (NewLexer rest)) := by
    simp only [NextToken, NextTokenAux, skipWhiteSpace_NewLexer]
    rfl
  have hle := readChar_reader_length_le (NewLexer rest)
  have hlen : (NewLexer rest).reader.length = rest.length := rfl
  obtain ⟨h1, h2⟩ := NextTokenAux_congr T intSize (rest.length + 1) (l.reader.length + 1)
    (readChar (NewLexer rest)) l hsame (by omega) (by rw [hsame.2])
  cases n with
  | zero => rfl
  | succ n =>
    simp only [tokens, List.map_cons, hfirst]
    rw [h1, tokens_congr T intSize n _ _ h2]
    rfl

/-! ## Unrecognised runes -/

/-- C7, as amended. For every rune `c` other than NUL that is not white space,
not a letter or underscore, not a digit, not the double quote and not one of
the punctuation runes, and every `rest`, `NextToken` on `c` followed by `rest`
returns the ERROR token "Unexpected character: " followed by `c`, consumes that
one rune, and the following calls return the tokens, kinds and literals, that
lexing `rest` alone returns. -/
theorem NextToken_unexpected_character (T : UnicodeTables) (intSize : Nat) (c : Char)
    (rest : List Char) (hnul : c ≠ NUL) (hspace : IsSpace T c = false)
    (hstart : isIdentifierStart T c = false) (hdigit : IsDigit T c = false)
    (hquote : c ≠ '"') (hpunct : c ∉ punctuation) :
    (NextToken T intSize (NewLexer (c :: rest))).1.Typ = .ERROR ∧
    (NextToken T intSize (NewLexer (c :: rest))).1.Literal =
      "Unexpected character: " ++ String.singleton c ∧
    positionedAt (NextToken T intSize (NewLexer (c :: rest))).2 rest ∧
    ∀ n : Nat, (tokens T intSize n (NextToken T intSize (NewLexer (c :: rest))).2).map kindLiteral =
      (tokens T intSize n (NewLexer rest)).map kindLiteral := by
  simp only [punctuation, List.mem_cons, List.mem_singleton, List.not_mem_nil, or_false,
    not_or] at hpunct
  obtain ⟨n1, n2, n3, n4, n5, n6, n7, n8, n9, n10, n11, n12, n13, n14, n15, n16⟩ := hpunct
  have hsw : NextToken T intSize (NewLexer (c :: rest)) =
      ({ Typ := .ERROR, Literal := "Unexpected character: " ++ String.singleton c,
         Line := 1, Column := 1 },
       readChar
        { reader := rest, line := 1, column := 1, startLine := 1, startColumn := 1,
          char := c }) := by
    rw [NextToken_NewLexer_cons T intSize c rest hspace]
    simp only [NextTokenSwitch, n1, n2, n3, n4, n5, n6, n7, n8, n9, n10, n11, n12, n13, n14,
      n15, n16, hnul, hquote, hdigit, hstart, if_false]
    simp
  have hpos : positionedAt (NextToken T intSize (NewLexer (c :: rest))).2 rest := by
    rw [hsw]
    exact readChar_positionedAt _ _ rfl
  refine ⟨by rw [hsw], by rw [hsw], hpos, ?_⟩
  intro n
  exact tokens_of_positionedAt T intSize rest _ hpos n

theorem NextToken_unexpected_character_witness :
    (NextToken latin1Tables 64 (NewLexer ('#' :: "abc".toList))).1.Typ = .ERROR ∧
    (NextToken latin1Tables 64 (NewLexer ('#' :: "abc".toList))).1.Literal =
      "Unexpected character: " ++ String.singleton '#' ∧
    positionedAt (NextToken latin1Tables 64 (NewLexer ('#' :: "abc".toList))).2 "abc".toList ∧
    ∀ n : Nat,
      (tokens latin1Tables 64 n
        (NextToken latin1Tables 64 (NewLexer ('#' :: "abc".toList))).2).map kindLiteral =
      (tokens latin1Tables 64 n (NewLexer "abc".toList)).map kindLiteral :=
  NextToken_unexpected_character latin1Tables 64 '#' "abc".toList (by decide) (by decide)
    (by decide) (by decide) (by decide) (by decide)

/-- C7 fails as stated at the rune NUL, which is none of the excluded runes: on
NUL followed by `x` the first token is EOF, not ERROR, nothing is consumed, and
the calls that follow return EOF where lexing `x` alone returns OBJECTID. -/
theorem NextToken_NUL_is_end_of_input :
    IsSpace latin1Tables NUL = false ∧ isIdentifierStart latin1Tables NUL = false ∧
    IsDigit latin1Tables NUL = false ∧ NUL ≠ '"' ∧ NUL ∉ punctuation ∧
    (tokens latin1Tables 64 3 (NewLexer [NUL, 'x'])).map kindLiteral =
      [(.EOF, ""), (.EOF, ""), (.EOF, "")] ∧
    (NextToken latin1Tables 64 (NewLexer [NUL, 'x'])).2.reader = ['x'] ∧
    (tokens latin1Tables 64 1 (NewLexer ['x'])).map kindLiteral = [(.OBJECTID, "x")] := by
  decide

/-! ## Position tracking -/

theorem columnOf_append_newline (pre : List Char) : columnOf (pre ++ ['\n']) = 0 := by
  simp [columnOf, List.takeWhile]

theorem columnOf_append (pre : List Char) (c : Char) (h : c ≠ '\n') :
    columnOf (pre ++ [c]) = columnOf pre + 1 := by
  simp [columnOf, List.takeWhile, h]

theorem lineOf_append_newline (pre : List Char) : lineOf (pre ++ ['\n']) = lineOf pre + 1 := by
  simp [lineOf, List.count_append]
  omega

theorem lineOf_append (pre : List Char) (c : Char) (h : c ≠ '\n') :
    lineOf (pre ++ [c]) = lineOf pre := by
  simp [lineOf, List.count_append, List.count_singleton, h]

theorem Tracks_readChar_of (input : List Char) (l : Lexer) (pre : List Char)
    (h1 : pre ++ l.reader = input) (h2 : l.line = lineOf pre) (h3 : l.column = columnOf pre) :
    Tracks input (readChar l) := by
  cases hr : l.reader with
  | nil =>
    rw [readChar_nil l hr]
    exact ⟨pre, h1, h2, h3, fun hh => absurd rfl hh⟩
  | cons c r =>
    refine ⟨pre ++ [c], ?_, ?_, ?_, ?_⟩
    · rw [(readChar_char_cons l c r hr).2, ← h1, hr]
      simp
    · by_cases hc : c = '\n'
      · subst hc
        simp [readChar, hr, h2, lineOf_append_newline]
      · simp [readChar, hr, hc, h2, lineOf_append pre c hc]
    · by_cases hc : c = '\n'
      · subst hc
        simp [readChar, hr, columnOf_append_newline]
      · simp [readChar, hr, hc, h3, columnOf_append pre c hc]
    · intro _
      exact ⟨pre, by rw [(readChar_char_cons l c r hr).1]⟩

theorem Tracks_readChar (input : List Char) (l : Lexer) (h : Tracks input l) :
    Tracks input (readChar l) := by
  obtain ⟨pre, h1, h2, h3, _⟩ := h
  exact Tracks_readChar_of input l pre h1 h2 h3

theorem Tracks_markStart (input : List Char) (l : Lexer) (h : Tracks input l) :
    Tracks input (markStart l) := h

theorem Tracks_scanWhile (input : List Char) (p : Char → Bool) :
    ∀ (n : Nat) (sb : List Char) (l : Lexer), Tracks input l →
      Tracks input (scanWhile p n sb l).2 := by
  intro n
  induction n with
  | zero => intro sb l h; exact h
  | succ n ih =>
    intro sb l h
    by_cases hp : p l.char = true
    · simp only [scanWhile, hp, if_true]
      exact ih _ _ (Tracks_readChar input l h)
    · have hp1 : p l.char = false := by simpa using hp
      rw [scanWhile_stop p _ sb l hp1]
      exact h

theorem Tracks_skipBlockComment (input : List Char) :
    ∀ (n : Nat) (l : Lexer), Tracks input l → Tracks input (skipBlockComment n l).2 := by
  intro n
  induction n with
  | zero => intro l h; exact h
  | succ n ih =>
    intro l h
    by_cases c1 : l.char = NUL
    · simp only [skipBlockComment, c1, if_true]
      exact h
    · by_cases c2 : l.char = '*' ∧ peekChar l = '/'
      · simp only [skipBlockComment, c1, if_false, c2, and_self, if_true]
        exact Tracks_readChar input _ (Tracks_readChar input l h)
      · simp only [skipBlockComment, c1, if_false, c2]
        exact ih _ (Tracks_readChar input l h)

theorem Tracks_readStringLoop (input : List Char) :
    ∀ (n : Nat) (sb : List Char) (l : Lexer), Tracks input l →
      Tracks input (readStringLoop n sb l).2 := by
  intro n
  induction n with
  | zero => intro sb l h; exact h
  | succ n ih =>
    intro sb l h
    have r1 := Tracks_readChar input l h
    have r2 := Tracks_readChar input _ r1
    by_cases c1 : l.char = '"'
    · rw [readStringLoop_quote n sb l c1]
      exact h
    by_cases c2 : l.char = NUL
    · rw [readStringLoop_NUL n sb l c2]
      exact h
    by_cases c3 : l.char = '\n'
    · rw [readStringLoop_newline n sb l c3]
      exact h
    by_cases c4 : l.char = '\\'
    · by_cases c5 : (readChar l).char = NUL
      · rw [readStringLoop_backslash_NUL n sb l c4 c5]
        exact r1
      · cases he : escapeOf (readChar l).char with
        | none =>
          rw [readStringLoop_invalid_escape n sb l c4 c5 he]
          exact r1
        | some x =>
          rw [readStringLoop_escape n sb l x c4 he]
          exact ih _ _ r2
    · rw [readStringLoop_ordinary n sb l (isOrdinary_of_ne _ c1 c2 c3 c4)]
      exact ih _ _ r1

theorem Tracks_readString (input : List Char) (l : Lexer) (h : Tracks input l) :
    Tracks input (readString l).2 := by
  have h1 := Tracks_readStringLoop input ((readChar l).reader.length + 2) [] (readChar l)
    (Tracks_readChar input l h)
  simp only [readString]
  generalize readStringLoop ((readChar l).reader.length + 2) [] (readChar l) = x at h1
  obtain ⟨x1, x2⟩ := x
  cases x1 with
  | error e => exact h1
  | ok sb =>
    have r3 := Tracks_readChar input _ h1
    simp only
    split_ifs <;> exact r3

theorem reader_of_peekChar (l : Lexer) (c : Char) (h : peekChar l = c) (hc : c ≠ NUL) :
    ∃ tail, l.reader = c :: tail := by
  cases hr : l.reader with
  | nil =>
    exfalso
    apply hc
    rw [← h]
    simp [peekChar, hr]
  | cons d r =>
    refine ⟨r, ?_⟩
    have : peekChar l = d := by simp [peekChar, hr]
    rw [← h, this]

theorem ite_ne_of_ne {c : Prop} [Decidable c] (a b x : TokenType) (ha : a ≠ x) (hb : b ≠ x) :
    (if c then a else b) ≠ x := by
  by_cases h : c
  · rw [if_pos h]; exact ha
  · rw [if_neg h]; exact hb

theorem identifierType_ne_STR_CONST (T : UnicodeTables) (identifier : List Char) :
    identifierType T identifier ≠ .STR_CONST := by
  unfold identifierType
  iterate 18 refine ite_ne_of_ne _ _ _ (by decide) ?_
  cases identifier with
  | nil => exact TokenType.noConfusion
  | cons c cs => exact ite_ne_of_ne _ _ _ (by decide) (by decide)

/-! ## The bounds of the loops are never reached -/

theorem readChar_char_NUL_of_nil (l : Lexer) (h : l.reader = []) : (readChar l).char = NUL := by
  rw [readChar_nil l h]

theorem readChar_reader_nil_of_nil (l : Lexer) (h : l.reader = []) :
    (readChar l).reader = [] := by
  rw [readChar_nil l h]
  exact h

/-- The loop of `readString` returns the same result for every bound above the
number of unread runes plus one. -/
theorem readStringLoop_bound :
    ∀ (n m : Nat) (sb : List Char) (l : Lexer),
      (l.reader.length + 2 ≤ n ∧ l.reader.length + 2 ≤ m) ∨ (l.char = NUL ∧ 1 ≤ n ∧ 1 ≤ m) →
      readStringLoop n sb l = readStringLoop m sb l := by
  intro n
  induction n with
  | zero => intro m sb l h; omega
  | succ n ih =>
    intro m sb l h
    obtain ⟨m, rfl⟩ : ∃ m2, m = m2 + 1 := ⟨m - 1, by omega⟩
    by_cases c1 : l.char = '"'
    · rw [readStringLoop_quote n sb l c1, readStringLoop_quote m sb l c1]
    by_cases c2 : l.char = NUL
    · rw [readStringLoop_NUL n sb l c2, readStringLoop_NUL m sb l c2]
    have h : l.reader.length + 2 ≤ n + 1 ∧ l.reader.length + 2 ≤ m + 1 := by
      rcases h with h | h
      · exact h
      · exact absurd h.1 c2
    have hle := readChar_reader_length_le l
    have hle2 := readChar_reader_length_le (readChar l)
    have hnext : ((readChar l).reader.length + 2 ≤ n ∧ (readChar l).reader.length + 2 ≤ m) ∨
        ((readChar l).char = NUL ∧ 1 ≤ n ∧ 1 ≤ m) := by
      by_cases hr : l.reader = []
      · exact Or.inr ⟨readChar_char_NUL_of_nil l hr, by omega, by omega⟩
      · have := readChar_reader_lt l hr
        exact Or.inl ⟨by omega, by omega⟩
    by_cases c3 : l.char = '\n'
    · rw [readStringLoop_newline n sb l c3, readStringLoop_newline m sb l c3]
    by_cases c4 : l.char = '\\'
    · by_cases c5 : (readChar l).char = NUL
      · rw [readStringLoop_backslash_NUL n sb l c4 c5, readStringLoop_backslash_NUL m sb l c4 c5]
      · cases he : escapeOf (readChar l).char with
        | none =>
          rw [readStringLoop_invalid_escape n sb l c4 c5 he,
            readStringLoop_invalid_escape m sb l c4 c5 he]
        | some x =>
          rw [readStringLoop_escape n sb l x c4 he, readStringLoop_escape m sb l x c4 he]
          have hr : l.reader ≠ [] := fun hr => c5 (readChar_char_NUL_of_nil l hr)
          have := readChar_reader_lt l hr
          exact ih m _ _ (Or.inl ⟨by omega, by omega⟩)
    · have ho := isOrdinary_of_ne _ c1 c2 c3 c4
      rw [readStringLoop_ordinary n sb l ho, readStringLoop_ordinary m sb l ho]
      exact ih m _ _ hnext

/-- The block-comment loop returns the same result for every bound above the
number of unread runes plus one. -/
theorem skipBlockComment_bound :
    ∀ (n m : Nat) (l : Lexer),
      (l.reader.length + 2 ≤ n ∧ l.reader.length + 2 ≤ m) ∨ (l.char = NUL ∧ 1 ≤ n ∧ 1 ≤ m) →
      skipBlockComment n l = skipBlockComment m l := by
  intro n
  induction n with
  | zero => intro m l h; omega
  | succ n ih =>
    intro m l h
    obtain ⟨m, rfl⟩ : ∃ m2, m = m2 + 1 := ⟨m - 1, by omega⟩
    by_cases c1 : l.char = NUL
    · simp only [skipBlockComment, c1, if_true]
    have h : l.reader.length + 2 ≤ n + 1 ∧ l.reader.length + 2 ≤ m + 1 := by
      rcases h with h | h
      · exact h
      · exact absurd h.1 c1
    by_cases c2 : l.char = '*' ∧ peekChar l = '/'
    · simp only [skipBlockComment, c1, if_false, c2, and_self, if_true]
    · simp only [skipBlockComment, c1, if_false, c2]
      refine ih m _ ?_
      by_cases hr : l.reader = []
      · exact Or.inr ⟨readChar_char_NUL_of_nil l hr, by omega, by omega⟩
      · have := readChar_reader_lt l hr
        exact Or.inl ⟨by omega, by omega⟩

/-- The switch does not depend on the calls after a comment beyond the states
with fewer unread runes. -/
theorem NextTokenSwitch_again (T : UnicodeTables) (intSize : Nat)
    (again again2 : Lexer → Token × Lexer) (l : Lexer)
    (hag : ∀ l2 : Lexer, l2.reader.length < l.reader.length → again l2 = again2 l2) :
    NextTokenSwitch T intSize again l = NextTokenSwitch T intSize again2 l := by
  by_cases q5 : l.char = '/'
  · simp only [NextTokenSwitch, q5]
    simp only [NUL, Char.reduceEq, if_true, if_false]
    by_cases k1 : peekChar l = '/'
    · simp only [k1, if_true]
      have hne := reader_ne_nil_of_peekChar l '/' k1 (by decide)
      exact hag _ (scanWhile_reader_lt (fun c => c != '\n' && c != Char.ofNat 0)
        (l.reader.length + 1) [] l (by rw [q5]; decide) hne)
    · by_cases k2 : peekChar l = '*'
      · simp only [k2, if_true, Char.reduceEq, if_false]
        have hne := reader_ne_nil_of_peekChar l '*' k2 (by decide)
        have hle := skipBlockComment_reader_le (l.reader.length + 2) (readChar (readChar l))
        have hlt : (skipBlockComment (l.reader.length + 2) (readChar (readChar l))).2.reader.length
            < l.reader.length :=
          lt_of_le_of_lt (le_trans hle (readChar_reader_length_le _)) (readChar_reader_lt l hne)
        generalize skipBlockComment (l.reader.length + 2) (readChar (readChar l)) = x at hlt
        obtain ⟨x1, x2⟩ := x
        cases x1
        · rfl
        · exact hag _ hlt
      · simp only [k1, k2, if_false]
  · simp only [NextTokenSwitch, q5, if_false]

/-- The method `NextToken` returns the same token and state for every bound on
its calls to itself above the number of unread runes: the bound of `NextToken`
is never reached. -/
theorem NextTokenAux_bound (T : UnicodeTables) (intSize : Nat) :
    ∀ (n m : Nat) (l : Lexer), l.reader.length + 1 ≤ n → l.reader.length + 1 ≤ m →
      NextTokenAux T intSize n l = NextTokenAux T intSize m l := by
  intro n
  induction n with
  | zero => intro m l h; omega
  | succ n ih =>
    intro m l hn hm
    obtain ⟨m, rfl⟩ : ∃ m2, m = m2 + 1 := ⟨m - 1, by omega⟩
    simp only [NextTokenAux]
    refine NextTokenSwitch_again T intSize _ _ _ ?_
    intro l2 hlt
    have hle := skipWhiteSpace_reader_le T l
    exact ih m l2 (by omega) (by omega)

/-! ## The cases of the switch -/

/-- Case analysis of the switch of `NextToken`: a property of its result holds
when it holds in each case of the switch. -/
theorem NextTokenSwitch_cases (T : UnicodeTables) (intSize : Nat)
    (again : Lexer → Token × Lexer) (l : Lexer) (P : Token × Lexer → Prop)
    (hEOF : l.char = NUL →
      P ({ Typ := .EOF, Literal := "", Line := l.startLine, Column := l.startColumn }, l))
    (hOne : ∀ e ∈ singleTokens, l.char = e.1 →
      P ({ Typ := e.2.1, Literal := e.2.2, Line := l.startLine, Column := l.startColumn },
        readChar l))
    (hTwo : ∀ e ∈ doubleTokens, l.char = e.1 → peekChar l = e.2.1 →
      P ({ Typ := e.2.2.1, Literal := e.2.2.2, Line := l.startLine, Column := l.startColumn },
        readChar (readChar l)))
    (hLine : l.char = '/' → peekChar l = '/' →
      P (again (scanWhile (fun c => c != '\n' && c != NUL) (l.reader.length + 2) [] l).2))
    (hOpen : l.char = '/' → peekChar l = '*' →
      (skipBlockComment (l.reader.length + 2) (readChar (readChar l))).1 = false →
      P ({ Typ := .ERROR, Literal := "EOF in comment",
           Line := (skipBlockComment (l.reader.length + 2) (readChar (readChar l))).2.line,
           Column := (skipBlockComment (l.reader.length + 2) (readChar (readChar l))).2.column },
        (skipBlockComment (l.reader.length + 2) (readChar (readChar l))).2))
    (hBlock : l.char = '/' → peekChar l = '*' →
      (skipBlockComment (l.reader.length + 2) (readChar (readChar l))).1 = true →
      P (again (skipBlockComment (l.reader.length + 2) (readChar (readChar l))).2))
    (hStrErr : l.char = '"' → ∀ e, (readString l).1 = .error e →
      P ({ Typ := .ERROR, Literal := e, Line := l.startLine, Column := l.startColumn },
        (readString l).2))
    (hStr : l.char = '"' → ∀ str, (readString l).1 = .ok str →
      P ({ Typ := .STR_CONST, Literal := String.mk str, Line := l.startLine,
           Column := l.startColumn }, (readString l).2))
    (hNumErr : IsDigit T l.char = true → (Atoi intSize (readNumber T l).1).isNone = true →
      P ({ Typ := .ERROR, Literal := "Number out of range", Line := l.startLine,
           Column := l.startColumn }, (readNumber T l).2))
    (hNum : IsDigit T l.char = true → (Atoi intSize (readNumber T l).1).isNone = false →
      P ({ Typ := .INT_CONST, Literal := String.mk (readNumber T l).1, Line := l.startLine,
           Column := l.startColumn }, (readNumber T l).2))
    (hId : isIdentifierStart T l.char = true → IsDigit T l.char = false →
      P ({ Typ := identifierType T (readIdentifier T l).1,
           Literal := String.mk (readIdentifier T l).1, Line := l.startLine,
           Column := l.startColumn }, (readIdentifier T l).2))
    (hBad : l.char ≠ NUL → l.char ∉ punctuation → l.char ≠ '"' → IsDigit T l.char = false →
      isIdentifierStart T l.char = false →
      P ({ Typ := .ERROR, Literal := "Unexpected character: " ++ String.singleton l.char,
           Line := l.startLine, Column := l.startColumn }, readChar l)) :
    P (NextTokenSwitch T intSize again l) := by
  by_cases p0 : l.char = '@'
  · simp only [NextTokenSwitch, p0]
    simp only [NUL, Char.reduceEq, if_true, if_false]
    exact hOne ('@', .AT, "@") (by decide) p0
  by_cases p1 : l.char = '('
  · simp only [NextTokenSwitch, p1]
    simp only [NUL, Char.reduceEq, if_true, if_false]
    exact hOne ('(', .LPAREN, "(") (by decide) p1
  by_cases p2 : l.char = ')'
  · simp only [NextTokenSwitch, p2]
    simp only [NUL, Char.reduceEq, if_true, if_false]
    exact hOne (')', .RPAREN, ")") (by decide) p2
  by_cases p3 : l.char = '\x7b'
  · simp only [NextTokenSwitch, p3]
    simp only [NUL, Char.reduceEq, if_true, if_false]
    exact hOne ('\x7b', .LBRACE, "\x7b") (by decide) p3
  by_cases p4 : l.char = '\x7d'
  · simp only [NextTokenSwitch, p4]
    simp only [NUL, Char.reduceEq, if_true, if_false]
    exact hOne ('\x7d', .RBRACE, "\x7d") (by decide) p4
  by_cases p5 : l.char = ';'
  · simp only [NextTokenSwitch, p5]
    simp only [NUL, Char.reduceEq, if_true, if_false]
    exact hOne (';', .SEMI, ";") (by decide) p5
  by_cases p6 : l.char = ':'
  · simp only [NextTokenSwitch, p6]
    simp only [NUL, Char.reduceEq, if_true, if_false]
    exact hOne (':', .COLON, ":") (by decide) p6
  by_cases p7 : l.char = ','
  · simp only [NextTokenSwitch, p7]
    simp only [NUL, Char.reduceEq, if_true, if_false]
    exact hOne (',', .COMMA, ",") (by decide) p7
  by_cases p8 : l.char = '+'
  · simp only [NextTokenSwitch, p8]
    simp only [NUL, Char.reduceEq, if_true, if_false]
    exact hOne ('+', .PLUS, "+") (by decide) p8
  by_cases p9 : l.char = '*'
  · simp only [NextTokenSwitch, p9]
    simp only [NUL, Char.reduceEq, if_true, if_false]
    exact hOne ('*', .TIMES, "*") (by decide) p9
  by_cases p10 : l.char = '-'
  · simp only [NextTokenSwitch, p10]
    simp only [NUL, Char.reduceEq, if_true, if_false]
    exact hOne ('-', .MINUS, "-") (by decide) p10
  by_cases p11 : l.char = '~'
  · simp only [NextTokenSwitch, p11]
    simp only [NUL, Char.reduceEq, if_true, if_false]
    exact hOne ('~', .NEG, "~") (by decide) p11
  by_cases p12 : l.char = '.'
  · simp only [NextTokenSwitch, p12]
    simp only [NUL, Char.reduceEq, if_true, if_false]
    exact hOne ('.', .DOT, ".") (by decide) p12
  by_cases q1 : l.char = NUL
  · have hz : ¬ (NUL = '@') := by decide
    simp only [NextTokenSwitch, q1, hz, if_true, if_false]
    rw [q1] at hEOF
    exact hEOF rfl
  by_cases q2 : l.char = '='
  · simp only [NextTokenSwitch, q2]
    simp only [NUL, Char.reduceEq, if_true, if_false]
    split_ifs with k1
    · exact hTwo ('=', '>', .DARROW, "=>") (by decide) q2 k1
    · exact hOne ('=', .EQ, "=") (by decide) q2
  by_cases q3 : l.char = '<'
  · simp only [NextTokenSwitch, q3]
    simp only [NUL, Char.reduceEq, if_true, if_false]
    split_ifs with k1 k2
    · exact hTwo ('<', '-', .ASSIGN, "<-") (by decide) q3 k1
    · exact hTwo ('<', '=', .LE, "<=") (by decide) q3 k2
    · exact hOne ('<', .LT, "<") (by decide) q3
  by_cases q4 : l.char = '"'
  · have h1 := hStrErr q4
    have h2 := hStr q4
    simp only [NextTokenSwitch, q4]
    simp only [NUL, Char.reduceEq, if_true, if_false]
    generalize readString l = x at h1 h2
    obtain ⟨x1, x2⟩ := x
    cases x1 with
    | error e => exact h1 e rfl
    | ok str => exact h2 str rfl
  by_cases q5 : l.char = '/'
  · simp only [NextTokenSwitch, q5]
    simp only [NUL, Char.reduceEq, if_true, if_false]
    by_cases k1 : peekChar l = '/'
    · simp only [k1, if_true]
      exact hLine q5 k1
    · by_cases k2 : peekChar l = '*'
      · simp only [k2, if_true, Char.reduceEq, if_false]
        have h1 := hOpen q5 k2
        have h2 := hBlock q5 k2
        generalize skipBlockComment (l.reader.length + 2) (readChar (readChar l)) = x at h1 h2
        obtain ⟨x1, x2⟩ := x
        cases x1
        · exact h1 rfl
        · exact h2 rfl
      · simp only [k1, k2, if_false]
        exact hOne ('/', .DIVIDE, "/") (by decide) q5
  simp only [NextTokenSwitch, p0, p1, p2, p3, p4, p5, p6, p7, p8, p9, p10, p11, p12, q1, q2, q3, q4, q5, if_false]
  by_cases d1 : IsDigit T l.char = true
  · simp only [d1, if_true]
    by_cases d3 : (Atoi intSize (readNumber T l).1).isNone = true
    · simp only [d3, if_true]
      exact hNumErr d1 d3
    · simp only [d3]
      exact hNum d1 (Bool.eq_false_iff.mpr d3)
  have d1f : IsDigit T l.char = false := by simpa using d1
  by_cases d2 : isIdentifierStart T l.char = true
  · simp only [d1, d2, if_true]
    exact hId d2 d1f
  · simp only [d1, d2]
    refine hBad q1 ?_ q4 d1f (by simpa using d2)
    simp only [punctuation, List.mem_cons, List.mem_singleton, List.not_mem_nil, or_false,
      not_or]
    exact ⟨p0, p1, p2, p3, p4, p5, p6, p7, p8, p10, p9, q5, p11, p12, q2, q3⟩

/-! ## Properties kept by every step of the scanner -/

theorem closed_scanWhile (I : Lexer → Prop) (hI : ∀ l, I l → I (readChar l))
    (p : Char → Bool) :
    ∀ (n : Nat) (sb : List Char) (l : Lexer), I l → I (scanWhile p n sb l).2 := by
  intro n
  induction n with
  | zero => intro sb l h; exact h
  | succ n ih =>
    intro sb l h
    by_cases hp : p l.char = true
    · simp only [scanWhile, hp, if_true]
      exact ih _ _ (hI l h)
    · have hp1 : p l.char = false := by simpa using hp
      rw [scanWhile_stop p _ sb l hp1]
      exact h

theorem closed_skipBlockComment (I : Lexer → Prop) (hI : ∀ l, I l → I (readChar l)) :
    ∀ (n : Nat) (l : Lexer), I l → I (skipBlockComment n l).2 := by
  intro n
  induction n with
  | zero => intro l h; exact h
  | succ n ih =>
    intro l h
    by_cases c1 : l.char = NUL
    · simp only [skipBlockComment, c1, if_true]
      exact h
    · by_cases c2 : l.char = '*' ∧ peekChar l = '/'
      · simp only [skipBlockComment, c1, if_false, c2, and_self, if_true]
        exact hI _ (hI l h)
      · simp only [skipBlockComment, c1, if_false, c2]
        exact ih _ (hI l h)

theorem closed_readStringLoop (I : Lexer → Prop) (hI : ∀ l, I l → I (readChar l)) :
    ∀ (n : Nat) (sb : List Char) (l : Lexer), I l → I (readStringLoop n sb l).2 := by
  intro n
  induction n with
  | zero => intro sb l h; exact h
  | succ n ih =>
    intro sb l h
    have r1 := hI l h
    have r2 := hI _ r1
    by_cases c1 : l.char = '"'
    · rw [readStringLoop_quote n sb l c1]
      exact h
    by_cases c2 : l.char = NUL
    · rw [readStringLoop_NUL n sb l c2]
      exact h
    by_cases c3 : l.char = '\n'
    · rw [readStringLoop_newline n sb l c3]
      exact h
    by_cases c4 : l.char = '\\'
    · by_cases c5 : (readChar l).char = NUL
      · rw [readStringLoop_backslash_NUL n sb l c4 c5]
        exact r1
      · cases he : escapeOf (readChar l).char with
        | none =>
          rw [readStringLoop_invalid_escape n sb l c4 c5 he]
          exact r1
        | some x =>
          rw [readStringLoop_escape n sb l x c4 he]
          exact ih _ _ r2
    · rw [readStringLoop_ordinary n sb l (isOrdinary_of_ne _ c1 c2 c3 c4)]
      exact ih _ _ r1

theorem closed_readString (I : Lexer → Prop) (hI : ∀ l, I l → I (readChar l)) (l : Lexer)
    (h : I l) : I (readString l).2 := by
  have h1 := closed_readStringLoop I hI ((readChar l).reader.length + 2) [] (readChar l)
    (hI l h)
  simp only [readString]
  generalize readStringLoop ((readChar l).reader.length + 2) [] (readChar l) = x at h1
  obtain ⟨x1, x2⟩ := x
  cases x1 with
  | error e => exact h1
  | ok sb =>
    have r3 := hI _ h1
    simp only
    split_ifs <;> exact r3

/-- A property of the scanner state that `readChar` keeps is kept by the switch,
when the calls after a comment keep it. -/
theorem closed_NextTokenSwitch (T : UnicodeTables) (intSize : Nat) (I : Lexer → Prop)
    (hI : ∀ l, I l → I (readChar l)) (again : Lexer → Token × Lexer)
    (hag : ∀ l, I l → I (again l).2) (l : Lexer) (h : I l) :
    I (NextTokenSwitch T intSize again l).2 := by
  have r1 := hI l h
  have r2 := hI _ r1
  refine NextTokenSwitch_cases T intSize again l (fun res => I res.2) ?_ ?_ ?_ ?_ ?_ ?_ ?_ ?_ ?_
    ?_ ?_ ?_
  · intro _; exact h
  · intro _ _ _; exact r1
  · intro _ _ _ _; exact r2
  · intro _ _; exact hag _ (closed_scanWhile I hI _ _ _ l h)
  · intro _ _ _; exact closed_skipBlockComment I hI _ _ r2
  · intro _ _ _; exact hag _ (closed_skipBlockComment I hI _ _ r2)
  · intro _ _ _; exact closed_readString I hI l h
  · intro _ _ _; exact closed_readString I hI l h
  · intro _ _; exact closed_scanWhile I hI _ _ _ l h
  · intro _ _; exact closed_scanWhile I hI _ _ _ l h
  · intro _ _; exact closed_scanWhile I hI _ _ _ l h
  · intro _ _ _ _ _; exact r1

theorem closed_NextTokenAux (T : UnicodeTables) (intSize : Nat) (I : Lexer → Prop)
    (hI : ∀ l, I l → I (readChar l)) (hM : ∀ l, I l → I (markStart l)) :
    ∀ (n : Nat) (l : Lexer), I l → I (NextTokenAux T intSize n l).2 := by
  intro n
  induction n with
  | zero => intro l h; exact h
  | succ n ih =>
    intro l h
    simp only [NextTokenAux]
    exact closed_NextTokenSwitch T intSize I hI _ ih _
      (hM _ (closed_scanWhile I hI _ _ _ l h))

theorem closed_run (T : UnicodeTables) (intSize : Nat) (I : Lexer → Prop)
    (hI : ∀ l, I l → I (readChar l)) (hM : ∀ l, I l → I (markStart l)) :
    ∀ (n : Nat) (l : Lexer), I l → I (run T intSize n l) := by
  intro n
  induction n with
  | zero => intro l h; exact h
  | succ n ih =>
    intro l h
    simp only [run]
    exact ih _ (closed_NextTokenAux T intSize I hI hM _ l h)

theorem ite_mem_of_mem {c : Prop} [Decidable c] (a b : TokenType) (xs : List TokenType)
    (ha : a ∈ xs) (hb : b ∈ xs) : (if c then a else b) ∈ xs := by
  by_cases h : c
  · rw [if_pos h]; exact ha
  · rw [if_neg h]; exact hb

theorem identifierType_mem (T : UnicodeTables) (identifier : List Char) :
    identifierType T identifier ∈ identifierKinds := by
  unfold identifierType
  iterate 18 refine ite_mem_of_mem _ _ _ (by decide) ?_
  cases identifier with
  | nil => exact (by decide : TokenType.OBJECTID ∈ identifierKinds)
  | cons c cs => exact ite_mem_of_mem _ _ _ (by decide) (by decide)

/-! ## End of input -/

theorem singleTokens_kind :
    ∀ e ∈ singleTokens, e.2.1 ≠ .EOF ∧ e.2.1 ≠ .ERROR ∧ e.2.1 ≠ .STR_CONST ∧ e.1 ≠ NUL ∧
      e.1 ≠ '\n' ∧ e.2.2.data = [e.1] := by
  decide

theorem doubleTokens_kind :
    ∀ e ∈ doubleTokens, e.2.2.1 ≠ .EOF ∧ e.2.2.1 ≠ .ERROR ∧ e.2.2.1 ≠ .STR_CONST ∧
      e.1 ≠ NUL ∧ e.1 ≠ '\n' ∧ e.2.1 ≠ NUL ∧ e.2.2.2.data = [e.1, e.2.1] := by
  decide

theorem identifierType_ne_EOF (T : UnicodeTables) (identifier : List Char) :
    identifierType T identifier ≠ .EOF := by
  intro h
  have := identifierType_mem T identifier
  rw [h] at this
  exact absurd this (by decide)

theorem identifierType_ne_ERROR (T : UnicodeTables) (identifier : List Char) :
    identifierType T identifier ≠ .ERROR := by
  intro h
  have := identifierType_mem T identifier
  rw [h] at this
  exact absurd this (by decide)

theorem NextTokenSwitch_atEnd (T : UnicodeTables) (intSize : Nat)
    (again : Lexer → Token × Lexer) (l : Lexer)
    (hs : l.startLine = l.line ∧ l.startColumn = l.column)
    (hag : ∀ l2 : Lexer, l2.reader.length < l.reader.length → atEnd (again l2)) :
    atEnd (NextTokenSwitch T intSize again l) := by
  refine NextTokenSwitch_cases T intSize again l atEnd ?_ ?_ ?_ ?_ ?_ ?_ ?_ ?_ ?_ ?_ ?_ ?_
  · intro h _
    refine ⟨h, hs.1, hs.2, ?_⟩
    simp only [hs.1, hs.2]
  · intro e he _ h
    exact absurd h (singleTokens_kind e he).1
  · intro e he _ _ h
    exact absurd h (doubleTokens_kind e he).1
  · intro q5 k1
    have hne := reader_ne_nil_of_peekChar l '/' k1 (by decide)
    exact hag _ (scanWhile_reader_lt (fun c => c != '\n' && c != NUL)
      (l.reader.length + 1) [] l (by rw [q5]; decide) hne)
  · intro _ _ _ h
    exact TokenType.noConfusion h
  · intro _ k2 _
    have hne := reader_ne_nil_of_peekChar l '*' k2 (by decide)
    have hle := skipBlockComment_reader_le (l.reader.length + 2) (readChar (readChar l))
    exact hag _ (lt_of_le_of_lt (le_trans hle (readChar_reader_length_le _))
      (readChar_reader_lt l hne))
  · intro _ _ _ h
    exact TokenType.noConfusion h
  · intro _ _ _ h
    exact TokenType.noConfusion h
  · intro _ _ h
    exact TokenType.noConfusion h
  · intro _ _ h
    exact TokenType.noConfusion h
  · intro _ _ h
    exact absurd h (identifierType_ne_EOF T _)
  · intro _ _ _ _ _ h
    exact TokenType.noConfusion h

theorem NextTokenAux_atEnd (T : UnicodeTables) (intSize : Nat) :
    ∀ (n : Nat) (l : Lexer), l.reader.length + 1 ≤ n → atEnd (NextTokenAux T intSize n l) := by
  intro n
  induction n with
  | zero => intro l h; omega
  | succ n ih =>
    intro l hn
    simp only [NextTokenAux]
    refine NextTokenSwitch_atEnd T intSize _ _ ⟨rfl, rfl⟩ ?_
    intro l2 hlt
    have hle := skipWhiteSpace_reader_le T l
    exact ih l2 (by omega)

theorem NextToken_atEnd (T : UnicodeTables) (intSize : Nat) (l : Lexer) :
    atEnd (NextToken T intSize l) :=
  NextTokenAux_atEnd T intSize _ l le_rfl

theorem markStart_eq_self (l : Lexer) (h1 : l.startLine = l.line)
    (h2 : l.startColumn = l.column) : markStart l = l := by
  obtain ⟨r, ln, cl, sl, sc, ch⟩ := l
  simp only at h1 h2
  subst h1 h2
  rfl

/-- C13. Idempotent EOF. From any scanner state, once a call of `NextToken` has
returned a token of kind EOF, its literal is empty, the next call returns the
same token (so EOF, the empty literal, the same line and column) and leaves the
scanner state as it was, and so does every call after it. -/
theorem NextToken_EOF_idempotent (T : UnicodeTables) (intSize : Nat) (l : Lexer)
    (h : (NextToken T intSize l).1.Typ = .EOF) :
    (NextToken T intSize l).1.Literal = "" ∧
    NextToken T intSize (NextToken T intSize l).2 = NextToken T intSize l ∧
    ∀ n : Nat,
      tokens T intSize n (NextToken T intSize l).2 = List.replicate n (NextToken T intSize l).1 ∧
      run T intSize n (NextToken T intSize l).2 = (NextToken T intSize l).2 := by
  obtain ⟨h1, h2, h3, h4⟩ := NextToken_atEnd T intSize l h
  have hfix : NextToken T intSize (NextToken T intSize l).2 = NextToken T intSize l := by
    rw [NextToken_at_NUL T intSize _ h1, markStart_eq_self _ h2 h3]
    exact Prod.ext h4.symm rfl
  refine ⟨by rw [h4], hfix, ?_⟩
  intro n
  induction n with
  | zero => exact ⟨rfl, rfl⟩
  | succ n ih =>
    simp only [tokens, run, hfix, List.replicate_succ]
    exact ⟨by rw [ih.1], ih.2⟩

theorem NextToken_EOF_idempotent_witness :
    (NextToken latin1Tables 64 (NewLexer "  ".toList)).1.Literal = "" ∧
    NextToken latin1Tables 64 (NextToken latin1Tables 64 (NewLexer "  ".toList)).2 =
      NextToken latin1Tables 64 (NewLexer "  ".toList) ∧
    ∀ n : Nat,
      tokens latin1Tables 64 n (NextToken latin1Tables 64 (NewLexer "  ".toList)).2 =
        List.replicate n (NextToken latin1Tables 64 (NewLexer "  ".toList)).1 ∧
      run latin1Tables 64 n (NextToken latin1Tables 64 (NewLexer "  ".toList)).2 =
        (NextToken latin1Tables 64 (NewLexer "  ".toList)).2 :=
  NextToken_EOF_idempotent latin1Tables 64 (NewLexer "  ".toList) (by decide)

/-! ## Progress -/

theorem unread_readChar_le_reader (l : Lexer) : unread (readChar l) ≤ l.reader.length := by
  cases hr : l.reader with
  | nil => simp [unread, readChar, hr]
  | cons c r =>
    obtain ⟨h1, h2⟩ := readChar_char_cons l c r hr
    simp only [unread, h1, h2, List.length_cons]
    split_ifs <;> omega

theorem unread_readChar_le (l : Lexer) : unread (readChar l) ≤ unread l := by
  have := unread_readChar_le_reader l
  simp only [unread] at *
  omega

theorem unread_readChar_lt (l : Lexer) (h : l.char ≠ NUL) : unread (readChar l) < unread l := by
  have := unread_readChar_le_reader l
  simp only [unread, h, if_false] at *
  omega

theorem unread_closed (k : Nat) : ∀ l : Lexer, unread l ≤ k → unread (readChar l) ≤ k :=
  fun l h => le_trans (unread_readChar_le l) h

theorem unread_markStart (l : Lexer) : unread (markStart l) = unread l := rfl

theorem unread_scanWhile_le (p : Char → Bool) (n : Nat) (sb : List Char) (l : Lexer) :
    unread (scanWhile p n sb l).2 ≤ unread l :=
  closed_scanWhile (fun x => unread x ≤ unread l) (unread_closed _) p n sb l le_rfl

theorem unread_scanWhile_lt (p : Char → Bool) (hp : p NUL = false) (n : Nat) (sb : List Char)
    (l : Lexer) (h : p l.char = true) : unread (scanWhile p (n + 1) sb l).2 < unread l := by
  have hne : l.char ≠ NUL := by
    intro hh
    rw [hh, hp] at h
    exact Bool.noConfusion h
  simp only [scanWhile, h, if_true]
  exact lt_of_le_of_lt (unread_scanWhile_le p n _ _) (unread_readChar_lt l hne)

theorem unread_skipBlockComment_le (n : Nat) (l : Lexer) :
    unread (skipBlockComment n l).2 ≤ unread l :=
  closed_skipBlockComment (fun x => unread x ≤ unread l) (unread_closed _) n l le_rfl

theorem unread_readString_le (l : Lexer) : unread (readString l).2 ≤ unread (readChar l) := by
  have h1 := closed_readStringLoop (fun x => unread x ≤ unread (readChar l)) (unread_closed _)
    ((readChar l).reader.length + 2) [] (readChar l) le_rfl
  simp only [readString]
  generalize readStringLoop ((readChar l).reader.length + 2) [] (readChar l) = x at h1
  obtain ⟨x1, x2⟩ := x
  cases x1 with
  | error e => exact h1
  | ok sb =>
    have r3 := le_trans (unread_readChar_le x2) h1
    simp only
    split_ifs <;> exact r3

/-- The switch consumes at least one rune unless it returns EOF, when the calls
after a comment never give runes back. -/
theorem NextTokenSwitch_progress (T : UnicodeTables) (intSize : Nat)
    (again : Lexer → Token × Lexer) (l : Lexer)
    (hag : ∀ l2 : Lexer, unread (again l2).2 ≤ unread l2) :
    (NextTokenSwitch T intSize again l).1.Typ ≠ .EOF →
      unread (NextTokenSwitch T intSize again l).2 < unread l := by
  have hdiv : ('/' : Char) ≠ NUL := by decide
  have hquote : ('"' : Char) ≠ NUL := by decide
  refine NextTokenSwitch_cases T intSize again l
    (fun res => res.1.Typ ≠ .EOF → unread res.2 < unread l) ?_ ?_ ?_ ?_ ?_ ?_ ?_ ?_ ?_ ?_ ?_ ?_
  · intro _ h
    exact absurd rfl h
  · intro e he hc _
    exact unread_readChar_lt l (by rw [hc]; exact (singleTokens_kind e he).2.2.2.1)
  · intro e he hc _ _
    exact lt_of_le_of_lt (unread_readChar_le _)
      (unread_readChar_lt l (by rw [hc]; exact (doubleTokens_kind e he).2.2.2.1))
  · intro q5 _ _
    exact lt_of_le_of_lt (hag _)
      (unread_scanWhile_lt _ (by decide) (l.reader.length + 1) [] l (by rw [q5]; decide))
  · intro q5 _ _ _
    exact lt_of_le_of_lt (le_trans (unread_skipBlockComment_le _ _) (unread_readChar_le _))
      (unread_readChar_lt l (by rw [q5]; exact hdiv))
  · intro q5 _ _ _
    exact lt_of_le_of_lt
      (le_trans (hag _) (le_trans (unread_skipBlockComment_le _ _) (unread_readChar_le _)))
      (unread_readChar_lt l (by rw [q5]; exact hdiv))
  · intro q4 _ _ _
    exact lt_of_le_of_lt (unread_readString_le l) (unread_readChar_lt l (by rw [q4]; exact hquote))
  · intro q4 _ _ _
    exact lt_of_le_of_lt (unread_readString_le l) (unread_readChar_lt l (by rw [q4]; exact hquote))
  · intro d1 _ _
    exact unread_scanWhile_lt (IsDigit T) (IsDigit_NUL T) (l.reader.length + 1) [] l d1
  · intro d1 _ _
    exact unread_scanWhile_lt (IsDigit T) (IsDigit_NUL T) (l.reader.length + 1) [] l d1
  · intro d2 _ _
    exact unread_scanWhile_lt (isIdentifierPart T) (isIdentifierPart_NUL T)
      (l.reader.length + 1) [] l (by simp [isIdentifierPart, d2])
  · intro hn _ _ _ _ _
    exact unread_readChar_lt l hn

theorem unread_NextTokenAux_le (T : UnicodeTables) (intSize : Nat) (n : Nat) (l : Lexer) :
    unread (NextTokenAux T intSize n l).2 ≤ unread l :=
  closed_NextTokenAux T intSize (fun x => unread x ≤ unread l) (unread_closed _)
    (fun _ h => h) n l le_rfl

theorem unread_skipWhiteSpace_le (T : UnicodeTables) (l : Lexer) :
    unread (skipWhiteSpace T l) ≤ unread l :=
  unread_scanWhile_le (IsSpace T) _ _ l

theorem NextTokenAux_progress (T : UnicodeTables) (intSize : Nat) (n : Nat) (l : Lexer)
    (h : (NextTokenAux T intSize n l).1.Typ ≠ .EOF) :
    unread (NextTokenAux T intSize n l).2 < unread (skipWhiteSpace T l) := by
  cases n with
  | zero => exact absurd rfl h
  | succ n =>
    simp only [NextTokenAux] at h ⊢
    exact NextTokenSwitch_progress T intSize _ _ (unread_NextTokenAux_le T intSize n) h

theorem unread_NextToken_le (T : UnicodeTables) (intSize : Nat) (l : Lexer) :
    unread (NextToken T intSize l).2 ≤ unread (skipWhiteSpace T l) := by
  simp only [NextToken, NextTokenAux]
  exact closed_NextTokenSwitch T intSize (fun x => unread x ≤ unread (skipWhiteSpace T l))
    (unread_closed _) _ (fun l2 h => le_trans (unread_NextTokenAux_le T intSize _ l2) h) _ le_rfl

theorem nonEOF_iff (t : Token) : nonEOF t = true ↔ t.Typ ≠ .EOF := by
  simp [nonEOF]

/-- The tokens that are not EOF among the first `m` are at most as many as the
runes that are unread once white space is skipped. -/
theorem count_tokens_le (T : UnicodeTables) (intSize : Nat) :
    ∀ (m : Nat) (l : Lexer),
      (tokens T intSize m l).countP nonEOF ≤ unread (skipWhiteSpace T l) := by
  intro m
  induction m with
  | zero => intro l; simp [tokens]
  | succ m ih =>
    intro l
    have h1 := ih (NextToken T intSize l).2
    have h2 := unread_skipWhiteSpace_le T (NextToken T intSize l).2
    have h3 := unread_NextToken_le T intSize l
    simp only [tokens]
    by_cases ht : (NextToken T intSize l).1.Typ = .EOF
    · rw [List.countP_cons_of_neg _ _ (by rw [nonEOF_iff]; exact not_not.mpr ht)]
      omega
    · have h4 := NextTokenAux_progress T intSize _ l ht
      rw [List.countP_cons_of_pos _ _ ((nonEOF_iff _).mpr ht)]
      simp only [NextToken] at h1 h2 ⊢
      omega

theorem unread_skipWhiteSpace_NewLexer (T : UnicodeTables) (input : List Char) :
    unread (skipWhiteSpace T (NewLexer input)) ≤ input.length := by
  rw [skipWhiteSpace_NewLexer]
  exact le_trans (unread_skipWhiteSpace_le T _) (unread_readChar_le_reader (NewLexer input))

/-- C15. Progress and finiteness. Every call of `NextToken` that returns a token
other than EOF, an ERROR token too, consumes at least one of the runes that are
unread once white space is skipped; so on an input of `n` runes at most `n` of
the tokens returned are not EOF, whatever the number of calls, and EOF is
returned within `n + 1` calls. -/
theorem NextToken_progress (T : UnicodeTables) (intSize : Nat) :
    (∀ l : Lexer, (NextToken T intSize l).1.Typ ≠ .EOF →
      unread (NextToken T intSize l).2 < unread (skipWhiteSpace T l)) ∧
    (∀ input : List Char, unread (skipWhiteSpace T (NewLexer input)) ≤ input.length) ∧
    (∀ (input : List Char) (m : Nat),
      (tokens T intSize m (NewLexer input)).countP nonEOF ≤ input.length) ∧
    (∀ input : List Char,
      ∃ t ∈ tokens T intSize (input.length + 1) (NewLexer input), t.Typ = .EOF) := by
  have hcount : ∀ (input : List Char) (m : Nat),
      (tokens T intSize m (NewLexer input)).countP nonEOF ≤ input.length :=
    fun input m => le_trans (count_tokens_le T intSize m (NewLexer input))
      (unread_skipWhiteSpace_NewLexer T input)
  have hlen : ∀ (m : Nat) (l : Lexer), (tokens T intSize m l).length = m := by
    intro m
    induction m with
    | zero => intro l; rfl
    | succ m ih => intro l; simp [tokens, ih]
  refine ⟨fun l h => NextTokenAux_progress T intSize _ l h,
    unread_skipWhiteSpace_NewLexer T, hcount, ?_⟩
  intro input
  by_contra hno
  have hall : ∀ t ∈ tokens T intSize (input.length + 1) (NewLexer input), nonEOF t = true := by
    intro t ht
    rw [nonEOF_iff]
    intro h
    exact hno ⟨t, ht, h⟩
  have h1 := hcount input (input.length + 1)
  rw [List.countP_eq_length.mpr hall, hlen] at h1
  omega

/-! ## The position of the EOF token -/

theorem NulFree_readChar (l : Lexer) (h : NulFree l) : NulFree (readChar l) := by
  obtain ⟨h1, h2⟩ := h
  cases hr : l.reader with
  | nil =>
    rw [readChar_nil l hr]
    exact ⟨by simp [hr], fun _ => hr⟩
  | cons c r =>
    obtain ⟨e1, e2⟩ := readChar_char_cons l c r hr
    rw [hr] at h1
    refine ⟨by rw [e2]; exact fun hh => h1 (List.mem_cons_of_mem _ hh), ?_⟩
    intro hc
    rw [e1] at hc
    exact absurd (by rw [hc]; exact List.mem_cons_self _ _) h1

theorem Tracks_NulFree_readChar (input : List Char) (l : Lexer)
    (h : Tracks input l ∧ NulFree l) : Tracks input (readChar l) ∧ NulFree (readChar l) :=
  ⟨Tracks_readChar input l h.1, NulFree_readChar l h.2⟩

theorem Tracks_NulFree_end (input : List Char) (l : Lexer) (h : Tracks input l ∧ NulFree l)
    (hc : l.char = NUL) : l.line = lineOf input ∧ l.column = columnOf input := by
  obtain ⟨⟨pre, h1, h2, h3, _⟩, _, h5⟩ := h
  rw [h5 hc, List.append_nil] at h1
  subst h1
  exact ⟨h2, h3⟩

theorem NextTokenAux_EOF_position (T : UnicodeTables) (intSize : Nat) (input : List Char)
    (n : Nat) (l : Lexer) (h : Tracks input l ∧ NulFree l) (hn : l.reader.length + 1 ≤ n) :
    (Tracks input (NextTokenAux T intSize n l).2 ∧ NulFree (NextTokenAux T intSize n l).2) ∧
    ((NextTokenAux T intSize n l).1.Typ = .EOF →
      (NextTokenAux T intSize n l).1.Line = lineOf input ∧
      (NextTokenAux T intSize n l).1.Column = columnOf input) := by
  have h1 := closed_NextTokenAux T intSize (fun x => Tracks input x ∧ NulFree x)
    (Tracks_NulFree_readChar input) (fun _ hh => hh) n l h
  refine ⟨h1, ?_⟩
  intro hE
  obtain ⟨e1, _, _, e4⟩ := NextTokenAux_atEnd T intSize n l hn hE
  obtain ⟨e5, e6⟩ := Tracks_NulFree_end input _ h1 e1
  rw [e4]
  exact ⟨e5, e6⟩

theorem tokens_EOF_position (T : UnicodeTables) (intSize : Nat) (input : List Char) :
    ∀ (m : Nat) (l : Lexer), Tracks input l ∧ NulFree l →
      ∀ t ∈ tokens T intSize m l, t.Typ = .EOF →
        t.Line = lineOf input ∧ t.Column = columnOf input := by
  intro m
  induction m with
  | zero => intro l _ t ht; simp [tokens] at ht
  | succ m ih =>
    intro l h t ht hE
    obtain ⟨h1, h2⟩ := NextTokenAux_EOF_position T intSize input (l.reader.length + 1) l h le_rfl
    simp only [tokens, List.mem_cons] at ht
    rcases ht with rfl | ht
    · exact h2 hE
    · exact ih _ h1 t ht hE

/-- On an input without NUL every EOF token that `NextToken` returns is at the
final counters: the line and the column after the whole input. -/
theorem EOF_token_at_counters (T : UnicodeTables) (intSize : Nat) (input : List Char)
    (hnul : NUL ∉ input) (n : Nat) (t : Token) (ht : t ∈ tokens T intSize n (NewLexer input))
    (hE : t.Typ = .EOF) : t.Line = lineOf input ∧ t.Column = columnOf input := by
  cases n with
  | zero => simp [tokens] at ht
  | succ n =>
    have h0 : Tracks input (readChar (NewLexer input)) ∧ NulFree (readChar (NewLexer input)) :=
      ⟨Tracks_readChar_of input (NewLexer input) [] rfl rfl rfl,
       NulFree_readChar _ ⟨hnul, fun hh => absurd hh (by decide : ¬ (' ' : Char) = NUL)⟩⟩
    have hle := readChar_reader_length_le (NewLexer input)
    have hlen : (NewLexer input).reader.length = input.length := rfl
    obtain ⟨h1, h2⟩ := NextTokenAux_EOF_position T intSize input (input.length + 1) _ h0
      (by omega)
    simp only [tokens, List.mem_cons, NextToken_NewLexer_eq] at ht
    rcases ht with rfl | ht
    · exact h2 hE
    · exact tokens_EOF_position T intSize input n _ h1 t ht hE

theorem columnOf_of_no_newline (s : List Char) (h : '\n' ∉ s) : columnOf s = s.length := by
  unfold columnOf
  rw [List.takeWhile_eq_self_iff.mpr, List.length_reverse]
  intro c hc
  rw [List.mem_reverse] at hc
  simp only [bne_iff_ne, ne_eq]
  rintro rfl
  exact h hc

/-- C18. The EOF token is at the final counters. On every input without NUL the
line of an EOF token is 1 plus the number of newlines of the input and its
column is the number of runes after the last newline: the length of the input
when it has no newline, 0 when the input is empty or ends in a newline, and,
when the input ends in a rune that is no newline, the column of that rune, so
that a token made of that last rune and the EOF token have the same line and
column. -/
theorem EOF_position_final_counters (T : UnicodeTables) (intSize : Nat) (input : List Char)
    (hnul : NUL ∉ input) (n : Nat) (t : Token) (ht : t ∈ tokens T intSize n (NewLexer input))
    (hE : t.Typ = .EOF) :
    t.Line = 1 + input.count '\n' ∧ t.Column = columnOf input ∧
    ('\n' ∉ input → t.Column = input.length) ∧
    (input = [] → t.Column = 0) ∧
    (∀ pre, input = pre ++ ['\n'] → t.Column = 0) ∧
    (∀ pre c, input = pre ++ [c] → c ≠ '\n' →
      ∀ u : Token, u.Line = lineOf pre → u.Column = columnOf pre + 1 →
        t.Line = u.Line ∧ t.Column = u.Column) := by
  obtain ⟨h1, h2⟩ := EOF_token_at_counters T intSize input hnul n t ht hE
  refine ⟨h1, h2, ?_, ?_, ?_, ?_⟩
  · intro h
    rw [h2, columnOf_of_no_newline input h]
  · intro h
    rw [h2, h]
    rfl
  · intro pre h
    rw [h2, h, columnOf_append_newline]
  · intro pre c h hc u hu1 hu2
    rw [h1, h2, hu1, hu2, h, lineOf_append pre c hc, columnOf_append pre c hc]
    exact ⟨rfl, rfl⟩

/-- C17, as amended. For every non-empty input without NUL that does not end in
a newline, whose last rune is at line `L` and column `C` (1 plus the newlines
before it, and its 1-based index within its line), the EOF token returned by
`NextToken` is at line `L` and column `C`, the position of that last rune. -/
theorem EOF_position_last_rune (T : UnicodeTables) (intSize : Nat) (pre : List Char) (c : Char)
    (hnul : NUL ∉ pre ++ [c]) (hc : c ≠ '\n') (n : Nat) (t : Token)
    (ht : t ∈ tokens T intSize n (NewLexer (pre ++ [c]))) (hE : t.Typ = .EOF) :
    t.Line = lineOf pre ∧ t.Column = columnOf pre + 1 := by
  obtain ⟨h1, h2⟩ := EOF_token_at_counters T intSize (pre ++ [c]) hnul n t ht hE
  rw [h1, h2, lineOf_append pre c hc, columnOf_append pre c hc]
  exact ⟨rfl, rfl⟩

theorem EOF_position_last_rune_witness :
    ({ Typ := .EOF, Literal := "", Line := 2, Column := 2 } : Token).Line =
      lineOf "ab\nc".toList ∧
    ({ Typ := .EOF, Literal := "", Line := 2, Column := 2 } : Token).Column =
      columnOf "ab\nc".toList + 1 :=
  EOF_position_last_rune latin1Tables 64 "ab\nc".toList 'd' (by decide) (by decide) 3
    { Typ := .EOF, Literal := "", Line := 2, Column := 2 } (by decide) rfl

/-- C17 fails as stated. On the input `}` the last rune is at line 1, column 1,
and the EOF token is at line 1, column 1, not column 2. On the input `a` NUL
`b` the last rune is at line 1, column 3, and the EOF token is at line 1,
column 2, where the NUL was read. -/
theorem EOF_position_not_after_last_rune :
    tokens latin1Tables 64 2 (NewLexer ['\x7d']) =
      [{ Typ := .RBRACE, Literal := "\x7d", Line := 1, Column := 1 },
       { Typ := .EOF, Literal := "", Line := 1, Column := 1 }] ∧
    lineOf [] = 1 ∧ columnOf [] + 1 = 1 ∧
    tokens latin1Tables 64 2 (NewLexer ['a', NUL, 'b']) =
      [{ Typ := .OBJECTID, Literal := "a", Line := 1, Column := 1 },
       { Typ := .EOF, Literal := "", Line := 1, Column := 2 }] ∧
    lineOf ['a', NUL] = 1 ∧ columnOf ['a', NUL] + 1 = 3 := by
  decide

theorem EOF_position_final_counters_witness :
    ({ Typ := .EOF, Literal := "", Line := 3, Column := 5 } : Token).Line =
      1 + "class Main \x7b\n        x : Int;\n    \x7d".toList.count '\n' ∧
    ({ Typ := .EOF, Literal := "", Line := 3, Column := 5 } : Token).Column =
      columnOf "class Main \x7b\n        x : Int;\n    \x7d".toList :=
  ⟨(EOF_position_final_counters latin1Tables 64
      "class Main \x7b\n        x : Int;\n    \x7d".toList (by decide) 9
      { Typ := .EOF, Literal := "", Line := 3, Column := 5 } (by decide) rfl).1,
   (EOF_position_final_counters latin1Tables 64
      "class Main \x7b\n        x : Int;\n    \x7d".toList (by decide) 9
      { Typ := .EOF, Literal := "", Line := 3, Column := 5 } (by decide) rfl).2.1⟩

/-! ## Comments -/

theorem skipWhiteSpace_step (T : UnicodeTables) (l : Lexer) (h : IsSpace T l.char = true) :
    skipWhiteSpace T l = skipWhiteSpace T (readChar l) := by
  rw [skipWhiteSpace_eq, skipWhiteSpace_eq]
  have h1 : pending l = l.char :: l.reader := rfl
  have h2 : (pending (readChar l)).takeWhile (IsSpace T) = l.reader.takeWhile (IsSpace T) := by
    cases hr : l.reader with
    | nil =>
      have : pending (readChar l) = [NUL] := by
        simp [pending, readChar_nil l hr, hr]
      rw [this]
      simp [List.takeWhile, IsSpace_NUL]
    | cons c r => rw [pending_readChar _ (by rw [hr]; simp), hr]
  rw [h1, h2, List.takeWhile_cons_of_pos h, List.length_cons, Function.iterate_succ_apply]

theorem NextTokenAux_space (T : UnicodeTables) (intSize : Nat) (l : Lexer)
    (h : IsSpace T l.char = true) (k : Nat) :
    NextTokenAux T intSize (k + 1) l = NextTokenAux T intSize (k + 1) (readChar l) := by
  simp only [NextTokenAux, skipWhiteSpace_step T l h]

/-- A call on a scanner positioned at `rest` returns what the first call of a
fresh scanner on `rest` returns, up to the position counters. -/
theorem NextTokenAux_of_positionedAt (T : UnicodeTables) (intSize : Nat) (rest : List Char)
    (l : Lexer) (h : positionedAt l rest) (k : Nat) (hk : l.reader.length + 1 ≤ k) :
    kindLiteral (NextTokenAux T intSize k l).1 =
      kindLiteral (NextToken T intSize (NewLexer rest)).1 ∧
    sameInput (NextTokenAux T intSize k l).2 (NextToken T intSize (NewLexer rest)).2 := by
  have hpos := readChar_positionedAt (NewLexer rest) rest rfl
  have hsame : sameInput l (readChar (NewLexer rest)) :=
    ⟨by rw [hpos.1, h.1], by rw [hpos.2, h.2]⟩
  have hle := readChar_reader_length_le (NewLexer rest)
  have hlen : (NewLexer rest).reader.length = rest.length := rfl
  rw [NextToken_NewLexer_eq]
  exact NextTokenAux_congr T intSize k (rest.length + 1) l _ hsame hk
    (by rw [hsame.2]; omega)

/-- When the first call on a fresh scanner amounts, after a comment, to a call
on a scanner positioned at `rest`, the input is lexed as `rest` alone is. -/
theorem tokens_after_comment (T : UnicodeTables) (intSize : Nat) (input rest : List Char)
    (l : Lexer) (k : Nat) (hfirst : NextToken T intSize (NewLexer input) =
      NextTokenAux T intSize k l)
    (hpos : positionedAt l rest) (hk : l.reader.length + 1 ≤ k) (n : Nat) :
    (tokens T intSize n (NewLexer input)).map kindLiteral =
      (tokens T intSize n (NewLexer rest)).map kindLiteral := by
  obtain ⟨h1, h2⟩ := NextTokenAux_of_positionedAt T intSize rest l hpos k hk
  cases n with
  | zero => rfl
  | succ n =>
    simp only [tokens, List.map_cons, hfirst]
    rw [h1, tokens_congr T intSize n _ _ h2]

theorem NextTokenSwitch_line_comment (T : UnicodeTables) (intSize : Nat)
    (again : Lexer → Token × Lexer) (l : Lexer) (h1 : l.char = '/') (h2 : peekChar l = '/') :
    NextTokenSwitch T intSize again l =
      again (scanWhile (fun c => c != '\n' && c != NUL) (l.reader.length + 2) [] l).2 := by
  simp only [NextTokenSwitch, h1, h2]
  simp only [NUL, Char.reduceEq, if_true, if_false]

theorem NextTokenSwitch_block_comment (T : UnicodeTables) (intSize : Nat)
    (again : Lexer → Token × Lexer) (l : Lexer) (h1 : l.char = '/') (h2 : peekChar l = '*') :
    NextTokenSwitch T intSize again l =
      match skipBlockComment (l.reader.length + 2) (readChar (readChar l)) with
      | (false, l2) =>
        ({ Typ := .ERROR, Literal := "EOF in comment", Line := l2.line, Column := l2.column }, l2)
      | (true, l2) => again l2 := by
  simp only [NextTokenSwitch, h1, h2]
  simp only [NUL, Char.reduceEq, if_true, if_false]

theorem hasCommentEnd_cons (c : Char) (b : List Char) (h : hasCommentEnd (c :: b) = false) :
    ¬ (c = '*' ∧ b.head? = some '/') ∧ hasCommentEnd b = false := by
  simp only [hasCommentEnd, Bool.or_eq_false_iff, Bool.and_eq_false_iff, beq_eq_false_iff_ne,
    ne_eq] at h
  refine ⟨?_, h.2⟩
  rintro ⟨h1, h2⟩
  rcases h.1 with h3 | h3
  · exact h3 h1
  · exact h3 h2

/-- The block-comment loop over a body without NUL and without `*/`, followed by
`*/`: it ends right after the closing `*/`. -/
theorem skipBlockComment_closed (rest : List Char) :
    ∀ (body : List Char) (n : Nat) (l : Lexer),
      positionedAt l (body ++ '*' :: '/' :: rest) → NUL ∉ body → hasCommentEnd body = false →
      body.length + 1 ≤ n →
      (skipBlockComment n l).1 = true ∧ positionedAt (skipBlockComment n l).2 rest := by
  intro body
  induction body with
  | nil =>
    intro n l hpos _ _ hn
    obtain ⟨n, rfl⟩ : ∃ n2, n = n2 + 1 := ⟨n - 1, by simp at hn; omega⟩
    obtain ⟨h1, h2⟩ := (positionedAt_cons l _ _).mp hpos
    have hpk : peekChar l = '/' := by simp [peekChar, h2]
    have hz : ¬ ('*' = NUL) := by decide
    simp only [skipBlockComment, h1, hpk, hz, if_false, and_self, if_true]
    exact ⟨trivial, positionedAt_readChar_readChar l '/' rest h2⟩
  | cons c b ih =>
    intro n l hpos hnul hend hn
    obtain ⟨n, rfl⟩ : ∃ n2, n = n2 + 1 := ⟨n - 1, by simp at hn; omega⟩
    obtain ⟨h1, h2⟩ := (positionedAt_cons l _ _).mp hpos
    obtain ⟨e1, e2⟩ := hasCommentEnd_cons c b hend
    have hc : ¬ l.char = NUL := by
      rw [h1]
      intro hh
      exact hnul (by rw [hh]; exact List.mem_cons_self _ _)
    have hstop : ¬ (l.char = '*' ∧ peekChar l = '/') := by
      rintro ⟨k1, k2⟩
      apply e1
      refine ⟨by rw [← h1]; exact k1, ?_⟩
      cases b with
      | nil =>
        have hp : peekChar l = '*' := by simp [peekChar, h2]
        rw [hp] at k2
        exact absurd k2 (by decide)
      | cons d b2 =>
        have hp : peekChar l = d := by simp [peekChar, h2]
        rw [hp] at k2
        simp [k2]
    simp only [skipBlockComment, hc, if_false, hstop]
    exact ih n (readChar l) (positionedAt_readChar_of l c _ hpos)
      (fun hh => hnul (List.mem_cons_of_mem _ hh)) e2 (by simp at hn; omega)

/-- The block-comment loop over a body without `*/` that runs to the end of the
input: it stops at the sentinel without having found the end of the comment. -/
theorem skipBlockComment_open :
    ∀ (body : List Char) (n : Nat) (l : Lexer),
      positionedAt l body → hasCommentEnd body = false → body.length + 1 ≤ n →
      (skipBlockComment n l).1 = false ∧ (skipBlockComment n l).2.char = NUL := by
  intro body
  induction body with
  | nil =>
    intro n l hpos _ hn
    obtain ⟨n, rfl⟩ : ∃ n2, n = n2 + 1 := ⟨n - 1, by simp at hn; omega⟩
    have h1 := ((positionedAt_nil l).mp hpos).1
    simp only [skipBlockComment, h1, if_true]
    exact ⟨trivial, trivial⟩
  | cons c b ih =>
    intro n l hpos hend hn
    obtain ⟨n, rfl⟩ : ∃ n2, n = n2 + 1 := ⟨n - 1, by simp at hn; omega⟩
    obtain ⟨h1, h2⟩ := (positionedAt_cons l _ _).mp hpos
    obtain ⟨e1, e2⟩ := hasCommentEnd_cons c b hend
    by_cases hc : l.char = NUL
    · simp only [skipBlockComment, hc, if_true]
      exact ⟨trivial, trivial⟩
    · have hstop : ¬ (l.char = '*' ∧ peekChar l = '/') := by
        rintro ⟨k1, k2⟩
        apply e1
        refine ⟨by rw [← h1]; exact k1, ?_⟩
        cases b with
        | nil =>
          have hp : peekChar l = NUL := by simp [peekChar, h2]
          rw [hp] at k2
          exact absurd k2 (by decide)
        | cons d b2 =>
          have hp : peekChar l = d := by simp [peekChar, h2]
          rw [hp] at k2
          simp [k2]
      simp only [skipBlockComment, hc, if_false, hstop]
      exact ih n (readChar l) (positionedAt_readChar_of l c _ hpos) e2 (by simp at hn; omega)

theorem NextTokenAux_succ (T : UnicodeTables) (intSize : Nat) (k : Nat) (l : Lexer) :
    NextTokenAux T intSize (k + 1) l =
      NextTokenSwitch T intSize (NextTokenAux T intSize k) (markStart (skipWhiteSpace T l)) :=
  rfl

/-- A call on a scanner that stands on a line comment amounts to a call on the
scanner positioned after the newline that ends the comment. -/
theorem NextTokenAux_line_comment (T : UnicodeTables) (intSize : Nat) (s rest : List Char)
    (hs : NUL ∉ s) (hnl : '\n' ∉ s) (k : Nat) (s0 : Lexer) (h1 : s0.char = '/')
    (h2 : s0.reader = '/' :: (s ++ '\n' :: rest)) :
    ∃ l, NextTokenAux T intSize (k + 2) s0 = NextTokenAux T intSize (k + 1) l ∧
      positionedAt l rest := by
  have hsp : skipWhiteSpace T s0 = s0 :=
    skipWhiteSpace_of_not_space T s0 (by rw [h1]; exact (IsSpace_punct T).2.2)
  have hpk : peekChar (markStart s0) = '/' := by simp [peekChar, markStart, h2]
  have hpend : pending (markStart s0) = ('/' :: '/' :: s) ++ '\n' :: rest := by
    simp [pending, markStart, h1, h2]
  have hall : ∀ x ∈ '/' :: '/' :: s, (fun c => c != '\n' && c != NUL) x = true := by
    intro x hx
    simp only [List.mem_cons] at hx
    rcases hx with rfl | rfl | hx
    · decide
    · decide
    · have e1 : x ≠ '\n' := fun hh => hnl (hh ▸ hx)
      have e2 : x ≠ NUL := fun hh => hs (hh ▸ hx)
      simp [e1, e2]
  have hrun := scanWhile_run (fun c => c != '\n' && c != NUL) (by decide) (markStart s0)
    ('/' :: '/' :: s) ('\n' :: rest) hpend hall
    (by intro x hx; simp only [List.head?_cons, Option.some.injEq] at hx; subst hx; decide)
  have hp1 : positionedAt (readChar^[('/' :: '/' :: s).length] (markStart s0)) ('\n' :: rest) :=
    positionedAt_iterate _ _ _ (by simp) hpend
  refine ⟨readChar (readChar^[('/' :: '/' :: s).length] (markStart s0)), ?_,
    positionedAt_readChar_of _ _ _ hp1⟩
  rw [NextTokenAux_succ, hsp, NextTokenSwitch_line_comment T intSize _ (markStart s0) h1 hpk, hrun]
  exact NextTokenAux_space T intSize _
    (by rw [((positionedAt_cons _ _ _).mp hp1).1]; simp [IsSpace, MaxLatin1]) _

/-- A call on a scanner that stands on a block comment amounts to a call on the
scanner positioned after the first `*/`. -/
theorem NextTokenAux_block_comment (T : UnicodeTables) (intSize : Nat) (body rest : List Char)
    (hb : NUL ∉ body) (he : hasCommentEnd body = false) (k : Nat) (s0 : Lexer)
    (h1 : s0.char = '/') (h2 : s0.reader = '*' :: (body ++ '*' :: '/' :: rest)) :
    ∃ l, NextTokenAux T intSize (k + 1) s0 = NextTokenAux T intSize k l ∧
      positionedAt l rest := by
  have hsp : skipWhiteSpace T s0 = s0 :=
    skipWhiteSpace_of_not_space T s0 (by rw [h1]; exact (IsSpace_punct T).2.2)
  have hpk : peekChar (markStart s0) = '*' := by simp [peekChar, markStart, h2]
  have hr : (markStart s0).reader = '*' :: (body ++ '*' :: '/' :: rest) := h2
  have hp1 := positionedAt_readChar_readChar (markStart s0) _ _ hr
  have key := skipBlockComment_closed rest body ((markStart s0).reader.length + 2)
    (readChar (readChar (markStart s0))) hp1 hb he
    (by rw [hr]; simp only [List.length_cons, List.length_append]; omega)
  refine ⟨(skipBlockComment ((markStart s0).reader.length + 2)
    (readChar (readChar (markStart s0)))).2, ?_, key.2⟩
  rw [NextTokenAux_succ, hsp, NextTokenSwitch_block_comment T intSize _ (markStart s0) h1 hpk]
  rcases hsk : skipBlockComment ((markStart s0).reader.length + 2)
    (readChar (readChar (markStart s0))) with ⟨b, l2⟩
  rw [hsk] at key
  obtain ⟨k1, _⟩ := key
  simp only at k1
  subst k1
  rfl

theorem line_comment_first (T : UnicodeTables) (intSize : Nat) (s rest : List Char)
    (hs : NUL ∉ s) (hnl : '\n' ∉ s) :
    ∃ l k, NextToken T intSize (NewLexer ('/' :: '/' :: (s ++ '\n' :: rest))) =
        NextTokenAux T intSize k l ∧ positionedAt l rest ∧ l.reader.length + 1 ≤ k := by
  have hpos := readChar_positionedAt (NewLexer ('/' :: '/' :: (s ++ '\n' :: rest))) _ rfl
  obtain ⟨h1, h2⟩ := (positionedAt_cons _ _ _).mp hpos
  have hlen : ('/' :: '/' :: (s ++ '\n' :: rest)).length + 1 = (s.length + rest.length + 2) + 2 := by
    simp only [List.length_cons, List.length_append]
    omega
  obtain ⟨l, e1, e2⟩ := NextTokenAux_line_comment T intSize s rest hs hnl
    (s.length + rest.length + 2) _ h1 h2
  refine ⟨l, (s.length + rest.length + 2) + 1, ?_, e2, ?_⟩
  · rw [NextToken_NewLexer_eq, hlen]
    exact e1
  · rw [e2.2]
    have := List.length_tail rest
    omega

theorem block_comment_first (T : UnicodeTables) (intSize : Nat) (body rest : List Char)
    (hb : NUL ∉ body) (he : hasCommentEnd body = false) :
    ∃ l k, NextToken T intSize (NewLexer ('/' :: '*' :: (body ++ '*' :: '/' :: rest))) =
        NextTokenAux T intSize k l ∧ positionedAt l rest ∧ l.reader.length + 1 ≤ k := by
  have hpos := readChar_positionedAt
    (NewLexer ('/' :: '*' :: (body ++ '*' :: '/' :: rest))) _ rfl
  obtain ⟨h1, h2⟩ := (positionedAt_cons _ _ _).mp hpos
  obtain ⟨l, e1, e2⟩ := NextTokenAux_block_comment T intSize body rest hb he
    ('/' :: '*' :: (body ++ '*' :: '/' :: rest)).length _ h1 h2
  refine ⟨l, ('/' :: '*' :: (body ++ '*' :: '/' :: rest)).length, ?_, e2, ?_⟩
  · rw [NextToken_NewLexer_eq]
    exact e1
  · rw [e2.2]
    have := List.length_tail rest
    simp only [List.length_cons, List.length_append]
    omega

/-- C11. A terminated comment yields no token. For a text `s` without NUL and
without newline, lexing `//` followed by `s`, a newline and `rest` returns the
kinds and literals that lexing `rest` alone returns; for a body without NUL that
does not contain `*/` (it may contain further `/*`), lexing `/*`, the body, `*/`
and `rest` returns the kinds and literals that lexing `rest` alone returns: the
comment ends at the first `*/`. -/
theorem comment_yields_no_token (T : UnicodeTables) (intSize : Nat) (s body rest : List Char)
    (hs : NUL ∉ s) (hnl : '\n' ∉ s) (hb : NUL ∉ body) (he : hasCommentEnd body = false)
    (n : Nat) :
    (tokens T intSize n (NewLexer ('/' :: '/' :: (s ++ '\n' :: rest)))).map kindLiteral =
      (tokens T intSize n (NewLexer rest)).map kindLiteral ∧
    (tokens T intSize n (NewLexer ('/' :: '*' :: (body ++ '*' :: '/' :: rest)))).map kindLiteral =
      (tokens T intSize n (NewLexer rest)).map kindLiteral := by
  obtain ⟨l1, k1, a1, a2, a3⟩ := line_comment_first T intSize s rest hs hnl
  obtain ⟨l2, k2, b1, b2, b3⟩ := block_comment_first T intSize body rest hb he
  exact ⟨tokens_after_comment T intSize _ rest l1 k1 a1 a2 a3 n,
    tokens_after_comment T intSize _ rest l2 k2 b1 b2 b3 n⟩

theorem comment_yields_no_token_witness :
    NUL ∉ " a comment".data ∧ '\n' ∉ " a comment".data ∧ NUL ∉ " a /* b * / ".data ∧
    hasCommentEnd " a /* b * / ".data = false ∧
    (tokens latin1Tables 64 3
        (NewLexer ('/' :: '/' :: (" a comment".data ++ '\n' :: "x+".data)))).map kindLiteral =
      (tokens latin1Tables 64 3 (NewLexer "x+".data)).map kindLiteral ∧
    (tokens latin1Tables 64 3
        (NewLexer ('/' :: '*' :: (" a /* b * / ".data ++ '*' :: '/' :: "x+".data)))).map
        kindLiteral =
      (tokens latin1Tables 64 3 (NewLexer "x+".data)).map kindLiteral :=
  ⟨by decide, by decide, by decide, by decide,
    comment_yields_no_token latin1Tables 64 " a comment".data " a /* b * / ".data "x+".data
      (by decide) (by decide) (by decide) (by decide) 3⟩

theorem tokens_at_NUL (T : UnicodeTables) (intSize : Nat) :
    ∀ (n : Nat) (l : Lexer), l.char = NUL → ∀ t ∈ tokens T intSize n l,
      t = { Typ := .EOF, Literal := "", Line := l.line, Column := l.column } := by
  intro n
  induction n with
  | zero => intro l _ t ht; simp [tokens] at ht
  | succ n ih =>
    intro l h t ht
    simp only [tokens, NextToken_at_NUL T intSize l h, List.mem_cons] at ht
    rcases ht with rfl | ht
    · rfl
    · exact ih (markStart l) h t ht

theorem lineOf_one (pre : List Char) (h : lineOf pre = 1) : columnOf pre = pre.length := by
  apply columnOf_of_no_newline
  intro hm
  have := List.count_pos_iff.mpr hm
  unfold lineOf at h
  omega

/-- C12. Unterminated block comment. For a body that does not contain `*/`,
`NextToken` on `/*` followed by the body returns an ERROR token with literal
"EOF in comment" whose line and column are the counters of the scanner where it
stopped, at the end of the input (when the body has no NUL, the line and the
column after the whole input); this is not the position 1, 1 of the opening
`/*`; and every later call returns EOF. -/
theorem NextToken_unterminated_comment (T : UnicodeTables) (intSize : Nat) (body : List Char)
    (h : hasCommentEnd body = false) :
    (NextToken T intSize (NewLexer ('/' :: '*' :: body))).1 =
      { Typ := .ERROR, Literal := "EOF in comment",
        Line := (NextToken T intSize (NewLexer ('/' :: '*' :: body))).2.line,
        Column := (NextToken T intSize (NewLexer ('/' :: '*' :: body))).2.column } ∧
    (NextToken T intSize (NewLexer ('/' :: '*' :: body))).2.char = NUL ∧
    ((NextToken T intSize (NewLexer ('/' :: '*' :: body))).1.Line = 1 →
      2 ≤ (NextToken T intSize (NewLexer ('/' :: '*' :: body))).1.Column) ∧
    (NUL ∉ body →
      (NextToken T intSize (NewLexer ('/' :: '*' :: body))).2.reader = [] ∧
      (NextToken T intSize (NewLexer ('/' :: '*' :: body))).1.Line =
        lineOf ('/' :: '*' :: body) ∧
      (NextToken T intSize (NewLexer ('/' :: '*' :: body))).1.Column =
        columnOf ('/' :: '*' :: body)) ∧
    ∀ n : Nat, ∀ t ∈ tokens T intSize n (NextToken T intSize (NewLexer ('/' :: '*' :: body))).2,
      t.Typ = .EOF ∧ t.Literal = "" := by
  have hpos := readChar_positionedAt (NewLexer ('/' :: '*' :: body)) _ rfl
  obtain ⟨h1, h2⟩ := (positionedAt_cons _ _ _).mp hpos
  have htr : Tracks ('/' :: '*' :: body) (readChar (NewLexer ('/' :: '*' :: body))) :=
    Tracks_readChar_of _ (NewLexer ('/' :: '*' :: body)) [] rfl rfl rfl
  have hnf : NUL ∉ body → NulFree (readChar (NewLexer ('/' :: '*' :: body))) := fun hb =>
    NulFree_readChar _ ⟨by
      intro hm
      simp only [NewLexer, List.mem_cons] at hm
      rcases hm with hm | hm | hm
      · exact absurd hm (by decide)
      · exact absurd hm (by decide)
      · exact hb hm, fun hh => absurd hh (by decide : ¬ (' ' : Char) = NUL)⟩
  rw [NextToken_NewLexer_eq]
  generalize readChar (NewLexer ('/' :: '*' :: body)) = s0 at h1 h2 htr hnf
  have hsp : skipWhiteSpace T s0 = s0 :=
    skipWhiteSpace_of_not_space T s0 (by rw [h1]; exact (IsSpace_punct T).2.2)
  have hpk : peekChar (markStart s0) = '*' := by simp [peekChar, markStart, h2]
  have hr : (markStart s0).reader = '*' :: body := h2
  have hp1 := positionedAt_readChar_readChar (markStart s0) _ _ hr
  have key := skipBlockComment_open body ((markStart s0).reader.length + 2)
    (readChar (readChar (markStart s0))) hp1 h
    (by rw [hr]; simp only [List.length_cons]; omega)
  have inv1 := closed_skipBlockComment
    (fun x => Tracks ('/' :: '*' :: body) x ∧ x.reader.length ≤ body.length)
    (fun x hx => ⟨Tracks_readChar _ x hx.1, le_trans (readChar_reader_length_le x) hx.2⟩)
    ((markStart s0).reader.length + 2) (readChar (readChar (markStart s0)))
    ⟨Tracks_readChar _ _ (Tracks_readChar _ _ (Tracks_markStart _ _ htr)), by
      rw [hp1.2]
      have := List.length_tail body
      omega⟩
  have inv2 : NUL ∉ body → NulFree (skipBlockComment ((markStart s0).reader.length + 2)
      (readChar (readChar (markStart s0)))).2 := fun hb =>
    closed_skipBlockComment NulFree NulFree_readChar _ _
      (NulFree_readChar _ (NulFree_readChar (markStart s0) (hnf hb)))
  rw [NextTokenAux_succ, hsp, NextTokenSwitch_block_comment T intSize _ (markStart s0) h1 hpk]
  generalize skipBlockComment ((markStart s0).reader.length + 2)
    (readChar (readChar (markStart s0))) = r at key inv1 inv2
  obtain ⟨b, l2⟩ := r
  obtain ⟨k1, k2⟩ := key
  simp only at k1 k2 inv1 inv2
  subst k1
  simp only []
  obtain ⟨⟨pre, t1, t2, t3, t4⟩, hlen⟩ := inv1
  refine ⟨trivial, k2, ?_, ?_, ?_⟩
  · intro hl
    rw [t3, lineOf_one pre (by rw [← t2]; exact hl)]
    have := congrArg List.length t1
    simp only [List.length_append, List.length_cons] at this
    omega
  · intro hb
    have hN := inv2 hb
    obtain ⟨e1, e2⟩ := Tracks_NulFree_end _ l2 ⟨⟨pre, t1, t2, t3, t4⟩, hN⟩ k2
    exact ⟨hN.2 k2, e1, e2⟩
  · intro n t ht
    rw [tokens_at_NUL T intSize n l2 k2 t ht]
    exact ⟨rfl, rfl⟩

theorem NextToken_unterminated_comment_witness :
    hasCommentEnd " a\n /* b".data = false ∧
    (tokens latin1Tables 64 3 (NewLexer "/* a\n /* b".data)) =
      [{ Typ := .ERROR, Literal := "EOF in comment", Line := 2, Column := 5 },
       { Typ := .EOF, Literal := "", Line := 2, Column := 5 },
       { Typ := .EOF, Literal := "", Line := 2, Column := 5 }] ∧
    ((NextToken latin1Tables 64 (NewLexer ('/' :: '*' :: " a\n /* b".data))).1.Line = 1 →
      2 ≤ (NextToken latin1Tables 64 (NewLexer ('/' :: '*' :: " a\n /* b".data))).1.Column) :=
  ⟨by decide, by decide,
    (NextToken_unterminated_comment latin1Tables 64 " a\n /* b".data (by decide)).2.2.1⟩

/-! ## Invalid escape sequences -/

theorem readString_invalid_escape (l : Lexer) (body decoded : List Char)
    (hdec : decodeBody body = some decoded) (c : Char) (rest : List Char) (hc : c ≠ NUL)
    (he : escapeOf c = none) (hpos : positionedAt (readChar l) (body ++ '\\' :: c :: rest)) :
    (readString l).1 = .error "Invalid escape sequence in string" ∧
    positionedAt (readString l).2 (c :: rest) := by
  obtain ⟨n2, hn2, heq⟩ := readStringLoop_body ('\\' :: c :: rest) 1 body.length body le_rfl
    decoded hdec ((readChar l).reader.length + 2) [] (readChar l) hpos
    (readString_fuel _ _ _ hpos)
  obtain ⟨n3, rfl⟩ : ∃ n3, n2 = n3 + 1 := ⟨n2 - 1, by omega⟩
  have hq := positionedAt_iterate_append ('\\' :: c :: rest) body (readChar l) hpos
  have hq1 := ((positionedAt_cons _ _ _).mp hq).1
  have hq2 := positionedAt_readChar_of _ _ _ hq
  have hq3 := ((positionedAt_cons _ _ _).mp hq2).1
  simp only [readString, heq, readStringLoop_invalid_escape n3 _ _ hq1 (by rw [hq3]; exact hc)
    (by rw [hq3]; exact he)]
  exact ⟨trivial, hq2⟩

/-- C20. Invalid escape sequence. For every prefix `p` of ordinary runes and
valid escape pairs, every rune `c` other than NUL, `b`, `t`, `n`, `f`, the
backslash and the double quote, and every `rest`, `NextToken` on the double
quote, `p`, a backslash, `c` and `rest` returns an ERROR token with literal
"Invalid escape sequence in string" at the position of the opening quote, and
no STR_CONST; the scanner has consumed the backslash and stands on `c`, so
that the next call starts scanning at `c` followed by `rest`. -/
theorem NextToken_invalid_escape (T : UnicodeTables) (intSize : Nat) (p decoded : List Char)
    (c : Char) (rest : List Char) (hdec : decodeBody p = some decoded)
    (hesc : escapeOf c = none) (hc : c ≠ NUL) :
    (NextToken T intSize (NewLexer ('"' :: (p ++ '\\' :: c :: rest)))).1 =
      { Typ := .ERROR, Literal := "Invalid escape sequence in string", Line := 1, Column := 1 } ∧
    positionedAt (NextToken T intSize (NewLexer ('"' :: (p ++ '\\' :: c :: rest)))).2
      (c :: rest) ∧
    ∀ n : Nat,
      (tokens T intSize n
        (NextToken T intSize (NewLexer ('"' :: (p ++ '\\' :: c :: rest)))).2).map kindLiteral =
      (tokens T intSize n (NewLexer (c :: rest))).map kindLiteral := by
  obtain ⟨h1, h2⟩ := readString_invalid_escape
    { reader := p ++ '\\' :: c :: rest, line := 1, column := 1, startLine := 1,
      startColumn := 1, char := '"' } p decoded hdec c rest hc hesc
    (readChar_positionedAt _ _ rfl)
  rw [NextToken_NewLexer_string_error T intSize (p ++ '\\' :: c :: rest) _ _ rfl h1]
  exact ⟨rfl, h2, fun n => tokens_of_positionedAt T intSize (c :: rest) _ h2 n⟩

theorem NextToken_invalid_escape_witness :
    decodeBody "a\\n".data = some "a\n".data ∧ escapeOf 'q' = none ∧ 'q' ≠ NUL ∧
    (NextToken latin1Tables 64 (NewLexer ('"' :: ("a\\n".data ++ '\\' :: 'q' :: "b\"".data)))).1 =
      { Typ := .ERROR, Literal := "Invalid escape sequence in string", Line := 1, Column := 1 } ∧
    positionedAt
      (NextToken latin1Tables 64 (NewLexer ('"' :: ("a\\n".data ++ '\\' :: 'q' :: "b\"".data)))).2
      ('q' :: "b\"".data) :=
  ⟨by decide, by decide, by decide,
    (NextToken_invalid_escape latin1Tables 64 "a\\n".data "a\n".data 'q' "b\"".data
      (by decide) (by decide) (by decide)).1,
    (NextToken_invalid_escape latin1Tables 64 "a\\n".data "a\n".data 'q' "b\"".data
      (by decide) (by decide) (by decide)).2.1⟩

/-- After the invalid escape `\q` in `"a\qb` the scanner stands on `q`, not on
`b`: the next token is the identifier `qb`, where lexing `b` alone gives the
identifier `b`. And a NUL after the backslash is reported as the end of the
input, not as an invalid escape. -/
theorem NextToken_invalid_escape_not_skipped :
    decodeBody "a".data = some "a".data ∧ escapeOf 'q' = none ∧
    (tokens latin1Tables 64 2 (NewLexer "\"a\\qb".data)).map kindLiteral =
      [(.ERROR, "Invalid escape sequence in string"), (.OBJECTID, "qb")] ∧
    (NextToken latin1Tables 64 (NewLexer "\"a\\qb".data)).2.char = 'q' ∧
    (NextToken latin1Tables 64 (NewLexer "\"a\\qb".data)).2.reader = "b".data ∧
    (tokens latin1Tables 64 1 (NewLexer "b".data)).map kindLiteral = [(.OBJECTID, "b")] ∧
    escapeOf NUL = none ∧
    (NextToken latin1Tables 64 (NewLexer ('"' :: 'a' :: '\\' :: NUL :: "b".data))).1.Literal =
      "EOF in string constant" := by
  decide

/-! ## The position of ERROR tokens -/

theorem skipWhiteSpace_not_space (T : UnicodeTables) (l : Lexer) :
    IsSpace T (skipWhiteSpace T l).char = false := by
  by_cases h : IsSpace T l.char = true
  · have hsplit : pending l = (pending l).takeWhile (IsSpace T) ++
        (pending l).dropWhile (IsSpace T) := (List.takeWhile_append_dropWhile _ _).symm
    have hne : (pending l).takeWhile (IsSpace T) ≠ [] := by
      simp [pending, List.takeWhile, h]
    have hpos := positionedAt_iterate _ _ l hne hsplit
    rw [skipWhiteSpace_eq, hpos.1]
    cases hd : (pending l).dropWhile (IsSpace T) with
    | nil => exact IsSpace_NUL T
    | cons c r =>
      have := List.head_dropWhile_not (IsSpace T) (pending l) (by rw [hd]; simp)
      simp only [hd, List.head_cons] at this
      simpa using this
  · rw [skipWhiteSpace_of_not_space T l (by simpa using h)]
    simpa using h

theorem skipBlockComment_false_char :
    ∀ (n : Nat) (l : Lexer), l.reader.length + 1 ≤ n ∨ l.char = NUL →
      (skipBlockComment n l).1 = false → (skipBlockComment n l).2.char = NUL := by
  intro n
  induction n with
  | zero =>
    intro l h _
    rcases h with h | h
    · omega
    · exact h
  | succ n ih =>
    intro l h hf
    by_cases c1 : l.char = NUL
    · simp only [skipBlockComment, c1, if_true]
    by_cases c2 : l.char = '*' ∧ peekChar l = '/'
    · have hz : ¬ ('*' = NUL) := by decide
      simp only [skipBlockComment, c1, if_false, c2, hz, and_self, if_true] at hf
      exact absurd hf (by decide)
    · simp only [skipBlockComment, c1, if_false, c2] at hf ⊢
      refine ih _ ?_ hf
      by_cases hr : l.reader = []
      · exact Or.inr (readChar_char_NUL_of_nil l hr)
      · have := readChar_reader_lt l hr
        rcases h with h | h
        · exact Or.inl (by omega)
        · exact absurd h c1

theorem readStringLoop_error_mem :
    ∀ (n : Nat) (sb : List Char) (l : Lexer) (e : String),
      (readStringLoop n sb l).1 = .error e → e ∈ stringErrors := by
  intro n
  induction n with
  | zero => intro sb l e h; cases h
  | succ n ih =>
    intro sb l e h
    by_cases c1 : l.char = '"'
    · rw [readStringLoop_quote n sb l c1] at h
      cases h
    by_cases c2 : l.char = NUL
    · rw [readStringLoop_NUL n sb l c2] at h
      cases h
      decide
    by_cases c3 : l.char = '\n'
    · rw [readStringLoop_newline n sb l c3] at h
      cases h
      decide
    by_cases c4 : l.char = '\\'
    · by_cases c5 : (readChar l).char = NUL
      · rw [readStringLoop_backslash_NUL n sb l c4 c5] at h
        cases h
        decide
      · cases he : escapeOf (readChar l).char with
        | none =>
          rw [readStringLoop_invalid_escape n sb l c4 c5 he] at h
          cases h
          decide
        | some x =>
          rw [readStringLoop_escape n sb l x c4 he] at h
          exact ih _ _ e h
    · rw [readStringLoop_ordinary n sb l (isOrdinary_of_ne _ c1 c2 c3 c4)] at h
      exact ih _ _ e h

theorem readString_error_mem (l : Lexer) (e : String) (h : (readString l).1 = .error e) :
    e ∈ stringErrors := by
  have h1 := readStringLoop_error_mem ((readChar l).reader.length + 2) [] (readChar l)
  simp only [readString] at h
  generalize readStringLoop ((readChar l).reader.length + 2) [] (readChar l) = x at h1 h
  obtain ⟨x1, x2⟩ := x
  cases x1 with
  | error e2 =>
    simp only at h
    exact h1 e h
  | ok sb =>
    simp only at h
    split_ifs at h
    · cases h
      decide
    · cases h
      decide

/-- A scanner that follows the input and stands on a rune other than NUL and
the newline has the line and the column of that rune in its counters. -/
theorem Tracks_current (input : List Char) (l : Lexer) (hI : Tracks input l)
    (hnul : l.char ≠ NUL) (hnl : l.char ≠ '\n') :
    ∃ pre, input = pre ++ l.char :: l.reader ∧ l.line = lineOf pre ∧
      l.column = columnOf pre + 1 := by
  obtain ⟨pre, h1, h2, h3, h4⟩ := hI
  obtain ⟨pre0, rfl⟩ := h4 hnul
  refine ⟨pre0, ?_, ?_, ?_⟩
  · rw [← h1]
    simp
  · rw [h2, lineOf_append pre0 _ hnl]
  · rw [h3, columnOf_append pre0 _ hnl]

/-- The errors of a string literal are reported at the opening quote, not at
the offending rune: in `"ab\qcd"` the rune `q` after the backslash is at line 1,
column 5, in `"ab` followed by a newline the newline is the fourth rune of line
1, and `"ab` ends at column 3, while the three ERROR tokens are at line 1,
column 1. -/
theorem string_error_at_opening_quote :
    tokens latin1Tables 64 1 (NewLexer "\"ab\\qcd\"".data) =
      [{ Typ := .ERROR, Literal := "Invalid escape sequence in string", Line := 1,
         Column := 1 }] ∧
    "\"ab\\qcd\"".data = "\"ab\\".data ++ 'q' :: "cd\"".data ∧
    lineOf "\"ab\\".data = 1 ∧ columnOf "\"ab\\".data + 1 = 5 ∧
    tokens latin1Tables 64 1 (NewLexer "\"ab\ncd\"".data) =
      [{ Typ := .ERROR, Literal := "Unterminated string constant", Line := 1, Column := 1 }] ∧
    "\"ab\ncd\"".data = "\"ab".data ++ '\n' :: "cd\"".data ∧
    lineOf "\"ab".data = 1 ∧ columnOf "\"ab".data + 1 = 4 ∧
    tokens latin1Tables 64 1 (NewLexer "\"ab".data) =
      [{ Typ := .ERROR, Literal := "EOF in string constant", Line := 1, Column := 1 }] ∧
    columnOf "\"ab".data = 3 := by
  decide

/-! ## Round trip -/

theorem tokens_single (T : UnicodeTables) (intSize : Nat) (lit : List Char) (t : Token)
    (l : Lexer) (h1 : NextToken T intSize (NewLexer lit) = (t, l)) (h2 : l.char = NUL) :
    (tokens T intSize 2 (NewLexer lit)).map kindLiteral = [kindLiteral t, (.EOF, "")] := by
  simp only [tokens, List.map_cons, List.map_nil, h1, NextToken_at_NUL T intSize l h2]
  rfl

theorem singleTokens_relex (T : UnicodeTables) (intSize : Nat) :
    ∀ e ∈ singleTokens,
      (tokens T intSize 2 (NewLexer e.2.2.data)).map kindLiteral = [(e.2.1, e.2.2), (.EOF, "")] := by
  intro e he
  have hsp : IsSpace T e.1 = false := by
    fin_cases he <;> simp [IsSpace, MaxLatin1]
  have hd : e.2.2.data = [e.1] := (singleTokens_kind e he).2.2.2.2.2
  rw [hd]
  refine tokens_single T intSize [e.1]
    { Typ := e.2.1, Literal := e.2.2, Line := 1, Column := 1 }
    { reader := [], line := 1, column := 1, startLine := 1, startColumn := 1, char := NUL }
    ?_ rfl
  rw [NextToken_NewLexer_cons T intSize e.1 [] hsp]
  fin_cases he <;> simp [NextTokenSwitch, NUL, peekChar, readChar]

theorem doubleTokens_relex (T : UnicodeTables) (intSize : Nat) :
    ∀ e ∈ doubleTokens,
      (tokens T intSize 2 (NewLexer e.2.2.2.data)).map kindLiteral =
        [(e.2.2.1, e.2.2.2), (.EOF, "")] := by
  intro e he
  have hsp : IsSpace T e.1 = false := by
    fin_cases he <;> simp [IsSpace, MaxLatin1]
  have hd : e.2.2.2.data = [e.1, e.2.1] := (doubleTokens_kind e he).2.2.2.2.2.2
  rw [hd]
  refine tokens_single T intSize [e.1, e.2.1]
    { Typ := e.2.2.1, Literal := e.2.2.2, Line := 1, Column := 1 }
    { reader := [], line := 1, column := 2, startLine := 1, startColumn := 1, char := NUL }
    ?_ rfl
  rw [NextToken_NewLexer_cons T intSize e.1 [e.2.1] hsp]
  fin_cases he <;> simp [NextTokenSwitch, NUL, peekChar, readChar]

theorem NextToken_NewLexer_nil (T : UnicodeTables) (intSize : Nat) :
    kindLiteral (NextToken T intSize (NewLexer [])).1 = (.EOF, "") := by
  rw [NextToken_NewLexer_eq, NextTokenAux_succ,
    skipWhiteSpace_of_not_space T _ (by rw [readChar_nil _ rfl]; exact IsSpace_NUL T)]
  simp [NextTokenSwitch, markStart, readChar, NewLexer, NUL, kindLiteral]

theorem iterate_readChar_end (l : Lexer) (w : List Char) (hw : w ≠ [])
    (h : pending l = w ++ []) : (readChar^[w.length] l).char = NUL :=
  ((positionedAt_nil _).mp (positionedAt_iterate [] w l hw h)).1

theorem takeWhile_pending (p : Char → Bool) (l : Lexer) (h : p l.char = true) :
    (pending l).takeWhile p = l.char :: l.reader.takeWhile p := by
  simp [pending, List.takeWhile, h]

/-- Lexing the run of digits that `readNumber` has read, alone. -/
theorem number_relex (T : UnicodeTables) (intSize : Nat) (l : Lexer)
    (hsp : IsSpace T l.char = false) (hd : IsDigit T l.char = true)
    (hA : (Atoi intSize (readNumber T l).1).isNone = false) :
    (tokens T intSize 2 (NewLexer (readNumber T l).1)).map kindLiteral =
      [(.INT_CONST, String.mk (readNumber T l).1), (.EOF, "")] := by
  have hrun : (readNumber T l).1 = l.char :: l.reader.takeWhile (IsDigit T) := by
    unfold readNumber
    rw [scanWhile_eq (IsDigit T) (IsDigit_NUL T) _ [] l (by omega), List.nil_append,
      takeWhile_pending _ l hd]
  rw [hrun] at hA ⊢
  have hall : ∀ x ∈ l.char :: l.reader.takeWhile (IsDigit T), IsDigit T x = true := by
    intro x hx
    rcases List.mem_cons.mp hx with rfl | hx
    · exact hd
    · exact (List.mem_takeWhile_imp hx)
  refine tokens_single T intSize _
    { Typ := .INT_CONST, Literal := String.mk (l.char :: l.reader.takeWhile (IsDigit T)),
      Line := 1, Column := 1 }
    (readChar^[(l.reader.takeWhile (IsDigit T)).length + 1]
      { reader := l.reader.takeWhile (IsDigit T), line := 1, column := 1, startLine := 1,
        startColumn := 1, char := l.char }) ?_ ?_
  · rw [NextToken_NewLexer_cons T intSize _ _ hsp,
      NextTokenSwitch_number T intSize _ _ l.char (l.reader.takeWhile (IsDigit T)) []
        (by simp [pending]) hall (by simp)]
    simp only [hA, Bool.false_eq_true, if_false]
  · exact iterate_readChar_end _ (l.char :: l.reader.takeWhile (IsDigit T)) (by simp)
      (by simp [pending])

/-- Lexing the run of identifier runes that `readIdentifier` has read, alone. -/
theorem identifier_relex (T : UnicodeTables) (intSize : Nat) (l : Lexer)
    (hsp : IsSpace T l.char = false) (hs : isIdentifierStart T l.char = true)
    (hd : IsDigit T l.char = false) :
    (tokens T intSize 2 (NewLexer (readIdentifier T l).1)).map kindLiteral =
      [(identifierType T (readIdentifier T l).1, String.mk (readIdentifier T l).1),
       (.EOF, "")] := by
  have hp : isIdentifierPart T l.char = true := by simp [isIdentifierPart, hs]
  have hrun : (readIdentifier T l).1 = l.char :: l.reader.takeWhile (isIdentifierPart T) := by
    unfold readIdentifier
    rw [scanWhile_eq (isIdentifierPart T) (isIdentifierPart_NUL T) _ [] l (by omega),
      List.nil_append, takeWhile_pending _ l hp]
  rw [hrun]
  refine tokens_single T intSize _
    { Typ := identifierType T (l.char :: l.reader.takeWhile (isIdentifierPart T)),
      Literal := String.mk (l.char :: l.reader.takeWhile (isIdentifierPart T)),
      Line := 1, Column := 1 }
    (readChar^[(l.reader.takeWhile (isIdentifierPart T)).length + 1]
      { reader := l.reader.takeWhile (isIdentifierPart T), line := 1, column := 1,
        startLine := 1, startColumn := 1, char := l.char }) ?_ ?_
  · rw [NextToken_NewLexer_cons T intSize _ _ hsp,
      NextTokenSwitch_identifier T intSize _ _ l.char
        (l.reader.takeWhile (isIdentifierPart T)) [] (by simp [pending]) hs hd
        (fun x hx => List.mem_takeWhile_imp hx) (by simp)]
  · exact iterate_readChar_end _ (l.char :: l.reader.takeWhile (isIdentifierPart T)) (by simp)
      (by simp [pending])

theorem NextTokenSwitch_roundTrips (T : UnicodeTables) (intSize : Nat)
    (again : Lexer → Token × Lexer) (l : Lexer) (hsp : IsSpace T l.char = false)
    (hag : ∀ l2, (again l2).1.Typ ≠ .STR_CONST → (again l2).1.Typ ≠ .ERROR →
      roundTrips T intSize (again l2).1) :
    (NextTokenSwitch T intSize again l).1.Typ ≠ .STR_CONST →
    (NextTokenSwitch T intSize again l).1.Typ ≠ .ERROR →
    roundTrips T intSize (NextTokenSwitch T intSize again l).1 := by
  refine NextTokenSwitch_cases T intSize again l
    (fun res => res.1.Typ ≠ .STR_CONST → res.1.Typ ≠ .ERROR → roundTrips T intSize res.1)
    ?_ ?_ ?_ ?_ ?_ ?_ ?_ ?_ ?_ ?_ ?_ ?_
  · intro _ _ _
    exact ⟨fun _ => ⟨rfl, NextToken_NewLexer_nil T intSize⟩, fun h => absurd rfl h⟩
  · intro e he _ _ _
    exact ⟨fun h => absurd h (singleTokens_kind e he).1,
      fun _ => singleTokens_relex T intSize e he⟩
  · intro e he _ _ _ _
    exact ⟨fun h => absurd h (doubleTokens_kind e he).1,
      fun _ => doubleTokens_relex T intSize e he⟩
  · intro _ _
    exact hag _
  · intro _ _ _ _ h
    exact absurd rfl h
  · intro _ _ _
    exact hag _
  · intro _ _ _ _ h
    exact absurd rfl h
  · intro _ _ _ h
    exact absurd rfl h
  · intro _ _ _ h
    exact absurd rfl h
  · intro hd hA _ _
    exact ⟨fun h => TokenType.noConfusion h, fun _ => number_relex T intSize l hsp hd hA⟩
  · intro hs hd _ _
    exact ⟨fun h => absurd h (identifierType_ne_EOF T _),
      fun _ => identifier_relex T intSize l hsp hs hd⟩
  · intro _ _ _ _ _ _ h
    exact absurd rfl h

theorem NextTokenAux_roundTrips (T : UnicodeTables) (intSize : Nat) :
    ∀ (n : Nat) (l : Lexer), (NextTokenAux T intSize n l).1.Typ ≠ .STR_CONST →
      (NextTokenAux T intSize n l).1.Typ ≠ .ERROR →
      roundTrips T intSize (NextTokenAux T intSize n l).1 := by
  intro n
  induction n with
  | zero =>
    intro l _ _
    exact ⟨fun _ => ⟨rfl, NextToken_NewLexer_nil T intSize⟩, fun h => absurd rfl h⟩
  | succ n ih =>
    intro l
    rw [NextTokenAux_succ]
    exact NextTokenSwitch_roundTrips T intSize _ _ (skipWhiteSpace_not_space T l) ih

/-- C14. Round trip. For every input and every token `t` returned by successive
calls of `NextToken` whose kind is neither STR_CONST nor ERROR, lexing the
literal of `t` alone as a fresh input returns exactly one token, of the kind
and with the literal of `t`, and then EOF; for `t` of kind EOF the literal is
empty and the fresh input returns EOF at once. -/
theorem round_trip (T : UnicodeTables) (intSize : Nat) (input : List Char) (n : Nat)
    (t : Token) (ht : t ∈ tokens T intSize n (NewLexer input))
    (h1 : t.Typ ≠ .STR_CONST) (h2 : t.Typ ≠ .ERROR) : roundTrips T intSize t := by
  have key : ∀ (k : Nat) (l : Lexer), ∀ x ∈ tokens T intSize k l,
      x.Typ ≠ .STR_CONST → x.Typ ≠ .ERROR → roundTrips T intSize x := by
    intro k
    induction k with
    | zero => intro l x hx; simp [tokens] at hx
    | succ k ih =>
      intro l x hx
      simp only [tokens, List.mem_cons] at hx
      rcases hx with rfl | hx
      · exact NextTokenAux_roundTrips T intSize _ l
      · exact ih _ x hx
  exact key n _ t ht h1 h2

theorem round_trip_witness :
    ({ Typ := .TYPEID, Literal := "Main", Line := 1, Column := 7 } : Token) ∈
      tokens latin1Tables 64 3 (NewLexer "class Main".data) ∧
    (tokens latin1Tables 64 2 (NewLexer "Main".data)).map kindLiteral =
      [(.TYPEID, "Main"), (.EOF, "")] :=
  ⟨by decide,
    (round_trip latin1Tables 64 "class Main".data 3
      { Typ := .TYPEID, Literal := "Main", Line := 1, Column := 7 } (by decide)
      (by decide) (by decide)).2 (by decide)⟩

/-! ## ASCII input: the range tables are not consulted -/

theorem asciiState_readChar (l : Lexer) (h : asciiState l) : asciiState (readChar l) := by
  obtain ⟨h1, h2⟩ := h
  cases hr : l.reader with
  | nil =>
    rw [readChar_nil l hr]
    exact ⟨(by decide : NUL.toNat ≤ MaxASCII), by simp [hr]⟩
  | cons c r =>
    obtain ⟨e1, e2⟩ := readChar_char_cons l c r hr
    refine ⟨?_, ?_⟩
    · rw [e1]
      exact h2 c (by rw [hr]; exact List.mem_cons_self _ _)
    · rw [e2]
      intro x hx
      exact h2 x (by rw [hr]; exact List.mem_cons_of_mem _ hx)

theorem asciiState_pending (l : Lexer) (h : asciiState l) :
    ∀ c ∈ pending l, c.toNat ≤ MaxASCII := by
  intro c hc
  rcases List.mem_cons.mp hc with rfl | hc
  · exact h.1
  · exact h.2 c hc

theorem tables_ascii (T T2 : UnicodeTables) (c : Char) (h : c.toNat ≤ MaxASCII) :
    IsSpace T c = IsSpace T2 c ∧ IsDigit T c = IsDigit T2 c ∧
    isIdentifierStart T c = isIdentifierStart T2 c ∧
    isIdentifierPart T c = isIdentifierPart T2 c ∧
    unicodeToLower T c = unicodeToLower T2 c ∧ IsUpper T c = IsUpper T2 c := by
  have h1 : c.toNat ≤ MaxLatin1 := le_trans h (by decide)
  simp [IsSpace, IsDigit, isIdentifierStart, isIdentifierPart, IsLetter, unicodeToLower,
    IsUpper, h, h1]

theorem scanWhile_tables (p q : Char → Bool) (hpq : ∀ c, c.toNat ≤ MaxASCII → p c = q c) :
    ∀ (n : Nat) (sb : List Char) (l : Lexer), asciiState l →
      scanWhile p n sb l = scanWhile q n sb l := by
  intro n
  induction n with
  | zero => intro sb l _; rfl
  | succ n ih =>
    intro sb l h
    simp only [scanWhile, hpq l.char h.1, ih _ _ (asciiState_readChar l h)]

theorem identifierType_tables (T T2 : UnicodeTables) (identifier : List Char)
    (h : ∀ c ∈ identifier, c.toNat ≤ MaxASCII) :
    identifierType T identifier = identifierType T2 identifier := by
  have h1 : ToLower T identifier = ToLower T2 identifier := by
    unfold ToLower
    exact List.map_congr_left (fun c hc => (tables_ascii T T2 c (h c hc)).2.2.2.2.1)
  cases identifier with
  | nil => simp only [identifierType, h1]
  | cons c cs =>
    have hc := h c (List.mem_cons_self _ _)
    have h2 : leadByte c = c.toNat := by
      have : c.toNat < 0x80 := by
        have : MaxASCII = 0x7F := rfl
        omega
      simp [leadByte, this]
    have h3 : IsUpper T (Char.ofNat (leadByte c)) = IsUpper T2 (Char.ofNat (leadByte c)) := by
      rw [h2, Char.ofNat_toNat]
      exact (tables_ascii T T2 c hc).2.2.2.2.2
    simp only [identifierType, h1, h3]

theorem scanWhile_ascii (p : Char → Bool) (hp : p NUL = false) (l : Lexer)
    (h : asciiState l) :
    ∀ c ∈ (scanWhile p (l.reader.length + 2) [] l).1, c.toNat ≤ MaxASCII := by
  rw [scanWhile_eq p hp _ [] l (by omega)]
  intro c hc
  simp only [List.nil_append] at hc
  exact asciiState_pending l h c ((List.takeWhile_prefix p).subset hc)

/-- On a state of ASCII runes the switch does not depend on the range
tables. -/
theorem NextTokenSwitch_tables (T T2 : UnicodeTables) (intSize : Nat)
    (again again2 : Lexer → Token × Lexer) (l : Lexer) (h : asciiState l)
    (hag : ∀ l2, asciiState l2 → again l2 = again2 l2) :
    NextTokenSwitch T intSize again l = NextTokenSwitch T2 intSize again2 l := by
  have r1 := asciiState_readChar l h
  have r2 := asciiState_readChar _ r1
  by_cases q5 : l.char = '/'
  · simp only [NextTokenSwitch, q5]
    simp only [NUL, Char.reduceEq, if_true, if_false]
    by_cases k1 : peekChar l = '/'
    · simp only [k1, if_true]
      exact hag _ (closed_scanWhile asciiState asciiState_readChar _ _ _ l h)
    · by_cases k2 : peekChar l = '*'
      · simp only [k2, if_true, Char.reduceEq, if_false]
        have hs := closed_skipBlockComment asciiState asciiState_readChar
          (l.reader.length + 2) (readChar (readChar l)) r2
        generalize skipBlockComment (l.reader.length + 2) (readChar (readChar l)) = x at hs
        obtain ⟨x1, x2⟩ := x
        cases x1
        · rfl
        · exact hag _ hs
      · simp only [k1, k2, if_false]
  · obtain ⟨t1, t2, t3, _, _, _⟩ := tables_ascii T T2 l.char h.1
    have hnum : readNumber T l = readNumber T2 l :=
      scanWhile_tables _ _ (fun c hc => (tables_ascii T T2 c hc).2.1) _ _ l h
    have hid : readIdentifier T l = readIdentifier T2 l :=
      scanWhile_tables _ _ (fun c hc => (tables_ascii T T2 c hc).2.2.2.1) _ _ l h
    have hty : identifierType T (readIdentifier T2 l).1 =
        identifierType T2 (readIdentifier T2 l).1 :=
      identifierType_tables T T2 _ (scanWhile_ascii _ (isIdentifierPart_NUL T2) l h)
    simp only [NextTokenSwitch, q5, if_false, t2, t3, hnum, hid]
    generalize readIdentifier T2 l = x at hty
    obtain ⟨x1, x2⟩ := x
    simp only at hty
    simp only [hty]

theorem NextTokenAux_tables (T T2 : UnicodeTables) (intSize : Nat) :
    ∀ (n : Nat) (l : Lexer), asciiState l →
      NextTokenAux T intSize n l = NextTokenAux T2 intSize n l := by
  intro n
  induction n with
  | zero => intro l _; rfl
  | succ n ih =>
    intro l h
    have hsp : skipWhiteSpace T l = skipWhiteSpace T2 l := by
      unfold skipWhiteSpace
      rw [scanWhile_tables _ _ (fun c hc => (tables_ascii T T2 c hc).1) _ _ l h]
    rw [NextTokenAux_succ, NextTokenAux_succ, hsp]
    exact NextTokenSwitch_tables T T2 intSize _ _ _
      (closed_scanWhile asciiState asciiState_readChar _ _ _ l h) ih

/-- On an input of ASCII runes the tokens do not depend on the range tables. -/
theorem tokens_tables (T T2 : UnicodeTables) (intSize : Nat) :
    ∀ (n : Nat) (l : Lexer), asciiState l → tokens T intSize n l = tokens T2 intSize n l := by
  intro n
  induction n with
  | zero => intro l _; rfl
  | succ n ih =>
    intro l h
    have h1 : NextToken T intSize l = NextToken T2 intSize l :=
      NextTokenAux_tables T T2 intSize _ l h
    have h2 : asciiState (NextToken T2 intSize l).2 :=
      closed_NextTokenAux T2 intSize asciiState asciiState_readChar (fun _ x => x) _ l h
    simp only [tokens, h1, ih _ h2]

/-- C16. Scenario. Successive calls of `NextToken` on the input
`class Main { x : Int <- 5; };` return exactly the tokens CLASS "class", TYPEID
"Main", LBRACE, OBJECTID "x", COLON, TYPEID "Int", ASSIGN "<-", INT_CONST "5",
SEMI, RBRACE, SEMI and EOF "" in that order, whatever the range tables, with
`int` of 64 bits and of 32 bits. -/
theorem scenario_class_Main (T : UnicodeTables) :
    (tokens T 64 12 (NewLexer "class Main \x7b x : Int <- 5; \x7d;".data)).map kindLiteral =
      [(.CLASS, "class"), (.TYPEID, "Main"), (.LBRACE, "\x7b"), (.OBJECTID, "x"),
       (.COLON, ":"), (.TYPEID, "Int"), (.ASSIGN, "<-"), (.INT_CONST, "5"), (.SEMI, ";"),
       (.RBRACE, "\x7d"), (.SEMI, ";"), (.EOF, "")] ∧
    (tokens T 32 12 (NewLexer "class Main \x7b x : Int <- 5; \x7d;".data)).map kindLiteral =
      [(.CLASS, "class"), (.TYPEID, "Main"), (.LBRACE, "\x7b"), (.OBJECTID, "x"),
       (.COLON, ":"), (.TYPEID, "Int"), (.ASSIGN, "<-"), (.INT_CONST, "5"), (.SEMI, ";"),
       (.RBRACE, "\x7d"), (.SEMI, ";"), (.EOF, "")] := by
  have h : asciiState (NewLexer "class Main \x7b x : Int <- 5; \x7d;".data) := by
    refine ⟨by decide, ?_⟩
    decide
  rw [tokens_tables T latin1Tables 64 12 _ h, tokens_tables T latin1Tables 32 12 _ h]
  decide

/-! ## The position of a token is that of its own first rune -/

theorem Skippable_spaces (T : UnicodeTables) (gap : List Char) (h : Skippable T gap) :
    ∀ ws : List Char, (∀ c ∈ ws, IsSpace T c = true) → Skippable T (ws ++ gap) := by
  intro ws
  induction ws with
  | nil => intro _; exact h
  | cons c ws ih =>
    intro hws
    exact Skippable.space c _ (hws c (List.mem_cons_self _ _))
      (ih (fun x hx => hws x (List.mem_cons_of_mem _ hx)))

theorem tokenStart_cons (T : UnicodeTables) (x : List Char) (h : tokenStart T x) :
    ∃ c more, x = c :: more ∧ IsSpace T c = false ∧ c ≠ NUL ∧
      (c = '/' → more.head? ≠ some '/' ∧ more.head? ≠ some '*') := by
  cases x with
  | nil => exact absurd h (by simp [tokenStart])
  | cons c more => exact ⟨c, more, rfl, h⟩

/-- A line comment that is followed, after skipped runes, by the first rune of a
token ends at a newline, and the comment with what follows it is skipped. -/
theorem Skippable_line (T : UnicodeTables) (s gap x r2 : List Char) (hs : NUL ∉ s)
    (hnl : '\n' ∉ s) (hgap : Skippable T gap) (hr : r2 = gap ++ x) (hx : tokenStart T x)
    (hhead : ∀ d, r2.head? = some d → d = '\n' ∨ d = NUL) :
    Skippable T ('/' :: '/' :: (s ++ gap)) := by
  obtain ⟨c, more, rfl, h1, h2, _⟩ := tokenStart_cons T x hx
  cases hgap with
  | nil =>
    have := hhead c (by rw [hr]; rfl)
    rcases this with rfl | rfl
    · simp [IsSpace, MaxLatin1] at h1
    · exact absurd rfl h2
  | space d gap2 hd hg2 =>
    have := hhead d (by rw [hr]; rfl)
    rcases this with rfl | rfl
    · exact Skippable.line s gap2 hs hnl hg2
    · rw [IsSpace_NUL] at hd
      exact absurd hd (by decide)
  | line s2 gap2 _ _ _ =>
    have := hhead '/' (by rw [hr]; rfl)
    rcases this with h | h
    · exact absurd h (by decide)
    · exact absurd h (by decide)
  | block b2 gap2 _ _ _ =>
    have := hhead '/' (by rw [hr]; rfl)
    rcases this with h | h
    · exact absurd h (by decide)
    · exact absurd h (by decide)

theorem startsFrom_prefix (T : UnicodeTables) (done cm r2 : List Char) (t : Token)
    (x : List Char)
    (hsk : ∀ gap, Skippable T gap → r2 = gap ++ x → tokenStart T x → Skippable T (cm ++ gap))
    (h : startsFrom T (done ++ cm) r2 t x) : startsFrom T done (cm ++ r2) t x := by
  obtain ⟨gap, h1, h2, h3, h4, h5⟩ := h
  refine ⟨cm ++ gap, ?_, hsk gap h2 h1 h3, h3, ?_, ?_⟩
  · rw [h1, List.append_assoc]
  · rw [h4, List.append_assoc]
  · rw [h5, List.append_assoc]

theorem scannedFrom_prefix (T : UnicodeTables) (input done cm r2 : List Char)
    (res : Token × Lexer)
    (hsk : ∀ gap x, Skippable T gap → r2 = gap ++ x → tokenStart T x →
      Skippable T (cm ++ gap))
    (h : scannedFrom T input (done ++ cm) r2 res) : scannedFrom T input done (cm ++ r2) res := by
  obtain ⟨h1, h2⟩ := h
  refine ⟨?_, ?_⟩
  · intro a b
    obtain ⟨lexeme, rest, e1, e2, e3⟩ := h1 a b
    exact ⟨lexeme, rest, startsFrom_prefix T done cm r2 _ _ (fun g => hsk g _) e1, e2, e3⟩
  · intro a
    rcases h2 a with e | ⟨c, more, e1, e2⟩
    · exact Or.inl e
    · exact Or.inr ⟨c, more, startsFrom_prefix T done cm r2 _ _ (fun g => hsk g _) e1, e2⟩

theorem positionedAt_markStart (l : Lexer) (r : List Char) (h : positionedAt l r) :
    positionedAt (markStart l) r := h

theorem positionedAt_of_ne_NUL (l : Lexer) (r : List Char) (h : positionedAt l r)
    (hc : l.char ≠ NUL) : r = l.char :: l.reader := by
  cases r with
  | nil => exact absurd ((positionedAt_nil l).mp h).1 hc
  | cons c r1 =>
    obtain ⟨h1, h2⟩ := (positionedAt_cons l c r1).mp h
    rw [h1, h2]

/-- Skipping white space consumes the white space the scanner is positioned at
and nothing more. -/
theorem skipWhiteSpace_split (T : UnicodeTables) (l : Lexer) (r : List Char)
    (h : positionedAt l r) :
    ∃ ws r2, r = ws ++ r2 ∧ (∀ c ∈ ws, IsSpace T c = true) ∧
      positionedAt (skipWhiteSpace T l) r2 := by
  have hlen : ((pending l).takeWhile (IsSpace T)).length = (r.takeWhile (IsSpace T)).length := by
    cases r with
    | nil =>
      obtain ⟨h1, h2⟩ := (positionedAt_nil l).mp h
      simp [pending, h1, h2, List.takeWhile, IsSpace_NUL]
    | cons c r1 =>
      obtain ⟨h1, h2⟩ := (positionedAt_cons l c r1).mp h
      simp [pending, h1, h2]
  refine ⟨r.takeWhile (IsSpace T), r.dropWhile (IsSpace T),
    (List.takeWhile_append_dropWhile _ _).symm, fun c hc => List.mem_takeWhile_imp hc, ?_⟩
  rw [skipWhiteSpace_eq, hlen]
  exact positionedAt_iterate_append _ _ l (by rw [List.takeWhile_append_dropWhile]; exact h)

/-- The block-comment loop, when it finds the end of the comment, has consumed a
body without NUL and without `*/`, and the `*/` that follows it. -/
theorem skipBlockComment_true :
    ∀ (n : Nat) (l : Lexer) (x : List Char), positionedAt l x →
      (skipBlockComment n l).1 = true →
      ∃ body rest, x = body ++ '*' :: '/' :: rest ∧ NUL ∉ body ∧
        hasCommentEnd body = false ∧ positionedAt (skipBlockComment n l).2 rest := by
  intro n
  induction n with
  | zero => intro l x _ h; exact absurd h (by simp [skipBlockComment])
  | succ n ih =>
    intro l x hpos h
    by_cases c1 : l.char = NUL
    · simp only [skipBlockComment, c1, if_true] at h
      exact absurd h (by decide)
    have hx := positionedAt_of_ne_NUL l x hpos c1
    by_cases c2 : l.char = '*' ∧ peekChar l = '/'
    · have hz : ¬ ('*' = NUL) := by decide
      obtain ⟨tail, ht⟩ := reader_of_peekChar l '/' c2.2 (by decide)
      refine ⟨[], tail, ?_, by simp, rfl, ?_⟩
      · rw [hx, c2.1, ht]
        rfl
      · simp only [skipBlockComment, c1, if_false, c2, hz, and_self, if_true]
        exact positionedAt_readChar_readChar l '/' tail ht
    · simp only [skipBlockComment, c1, if_false, c2] at h ⊢
      obtain ⟨body, rest, e1, e2, e3, e4⟩ :=
        ih (readChar l) l.reader (readChar_positionedAt l _ rfl) h
      refine ⟨l.char :: body, rest, ?_, ?_, ?_, e4⟩
      · rw [hx, e1]
        rfl
      · intro hm
        rcases List.mem_cons.mp hm with hm | hm
        · exact c1 hm.symm
        · exact e2 hm
      · simp only [hasCommentEnd, e3, Bool.or_false, Bool.and_eq_false_iff,
          beq_eq_false_iff_ne, ne_eq]
        by_cases c3 : l.char = '*'
        · right
          intro hh
          apply c2
          refine ⟨c3, ?_⟩
          cases body with
          | nil => simp at hh
          | cons b bs =>
            simp only [List.head?_cons, Option.some.injEq] at hh
            simp [peekChar, e1, hh]
        · exact Or.inl c3

theorem decodeBody_ordinary (c : Char) (rest d : List Char) (hc : isOrdinary c = true)
    (h : decodeBody rest = some d) : decodeBody (c :: rest) = some (c :: d) := by
  have hb : ¬ c = '\\' := by
    simp only [isOrdinary, Bool.and_eq_true, bne_iff_ne, ne_eq] at hc
    exact hc.1.1.2
  rw [decodeBody.eq_def]
  simp only [hb, if_false, hc, if_true, h]

theorem decodeBody_escape (e x : Char) (rest d : List Char) (he : escapeOf e = some x)
    (h : decodeBody rest = some d) : decodeBody ('\\' :: e :: rest) = some (x :: d) := by
  rw [decodeBody.eq_def]
  simp only [if_true, he, h]

/-- The loop of `readString`, when it ends at a closing quote, has read a body
of ordinary runes and escape pairs and appended what the body decodes to. -/
theorem readStringLoop_ok :
    ∀ (n : Nat) (sb : List Char) (l : Lexer) (x : List Char), positionedAt l x →
      (l.reader.length + 2 ≤ n ∨ (l.char = NUL ∧ 1 ≤ n)) →
      ∀ out, (readStringLoop n sb l).1 = .ok out →
        ∃ body decoded rest, x = body ++ '"' :: rest ∧ decodeBody body = some decoded ∧
          out = sb ++ decoded ∧ positionedAt (readStringLoop n sb l).2 ('"' :: rest) := by
  intro n
  induction n with
  | zero => intro sb l x _ h; omega
  | succ n ih =>
    intro sb l x hpos hn out hout
    by_cases c1 : l.char = '"'
    · have hx := positionedAt_of_ne_NUL l x hpos (by rw [c1]; decide)
      rw [readStringLoop_quote n sb l c1] at hout ⊢
      cases hout
      refine ⟨[], [], l.reader, ?_, rfl, by simp, ?_⟩
      · rw [hx, c1]
        rfl
      · rw [← c1, ← hx]
        exact hpos
    by_cases c2 : l.char = NUL
    · rw [readStringLoop_NUL n sb l c2] at hout
      cases hout
    have hx := positionedAt_of_ne_NUL l x hpos c2
    have hn : l.reader.length + 2 ≤ n + 1 := by
      rcases hn with h | h
      · exact h
      · exact absurd h.1 c2
    by_cases c3 : l.char = '\n'
    · rw [readStringLoop_newline n sb l c3] at hout
      cases hout
    by_cases c4 : l.char = '\\'
    · by_cases c5 : (readChar l).char = NUL
      · rw [readStringLoop_backslash_NUL n sb l c4 c5] at hout
        cases hout
      · cases he : escapeOf (readChar l).char with
        | none =>
          rw [readStringLoop_invalid_escape n sb l c4 c5 he] at hout
          cases hout
        | some e =>
          have hr : l.reader ≠ [] := fun hr => c5 (readChar_char_NUL_of_nil l hr)
          have hlt := readChar_reader_lt l hr
          rw [readStringLoop_escape n sb l e c4 he] at hout ⊢
          have hp1 : positionedAt (readChar l) l.reader := readChar_positionedAt l _ rfl
          have hx1 := positionedAt_of_ne_NUL _ _ hp1 c5
          obtain ⟨body, decoded, rest, e1, e2, e3, e4⟩ :=
            ih (sb ++ [e]) (readChar (readChar l)) (readChar l).reader
              (readChar_positionedAt _ _ rfl)
              (by
                by_cases hr2 : (readChar l).reader = []
                · exact Or.inr ⟨readChar_char_NUL_of_nil _ hr2, by omega⟩
                · have := readChar_reader_lt _ hr2
                  exact Or.inl (by omega)) out hout
          refine ⟨'\\' :: (readChar l).char :: body, e :: decoded, rest, ?_,
            decodeBody_escape _ _ _ _ he e2, ?_, e4⟩
          · rw [hx, c4, hx1, e1]
            rfl
          · rw [e3]
            simp
    · have ho := isOrdinary_of_ne _ c1 c2 c3 c4
      rw [readStringLoop_ordinary n sb l ho] at hout ⊢
      obtain ⟨body, decoded, rest, e1, e2, e3, e4⟩ :=
        ih (sb ++ [l.char]) (readChar l) l.reader (readChar_positionedAt l _ rfl)
          (by
            by_cases hr : l.reader = []
            · exact Or.inr ⟨readChar_char_NUL_of_nil l hr, by omega⟩
            · have := readChar_reader_lt l hr
              exact Or.inl (by omega)) out hout
      refine ⟨l.char :: body, l.char :: decoded, rest, ?_, decodeBody_ordinary _ _ _ ho e2, ?_, e4⟩
      · rw [hx, e1]
        rfl
      · rw [e3]
        simp

/-- The method `readString`, when it returns a string, has read a body that
decodes to it and the closing quote. -/
theorem readString_ok (l : Lexer) (str : List Char) (h : (readString l).1 = .ok str) :
    ∃ body rest, l.reader = body ++ '"' :: rest ∧ decodeBody body = some str ∧
      positionedAt (readString l).2 rest := by
  have key := readStringLoop_ok ((readChar l).reader.length + 2) [] (readChar l) l.reader
    (readChar_positionedAt l _ rfl) (Or.inl le_rfl)
  simp only [readString] at h ⊢
  generalize readStringLoop ((readChar l).reader.length + 2) [] (readChar l) = res at key h
  obtain ⟨r1, r2⟩ := res
  cases r1 with
  | error e =>
    simp only at h
    cases h
  | ok sb =>
    obtain ⟨body, decoded, rest, e1, e2, e3, e4⟩ := key sb rfl
    simp only at h e4 ⊢
    have hsb : sb = decoded := by simpa using e3
    subst hsb
    split_ifs at h ⊢
    cases h
    exact ⟨body, rest, e1, e2, readChar_positionedAt r2 _ ((positionedAt_cons _ _ _).mp e4).2⟩

theorem head?_of_peekChar_ne (l : Lexer) (c : Char) (h : peekChar l ≠ c) :
    l.reader.head? ≠ some c := by
  cases hr : l.reader with
  | nil => simp
  | cons d r =>
    simp only [peekChar, hr] at h
    simpa using h

theorem NulFree_of_positionedAt (input done r : List Char) (l : Lexer)
    (hin : input = done ++ r) (hpos : positionedAt l r) (hnul : NUL ∉ input) : NulFree l := by
  have hr : NUL ∉ r := fun h => hnul (by rw [hin]; exact List.mem_append_right _ h)
  cases r with
  | nil =>
    obtain ⟨_, h2⟩ := (positionedAt_nil l).mp hpos
    exact ⟨by rw [h2]; simp, fun _ => h2⟩
  | cons c r1 =>
    obtain ⟨h1, h2⟩ := (positionedAt_cons l c r1).mp hpos
    refine ⟨?_, ?_⟩
    · rw [h2]
      exact fun h => hr (List.mem_cons_of_mem _ h)
    · intro hc
      exact absurd (by rw [← hc, h1]; exact List.mem_cons_self _ _) hr

/-- The scanner at the switch stands on the first rune of what it has still to
scan, and its counters are the position of that rune. -/
theorem startsFrom_here (T : UnicodeTables) (input done r : List Char) (s : Lexer) (t : Token)
    (hin : input = done ++ r) (hpos : positionedAt s r) (hI : Tracks input s)
    (hs : s.startLine = s.line ∧ s.startColumn = s.column) (hsp : IsSpace T s.char = false)
    (hnul : s.char ≠ NUL)
    (hslash : s.char = '/' → s.reader.head? ≠ some '/' ∧ s.reader.head? ≠ some '*')
    (hl : t.Line = s.startLine) (hc : t.Column = s.startColumn) :
    startsFrom T done r t (s.char :: s.reader) := by
  have hx := positionedAt_of_ne_NUL s r hpos hnul
  have hnl : s.char ≠ '\n' := by
    intro hh
    rw [hh] at hsp
    simp [IsSpace, MaxLatin1] at hsp
  obtain ⟨pre, p1, p2, p3⟩ := Tracks_current input s hI hnul hnl
  have hd : done = pre := by
    rw [hin, hx] at p1
    exact List.append_cancel_right p1
  subst hd
  refine ⟨[], by rw [hx]; rfl, Skippable.nil, ⟨hsp, hnul, hslash⟩, ?_, ?_⟩
  · rw [List.append_nil, hl, hs.1, p2]
  · rw [List.append_nil, hc, hs.2, p3]

/-- A loop that collects a run of runes from the current rune on: the run is
not empty, it is followed by the runes left, and the scanner is positioned at
these. -/
theorem scanWhile_split (p : Char → Bool) (hp : p NUL = false) (s : Lexer)
    (h : p s.char = true) :
    ∃ w rest, w ≠ [] ∧ s.char :: s.reader = w ++ rest ∧
      scanWhile p (s.reader.length + 2) [] s = (w, readChar^[w.length] s) ∧
      positionedAt (readChar^[w.length] s) rest := by
  have hnul : s.char ≠ NUL := by
    intro hh
    rw [hh, hp] at h
    exact absurd h (by decide)
  refine ⟨(pending s).takeWhile p, (pending s).dropWhile p, ?_, ?_, ?_, ?_⟩
  · rw [takeWhile_pending p s h]
    exact List.cons_ne_nil _ _
  · exact (List.takeWhile_append_dropWhile p (pending s)).symm
  · rw [scanWhile_eq p hp _ [] s (by omega), List.nil_append]
  · refine positionedAt_iterate_append _ _ s ?_
    rw [List.takeWhile_append_dropWhile]
    exact (positionedAt_cons s _ _).mpr ⟨rfl, rfl⟩

theorem dropWhile_head (p : Char → Bool) (l : List Char) :
    ∀ d, (l.dropWhile p).head? = some d → p d = false := by
  intro d hd
  cases hl : l.dropWhile p with
  | nil => simp [hl] at hd
  | cons c r =>
    have := List.head_dropWhile_not p l (by rw [hl]; simp)
    simp only [hl, List.head_cons] at this
    rw [hl] at hd
    simp only [List.head?_cons, Option.some.injEq] at hd
    rw [← hd]
    simpa using this

theorem takeWhile_two (p : Char → Bool) (a b : Char) (l : List Char) (ha : p a = true)
    (hb : p b = true) : (a :: b :: l).takeWhile p = a :: b :: l.takeWhile p := by
  simp [List.takeWhile, ha, hb]

/-- The switch of `NextToken`, for a scanner that has consumed `done` and stands
at `r` with white space skipped: the token returned is at its own first rune,
when the calls after a comment return such tokens. -/
theorem NextTokenSwitch_scanned (T : UnicodeTables) (intSize : Nat) (input : List Char)
    (again : Lexer → Token × Lexer) (s : Lexer) (done r : List Char)
    (hin : input = done ++ r) (hpos : positionedAt s r) (hI : Tracks input s)
    (hs : s.startLine = s.line ∧ s.startColumn = s.column) (hsp : IsSpace T s.char = false)
    (hag : ∀ l2 done2 r2, input = done2 ++ r2 → positionedAt l2 r2 → Tracks input l2 →
      scannedFrom T input done2 r2 (again l2)) :
    scannedFrom T input done r (NextTokenSwitch T intSize again s) := by
  by_cases q5 : s.char = '/'
  · have hx := positionedAt_of_ne_NUL s r hpos (by rw [q5]; decide)
    by_cases k1 : peekChar s = '/'
    · rw [NextTokenSwitch_line_comment T intSize again s q5 k1]
      obtain ⟨tail, ht⟩ := reader_of_peekChar s '/' k1 (by decide)
      have hw : (pending s).takeWhile (fun c => c != '\n' && c != NUL) =
          '/' :: '/' :: tail.takeWhile (fun c => c != '\n' && c != NUL) := by
        simp only [pending, q5, ht]
        exact takeWhile_two _ '/' '/' tail (by decide) (by decide)
      have e : (scanWhile (fun c => c != '\n' && c != NUL) (s.reader.length + 2) [] s).2 =
          readChar^[('/' :: '/' :: tail.takeWhile (fun c => c != '\n' && c != NUL)).length] s := by
        rw [scanWhile_eq _ (by decide) _ [] s (by omega), hw]
      have hr : r = ('/' :: '/' :: tail.takeWhile (fun c => c != '\n' && c != NUL)) ++
          tail.dropWhile (fun c => c != '\n' && c != NUL) := by
        rw [hx, q5, ht]
        simp [List.takeWhile_append_dropWhile]
      have hp2 : positionedAt
          (scanWhile (fun c => c != '\n' && c != NUL) (s.reader.length + 2) [] s).2
          (tail.dropWhile (fun c => c != '\n' && c != NUL)) := by
        rw [e]
        exact positionedAt_iterate_append _ _ s (by rw [← hr]; exact hpos)
      have key := hag _ (done ++ '/' :: '/' :: tail.takeWhile (fun c => c != '\n' && c != NUL))
        _ (by rw [hin, hr, List.append_assoc]) hp2 (Tracks_scanWhile input _ _ _ s hI)
      rw [hr]
      refine scannedFrom_prefix T input done _ _ _ ?_ key
      intro gap x hgap hrx hxs
      refine Skippable_line T _ gap x _ ?_ ?_ hgap hrx hxs ?_
      · intro hm
        have := List.mem_takeWhile_imp hm
        simp at this
      · intro hm
        have := List.mem_takeWhile_imp hm
        simp at this
      · intro d hd
        have := dropWhile_head _ _ d hd
        simp only [Bool.and_eq_false_iff, bne_eq_false_iff_eq] at this
        exact this
    · by_cases k2 : peekChar s = '*'
      · rw [NextTokenSwitch_block_comment T intSize again s q5 k2]
        obtain ⟨tail, ht⟩ := reader_of_peekChar s '*' k2 (by decide)
        have hp1 := positionedAt_readChar_readChar s '*' tail ht
        have htr := Tracks_skipBlockComment input (s.reader.length + 2) (readChar (readChar s))
          (Tracks_readChar input _ (Tracks_readChar input s hI))
        have hch := skipBlockComment_false_char (s.reader.length + 2) (readChar (readChar s))
          (Or.inl (by
            have a1 := readChar_reader_length_le s
            have a2 := readChar_reader_length_le (readChar s)
            omega))
        have hnf : NUL ∉ input → NulFree
            (skipBlockComment (s.reader.length + 2) (readChar (readChar s))).2 := fun hh =>
          closed_skipBlockComment NulFree NulFree_readChar _ _
            (NulFree_readChar _ (NulFree_readChar s
              (NulFree_of_positionedAt input done r s hin hpos hh)))
        have htrue := skipBlockComment_true (s.reader.length + 2) (readChar (readChar s))
          tail hp1
        generalize skipBlockComment (s.reader.length + 2) (readChar (readChar s)) = res
          at htr hch hnf htrue
        obtain ⟨b, l2⟩ := res
        cases b with
        | false =>
          refine ⟨fun _ h => absurd rfl h, fun _ => Or.inl ⟨rfl, hch rfl, ?_⟩⟩
          obtain ⟨pre, p1, p2, p3, _⟩ := htr
          exact ⟨pre, p1.symm, p2, p3, fun hh => (hnf hh).2 (hch rfl)⟩
        | true =>
          obtain ⟨body, rest, e1, e2, e3, e4⟩ := htrue rfl
          have hr : r = ('/' :: '*' :: (body ++ ['*', '/'])) ++ rest := by
            rw [hx, q5, ht, e1]
            simp
          have key := hag l2 (done ++ '/' :: '*' :: (body ++ ['*', '/'])) rest
            (by rw [hin, hr, List.append_assoc]) e4 htr
          rw [hr]
          refine scannedFrom_prefix T input done _ _ _ ?_ key
          intro gap x hgap _ _
          have := Skippable.block body gap e2 e3 hgap
          simpa using this
      · have hev : NextTokenSwitch T intSize again s =
            ({ Typ := .DIVIDE, Literal := "/", Line := s.startLine, Column := s.startColumn },
              readChar s) := by
          simp only [NextTokenSwitch, q5]
          simp only [NUL, Char.reduceEq, if_true, if_false, k1, k2]
        rw [hev]
        refine ⟨fun _ _ => ⟨['/'], s.reader, ?_,
          Or.inr ⟨fun h => TokenType.noConfusion h, rfl, by simp⟩,
          readChar_positionedAt s _ rfl⟩, fun h => TokenType.noConfusion h⟩
        have := startsFrom_here T input done r s ⟨.DIVIDE, "/", s.startLine, s.startColumn⟩
          hin hpos hI hs hsp (by rw [q5]; decide)
          (fun _ => ⟨head?_of_peekChar_ne s _ k1, head?_of_peekChar_ne s _ k2⟩) rfl rfl
        rw [q5] at this
        exact this
  · have base : ∀ t : Token, s.char ≠ NUL → t.Line = s.startLine → t.Column = s.startColumn →
        startsFrom T done r t (s.char :: s.reader) := fun t hnul hl hc =>
      startsFrom_here T input done r s t hin hpos hI hs hsp hnul (fun h => absurd h q5) hl hc
    refine NextTokenSwitch_cases T intSize again s (scannedFrom T input done r)
      ?_ ?_ ?_ ?_ ?_ ?_ ?_ ?_ ?_ ?_ ?_ ?_
    · intro _
      exact ⟨fun h => absurd rfl h, fun h => TokenType.noConfusion h⟩
    · intro e he hc
      obtain ⟨_, k2, k3, k4, _, k6⟩ := singleTokens_kind e he
      refine ⟨fun _ _ => ⟨[s.char], s.reader, base _ (by rw [hc]; exact k4) rfl rfl,
        Or.inr ⟨k3, by rw [hc]; exact k6.symm, by simp⟩, readChar_positionedAt s _ rfl⟩,
        fun h => absurd h k2⟩
    · intro e he hc hp
      obtain ⟨_, k2, k3, k4, _, k6, k7⟩ := doubleTokens_kind e he
      obtain ⟨tail, ht⟩ := reader_of_peekChar s _ hp k6
      refine ⟨fun _ _ => ⟨[s.char, e.2.1], tail, ?_,
        Or.inr ⟨k3, by rw [hc]; exact k7.symm, by simp⟩,
        positionedAt_readChar_readChar s _ tail ht⟩, fun h => absurd h k2⟩
      have := base ⟨e.2.2.1, e.2.2.2, s.startLine, s.startColumn⟩ (by rw [hc]; exact k4) rfl rfl
      rw [ht] at this
      exact this
    · intro q _
      exact absurd q q5
    · intro q _ _
      exact absurd q q5
    · intro q _ _
      exact absurd q q5
    · intro hq e he
      exact ⟨fun _ h => absurd rfl h, fun _ => Or.inr ⟨s.char, s.reader,
        base _ (by rw [hq]; decide) rfl rfl, Or.inl ⟨hq, readString_error_mem s e he⟩⟩⟩
    · intro hq str hstr
      obtain ⟨body, rest, e1, e2, e3⟩ := readString_ok s str hstr
      refine ⟨fun _ _ => ⟨'"' :: (body ++ ['"']), rest, ?_, Or.inl ⟨rfl, body, rfl, e2⟩, e3⟩,
        fun h => TokenType.noConfusion h⟩
      have := base ⟨.STR_CONST, String.mk str, s.startLine, s.startColumn⟩
        (by rw [hq]; decide) rfl rfl
      rw [hq, e1] at this
      simpa using this
    · intro hd _
      exact ⟨fun _ h => absurd rfl h, fun _ => Or.inr ⟨s.char, s.reader,
        base _ (IsDigit_ne T _ hd).2.1 rfl rfl, Or.inr (Or.inl ⟨hd, rfl⟩)⟩⟩
    · intro hd _
      obtain ⟨w, rest, w1, w2, w3, w4⟩ := scanWhile_split (IsDigit T) (IsDigit_NUL T) s hd
      have e : readNumber T s = (w, readChar^[w.length] s) := w3
      rw [e]
      refine ⟨fun _ _ => ⟨w, rest, ?_, Or.inr ⟨fun h => TokenType.noConfusion h, rfl, w1⟩, w4⟩,
        fun h => TokenType.noConfusion h⟩
      rw [← w2]
      exact base _ (IsDigit_ne T _ hd).2.1 rfl rfl
    · intro hst _
      have hp : isIdentifierPart T s.char = true := by simp [isIdentifierPart, hst]
      obtain ⟨w, rest, w1, w2, w3, w4⟩ :=
        scanWhile_split (isIdentifierPart T) (isIdentifierPart_NUL T) s hp
      have e : readIdentifier T s = (w, readChar^[w.length] s) := w3
      rw [e]
      refine ⟨fun _ _ => ⟨w, rest, ?_,
        Or.inr ⟨identifierType_ne_STR_CONST T w, rfl, w1⟩, w4⟩,
        fun h => absurd h (identifierType_ne_ERROR T w)⟩
      rw [← w2]
      exact base _ (isIdentifierStart_ne T _ hst).2.1 rfl rfl
    · intro hnul _ _ _ _
      exact ⟨fun _ h => absurd rfl h, fun _ => Or.inr ⟨s.char, s.reader,
        base _ hnul rfl rfl, Or.inr (Or.inr rfl)⟩⟩

theorem NextTokenAux_scanned (T : UnicodeTables) (intSize : Nat) (input : List Char) :
    ∀ (n : Nat) (l : Lexer) (done r : List Char), input = done ++ r → positionedAt l r →
      Tracks input l → scannedFrom T input done r (NextTokenAux T intSize n l) := by
  intro n
  induction n with
  | zero =>
    intro l done r _ _ _
    exact ⟨fun h => absurd rfl h, fun h => TokenType.noConfusion h⟩
  | succ n ih =>
    intro l done r hin hpos hI
    obtain ⟨ws, r2, e1, e2, e3⟩ := skipWhiteSpace_split T l r hpos
    rw [NextTokenAux_succ, e1]
    refine scannedFrom_prefix T input done ws r2 _
      (fun gap _ hgap _ _ => Skippable_spaces T gap hgap ws e2) ?_
    exact NextTokenSwitch_scanned T intSize input _ _ (done ++ ws) r2
      (by rw [hin, e1, List.append_assoc]) (positionedAt_markStart _ _ e3)
      (Tracks_markStart input _ (Tracks_scanWhile input _ _ _ l hI)) ⟨rfl, rfl⟩
      (skipWhiteSpace_not_space T l) ih

/-! ## The position is determined by the input and the scanner before the call -/

theorem append_cons_inj_of_not_mem (d : Char) :
    ∀ (a a2 x x2 : List Char), d ∉ a → d ∉ a2 → a ++ d :: x = a2 ++ d :: x2 →
      a = a2 ∧ x = x2 := by
  intro a
  induction a with
  | nil =>
    intro a2 x x2 _ h2 h
    cases a2 with
    | nil => exact ⟨rfl, by simpa using h⟩
    | cons c a3 =>
      simp only [List.nil_append, List.cons_append, List.cons.injEq] at h
      exact absurd (by rw [h.1]; exact List.mem_cons_self _ _) h2
  | cons c a ih =>
    intro a2 x x2 h1 h2 h
    cases a2 with
    | nil =>
      simp only [List.nil_append, List.cons_append, List.cons.injEq] at h
      exact absurd (by rw [← h.1]; exact List.mem_cons_self _ _) h1
    | cons c2 a3 =>
      simp only [List.cons_append, List.cons.injEq] at h
      obtain ⟨e1, e2⟩ := ih a3 x x2 (fun hh => h1 (List.mem_cons_of_mem _ hh))
        (fun hh => h2 (List.mem_cons_of_mem _ hh)) h.2
      exact ⟨by rw [h.1, e1], e2⟩

theorem commentEnd_first (b x x2 : List Char) (c : Char) (hb : hasCommentEnd (c :: b) = false)
    (h : '*' :: '/' :: x = (c :: b) ++ '*' :: '/' :: x2) : False := by
  simp only [List.cons_append, List.cons.injEq] at h
  obtain ⟨h1, h2⟩ := h
  obtain ⟨e1, _⟩ := hasCommentEnd_cons c b hb
  apply e1
  refine ⟨h1.symm, ?_⟩
  cases b with
  | nil =>
    simp only [List.nil_append, List.cons.injEq] at h2
    exact absurd h2.1 (by decide)
  | cons d b2 =>
    simp only [List.cons_append, List.cons.injEq] at h2
    simp [← h2.1]

theorem commentEnd_inj :
    ∀ (b b2 x x2 : List Char), hasCommentEnd b = false → hasCommentEnd b2 = false →
      b ++ '*' :: '/' :: x = b2 ++ '*' :: '/' :: x2 → b = b2 ∧ x = x2 := by
  intro b
  induction b with
  | nil =>
    intro b2 x x2 _ h2 h
    cases b2 with
    | nil => exact ⟨rfl, by simpa using h⟩
    | cons c b3 => exact absurd (commentEnd_first b3 x x2 c h2 h) id
  | cons c b ih =>
    intro b2 x x2 h1 h2 h
    cases b2 with
    | nil => exact absurd (commentEnd_first b x2 x c h1 h.symm) id
    | cons c2 b3 =>
      simp only [List.cons_append, List.cons.injEq] at h
      obtain ⟨e1, e2⟩ := ih b3 x x2 (hasCommentEnd_cons c b h1).2
        (hasCommentEnd_cons c2 b3 h2).2 h.2
      exact ⟨by rw [h.1, e1], e2⟩

/-- The gap before the first rune of a token is determined by the runes it is
taken from: skipped runes end where a token starts. -/
theorem Skippable_pinned (T : UnicodeTables) :
    ∀ g1 : List Char, Skippable T g1 → ∀ g2 x1 x2 : List Char, Skippable T g2 →
      tokenStart T x1 → tokenStart T x2 → g1 ++ x1 = g2 ++ x2 → g1 = g2 := by
  have hslash : IsSpace T '/' = false := (IsSpace_punct T).2.2
  intro g1 h1
  induction h1 with
  | nil =>
    intro g2 x1 x2 h2 t1 _ heq
    obtain ⟨c1, m1, rfl, a1, _, a3⟩ := tokenStart_cons T x1 t1
    cases h2 with
    | nil => rfl
    | space c g hc _ =>
      simp only [List.nil_append, List.cons_append, List.cons.injEq] at heq
      rw [heq.1, hc] at a1
      exact absurd a1 (by decide)
    | line s g _ _ _ =>
      simp only [List.nil_append, List.cons_append, List.cons.injEq] at heq
      exact absurd (by rw [heq.2]; rfl) (a3 heq.1).1
    | block b g _ _ _ =>
      simp only [List.nil_append, List.cons_append, List.cons.injEq] at heq
      exact absurd (by rw [heq.2]; rfl) (a3 heq.1).2
  | space c g hc _ ih =>
    intro g2 x1 x2 h2 t1 t2 heq
    obtain ⟨c2, m2, rfl, b1, _, _⟩ := tokenStart_cons T x2 t2
    cases h2 with
    | nil =>
      simp only [List.nil_append, List.cons_append, List.cons.injEq] at heq
      rw [← heq.1, hc] at b1
      exact absurd b1 (by decide)
    | space c3 g3 _ hg3 =>
      simp only [List.cons_append, List.cons.injEq] at heq
      rw [heq.1, ih g3 x1 _ hg3 t1 t2 heq.2]
    | line s g3 _ _ _ =>
      simp only [List.cons_append, List.cons.injEq] at heq
      rw [heq.1, hslash] at hc
      exact absurd hc (by decide)
    | block b g3 _ _ _ =>
      simp only [List.cons_append, List.cons.injEq] at heq
      rw [heq.1, hslash] at hc
      exact absurd hc (by decide)
  | line s g hs hnl _ ih =>
    intro g2 x1 x2 h2 t1 t2 heq
    obtain ⟨c2, m2, rfl, _, _, b3⟩ := tokenStart_cons T x2 t2
    cases h2 with
    | nil =>
      simp only [List.nil_append, List.cons_append, List.cons.injEq] at heq
      exact absurd (by rw [← heq.2]; rfl) (b3 heq.1.symm).1
    | space c3 g3 hc3 _ =>
      simp only [List.cons_append, List.cons.injEq] at heq
      rw [← heq.1, hslash] at hc3
      exact absurd hc3 (by decide)
    | line s3 g3 _ hnl3 hg3 =>
      simp only [List.cons_append, List.append_assoc, List.cons.injEq, true_and] at heq
      obtain ⟨e1, e2⟩ := append_cons_inj_of_not_mem '\n' s s3 _ _ hnl hnl3 heq
      rw [e1, ih g3 x1 _ hg3 t1 t2 e2]
    | block b g3 _ _ _ =>
      simp only [List.cons_append, List.cons.injEq] at heq
      exact absurd heq.2.1 (by decide)
  | block b g hb he _ ih =>
    intro g2 x1 x2 h2 t1 t2 heq
    obtain ⟨c2, m2, rfl, _, _, b3⟩ := tokenStart_cons T x2 t2
    cases h2 with
    | nil =>
      simp only [List.nil_append, List.cons_append, List.cons.injEq] at heq
      exact absurd (by rw [← heq.2]; rfl) (b3 heq.1.symm).2
    | space c3 g3 hc3 _ =>
      simp only [List.cons_append, List.cons.injEq] at heq
      rw [← heq.1, hslash] at hc3
      exact absurd hc3 (by decide)
    | line s3 g3 _ _ _ =>
      simp only [List.cons_append, List.cons.injEq] at heq
      exact absurd heq.2.1 (by decide)
    | block b3 g3 _ he3 hg3 =>
      simp only [List.cons_append, List.append_assoc, List.cons.injEq, true_and] at heq
      obtain ⟨e1, e2⟩ := commentEnd_inj b b3 _ _ he he3 heq
      rw [e1, ih g3 x1 _ hg3 t1 t2 e2]

/-- What a scanner has still to scan before a call is determined by the scanner
and the input. -/
theorem unreadAt_pinned (input done r done2 r2 : List Char) (l : Lexer)
    (h1 : input = done ++ r) (h2 : unreadAt input l r) (h3 : input = done2 ++ r2)
    (h4 : unreadAt input l r2) (hr : r ≠ []) (hr2 : r2 ≠ []) : done = done2 ∧ r = r2 := by
  have fresh : ∀ (d x : List Char), input = d ++ x → positionedAt l x → x ≠ [] →
      l = NewLexer input → False := by
    intro d x e1 e2 e3 e4
    obtain ⟨c, x1, rfl⟩ := List.exists_cons_of_ne_nil e3
    have e5 := ((positionedAt_cons l c x1).mp e2).2
    rw [e4] at e5
    have e6 : input = x1 := e5
    have := congrArg List.length e1
    rw [← e6] at this
    simp at this
    omega
  have hr3 : r = r2 := by
    rcases h2 with ⟨a1, a2⟩ | a
    · rcases h4 with ⟨_, b2⟩ | b
      · rw [a2, b2]
      · exact absurd (fresh done2 r2 h3 b hr2 a1) id
    · rcases h4 with ⟨b1, _⟩ | b
      · exact absurd (fresh done r h1 a hr b1) id
      · obtain ⟨c, x1, rfl⟩ := List.exists_cons_of_ne_nil hr
        obtain ⟨c2, x2, rfl⟩ := List.exists_cons_of_ne_nil hr2
        obtain ⟨p1, p2⟩ := (positionedAt_cons l c x1).mp a
        obtain ⟨p3, p4⟩ := (positionedAt_cons l c2 x2).mp b
        rw [← p1, ← p2, ← p3, ← p4]
  subst hr3
  rw [h1] at h3
  exact ⟨List.append_cancel_right h3, rfl⟩

/-- The rune a token can be placed at is determined by the input and the
scanner before the call: two tokens placed from the same scanner are at the
same rune and have the same line and column. -/
theorem firstRuneAt_unique (T : UnicodeTables) (input : List Char) (before : Lexer)
    (t t2 : Token) (x x2 : List Char) (h : firstRuneAt T input before t x)
    (h2 : firstRuneAt T input before t2 x2) :
    x = x2 ∧ t.Line = t2.Line ∧ t.Column = t2.Column := by
  obtain ⟨done, r, a1, a2, gap, a3, a4, a5, a6, a7⟩ := h
  obtain ⟨done2, r2, b1, b2, gap2, b3, b4, b5, b6, b7⟩ := h2
  have hx : x ≠ [] := by
    obtain ⟨c, m, e, _⟩ := tokenStart_cons T x a5
    rw [e]
    exact List.cons_ne_nil _ _
  have hx2 : x2 ≠ [] := by
    obtain ⟨c, m, e, _⟩ := tokenStart_cons T x2 b5
    rw [e]
    exact List.cons_ne_nil _ _
  obtain ⟨e1, e2⟩ := unreadAt_pinned input done r done2 r2 before a1 a2 b1 b2
    (by rw [a3]; simp [hx]) (by rw [b3]; simp [hx2])
  rw [a3, b3] at e2
  have e3 := Skippable_pinned T gap a4 gap2 x x2 b4 a5 b5 e2
  rw [e3] at e2
  exact ⟨List.append_cancel_left e2, by rw [a6, b6, e1, e3], by rw [a7, b7, e1, e3]⟩

/-- No other line and column than those of the token's own first rune fit
`located`: tokens located from the same scanner have the same position. -/
theorem located_unique (T : UnicodeTables) (input : List Char) (before after after2 : Lexer)
    (t t2 : Token) (h : located T input before after t)
    (h2 : located T input before after2 t2) : t.Line = t2.Line ∧ t.Column = t2.Column := by
  obtain ⟨lexeme, rest, a1, _, _⟩ := h
  obtain ⟨lexeme2, rest2, b1, _, _⟩ := h2
  exact (firstRuneAt_unique T input before t t2 _ _ a1 b1).2

/-- No other line and column than those of the first rune of the text in error
fit `atLexemeStart`. -/
theorem atLexemeStart_unique (T : UnicodeTables) (input : List Char) (before : Lexer)
    (t t2 : Token) (h : atLexemeStart T input before t)
    (h2 : atLexemeStart T input before t2) : t.Line = t2.Line ∧ t.Column = t2.Column := by
  obtain ⟨c, more, a1, _⟩ := h
  obtain ⟨c2, more2, b1, _⟩ := h2
  exact (firstRuneAt_unique T input before t t2 _ _ a1 b1).2

/-- The token of call `k + 1` is the one `NextToken` returns on the scanner left
by the first `k` calls. -/
theorem tokens_eq_map_run (T : UnicodeTables) (intSize : Nat) :
    ∀ (n : Nat) (l : Lexer), tokens T intSize n l =
      (List.range n).map (fun k => (NextToken T intSize (run T intSize k l)).1) := by
  intro n
  induction n with
  | zero => intro l; rfl
  | succ n ih =>
    intro l
    rw [List.range_succ_eq_map, List.map_cons, List.map_map]
    simp only [tokens, ih]
    rfl

theorem standing_readChar (input : List Char) (l : Lexer)
    (h : Tracks input l ∧ ∃ done r, input = done ++ r ∧ positionedAt l r) :
    Tracks input (readChar l) ∧ ∃ done r, input = done ++ r ∧ positionedAt (readChar l) r := by
  obtain ⟨h1, done, r, h2, h3⟩ := h
  refine ⟨Tracks_readChar input l h1, done ++ r.take 1, r.drop 1, ?_, ?_⟩
  · rw [List.append_assoc, List.take_append_drop]
    exact h2
  · have := readChar_positionedAt l _ h3.2
    rw [List.drop_one]
    exact this

/-- Every call of `NextToken` on a fresh scanner starts from a split of the
input into the runes consumed and the runes still to scan, and returns a token
that is placed in the runes still to scan. -/
theorem run_scanned (T : UnicodeTables) (intSize : Nat) (input : List Char) (k : Nat) :
    ∃ done r, input = done ++ r ∧ unreadAt input (run T intSize k (NewLexer input)) r ∧
      scannedFrom T input done r (NextToken T intSize (run T intSize k (NewLexer input))) := by
  have h0 : Tracks input (readChar (NewLexer input)) :=
    Tracks_readChar_of input (NewLexer input) [] rfl rfl rfl
  have p0 : positionedAt (readChar (NewLexer input)) input := readChar_positionedAt _ _ rfl
  cases k with
  | zero =>
    refine ⟨[], input, rfl, Or.inl ⟨rfl, rfl⟩, ?_⟩
    simp only [run]
    rw [NextToken_NewLexer_eq]
    exact NextTokenAux_scanned T intSize input _ _ [] input rfl p0 h0
  | succ k =>
    have h1 : Tracks input (NextToken T intSize (NewLexer input)).2 ∧ ∃ done r,
        input = done ++ r ∧ positionedAt (NextToken T intSize (NewLexer input)).2 r := by
      rw [NextToken_NewLexer_eq]
      exact closed_NextTokenAux T intSize
        (fun l => Tracks input l ∧ ∃ done r, input = done ++ r ∧ positionedAt l r)
        (standing_readChar input) (fun _ x => x) _ _ ⟨h0, [], input, rfl, p0⟩
    have h2 := closed_run T intSize
      (fun l => Tracks input l ∧ ∃ done r, input = done ++ r ∧ positionedAt l r)
      (standing_readChar input) (fun _ x => x) k _ h1
    obtain ⟨h3, done, r, h4, h5⟩ := h2
    exact ⟨done, r, h4, Or.inr h5, NextTokenAux_scanned T intSize input _ _ done r h4 h5 h3⟩

/-- C6. Position tracking. Every token that is neither EOF nor ERROR, returned
by any call `k + 1` of `NextToken` on any input (so on every input without
NUL), carries the position of its own first rune: the runes the scanner has
still to scan before the call are a gap of skipped white space and comments,
the text of the token, and the runes at which the call leaves the scanner; the
line of the token is 1 plus the number of newlines before the first rune of its
text, and its column is the 1-based index of that rune within its line, the
skipped white space and comments counted. -/
theorem token_position (T : UnicodeTables) (intSize : Nat) (input : List Char) (k : Nat)
    (h1 : (NextToken T intSize (run T intSize k (NewLexer input))).1.Typ ≠ .EOF)
    (h2 : (NextToken T intSize (run T intSize k (NewLexer input))).1.Typ ≠ .ERROR) :
    located T input (run T intSize k (NewLexer input))
      (NextToken T intSize (run T intSize k (NewLexer input))).2
      (NextToken T intSize (run T intSize k (NewLexer input))).1 := by
  obtain ⟨done, r, e1, e2, e3, _⟩ := run_scanned T intSize input k
  obtain ⟨lexeme, rest, a1, a2, a3⟩ := e3 h1 h2
  exact ⟨lexeme, rest, ⟨done, r, e1, e2, a1⟩, a2, a3⟩

theorem token_position_witness :
    (NextToken latin1Tables 64 (run latin1Tables 64 1 (NewLexer "x \"ab\" \"cd\"".data))).1 =
      { Typ := .STR_CONST, Literal := "ab", Line := 1, Column := 3 } ∧
    located latin1Tables "x \"ab\" \"cd\"".data
      (run latin1Tables 64 1 (NewLexer "x \"ab\" \"cd\"".data))
      (NextToken latin1Tables 64 (run latin1Tables 64 1 (NewLexer "x \"ab\" \"cd\"".data))).2
      (NextToken latin1Tables 64 (run latin1Tables 64 1 (NewLexer "x \"ab\" \"cd\"".data))).1 ∧
    ∀ (after : Lexer) (t : Token),
      located latin1Tables "x \"ab\" \"cd\"".data
        (run latin1Tables 64 1 (NewLexer "x \"ab\" \"cd\"".data)) after t →
      t.Line = 1 ∧ t.Column = 3 :=
  ⟨by decide, token_position latin1Tables 64 "x \"ab\" \"cd\"".data 1 (by decide) (by decide),
    fun after t h => located_unique latin1Tables _ _ _ _ t _ h
      (token_position latin1Tables 64 "x \"ab\" \"cd\"".data 1 (by decide) (by decide))⟩

/-- C19. The position of ERROR tokens. Every ERROR token, returned by any call
`k + 1` of `NextToken` on any input, either is "EOF in comment" and carries the
counters of the scanner stopped at the end of the input, where the unterminated
comment was detected, or carries the position of the first rune of the text in
error, which follows a gap of skipped white space and comments in what the
scanner has still to scan before the call: the opening quote of the literal for
the errors of a string literal, the first digit for a number out of range, the
rune itself for an unexpected character. -/
theorem error_token_position (T : UnicodeTables) (intSize : Nat) (input : List Char) (k : Nat)
    (hE : (NextToken T intSize (run T intSize k (NewLexer input))).1.Typ = .ERROR) :
    ((NextToken T intSize (run T intSize k (NewLexer input))).1.Literal = "EOF in comment" ∧
      atInputEnd input (NextToken T intSize (run T intSize k (NewLexer input))).1
        (NextToken T intSize (run T intSize k (NewLexer input))).2) ∨
    atLexemeStart T input (run T intSize k (NewLexer input))
      (NextToken T intSize (run T intSize k (NewLexer input))).1 := by
  obtain ⟨done, r, e1, e2, _, e3⟩ := run_scanned T intSize input k
  rcases e3 hE with h | ⟨c, more, a1, a2⟩
  · exact Or.inl h
  · exact Or.inr ⟨c, more, ⟨done, r, e1, e2, a1⟩, a2⟩

theorem error_token_position_witness :
    (NextToken latin1Tables 64 (run latin1Tables 64 1 (NewLexer "x \"a\\\"b\\qc\"".data))).1 =
      { Typ := .ERROR, Literal := "Invalid escape sequence in string", Line := 1,
        Column := 3 } ∧
    atLexemeStart latin1Tables "x \"a\\\"b\\qc\"".data
      (run latin1Tables 64 1 (NewLexer "x \"a\\\"b\\qc\"".data))
      (NextToken latin1Tables 64 (run latin1Tables 64 1 (NewLexer "x \"a\\\"b\\qc\"".data))).1 ∧
    ∀ t : Token,
      atLexemeStart latin1Tables "x \"a\\\"b\\qc\"".data
        (run latin1Tables 64 1 (NewLexer "x \"a\\\"b\\qc\"".data)) t →
      t.Line = 1 ∧ t.Column = 3 :=
  ⟨by decide,
    (error_token_position latin1Tables 64 "x \"a\\\"b\\qc\"".data 1 (by decide)).resolve_left
      (fun h => absurd h.1 (by decide)),
    fun t h => atLexemeStart_unique latin1Tables _ _ t _ h
      ((error_token_position latin1Tables 64 "x \"a\\\"b\\qc\"".data 1
        (by decide)).resolve_left (fun h => absurd h.1 (by decide)))⟩

end CoolLexer
